import Mathlib

/-!
# marquee: a shallow embedding of `src/marquee.c`

Bytes are natural numbers (`0..255`), a C string is the list of its bytes (reading
stops at the first `0` byte or at the end of the list, where the terminating NUL
sits).  `int`/`short` values are `Int`; counters that the code only ever increments
from `0` (`width`, `segment_idx`, `segment_count`, `total_width`, `next_pair_id`)
are `Nat`: the raw buffer holds at most `MAX_LINES * 1024` bytes, so none of them
can reach `2^31`.  An access outside the 256-entry table of
`get_or_create_color_pair` has no defined behaviour in C; the embedding returns
`none` there.  Allocation (`strndup`, `malloc`) is taken to succeed.
-/

namespace Marquee

/-! ## Constants -/

def MAX_LINES : Nat := 256
def MAX_SEGMENTS_PER_LINE : Nat := 128
def MAX_TEXT_PER_SEGMENT : Nat := 512
/-- ncurses `COLOR_WHITE`. -/
def COLOR_WHITE : Int := 7
/-- ncurses `KEY_RESIZE` (octal 0632). -/
def KEY_RESIZE : Int := 410
/-- Number of entries of `static PairDef defined_pairs[256]`. -/
def PAIR_TABLE_SIZE : Nat := 256

/-! ## Data structures -/

structure TextSegment where
  text : List Nat
  width : Nat
  ncurses_pair_id : Nat
  deriving DecidableEq, Repr

/-- The array `segments[MAX_SEGMENTS_PER_LINE]` is a map from index to entry; the
entries parse_line does not write keep the value they had before the call. -/
structure MarqueeLine where
  segments : Nat → TextSegment
  segment_count : Nat
  total_width : Nat

structure AppConfig where
  direction : Int
  delay_us : Int
  repeat_count : Int
  ignore_interrupts : Bool
  deriving DecidableEq, Repr

structure AnimationState where
  position : Int
  screen_width : Int
  screen_height : Int
  deriving DecidableEq, Repr

/-! ## The colour-pair registry (`get_or_create_color_pair`) -/

structure PairDef where
  fg : Int
  bg : Int
  deriving DecidableEq, Repr

/-- The three `static` variables of `get_or_create_color_pair`. -/
structure Registry where
  defined_pairs : List PairDef
  next_pair_id : Nat
  is_initialized : Bool
  deriving DecidableEq, Repr

/-- The statics at program start: the table zero-filled, `next_pair_id = 1`,
`is_initialized = false`. -/
def Registry.fresh : Registry :=
  { defined_pairs := List.replicate PAIR_TABLE_SIZE ⟨0, 0⟩, next_pair_id := 1,
    is_initialized := false }

/-- Lines 74-78: the first call fills all 256 entries with `(-9, -9)`. -/
def Registry.ensure_initialized (reg : Registry) : Registry :=
  if reg.is_initialized then reg
  else { reg with defined_pairs := List.replicate PAIR_TABLE_SIZE ⟨-9, -9⟩,
                  is_initialized := true }

/-- Line 81: the key is rejected. -/
def invalid_color (fg bg : Int) : Prop := fg < -1 ∨ fg > 255 ∨ bg < -1 ∨ bg > 255

instance (fg bg : Int) : Decidable (invalid_color fg bg) := by
  unfold invalid_color; infer_instance

/-- Lines 84-88, the loop `for (short i = 1; i < next_pair_id; ++i)` from index `i`
with `n` iterations left.  `some (some i)`: found at `i`; `some none`: not found;
`none`: the loop read `defined_pairs[i]` with `i` outside the table. -/
def find_pair (pairs : List PairDef) (fg bg : Int) : Nat → Nat → Option (Option Nat)
  | _, 0 => some none
  | i, n + 1 =>
    if i < PAIR_TABLE_SIZE then
      match pairs[i]? with
      | none => none
      | some d =>
        if d.fg = fg ∧ d.bg = bg then some (some i)
        else find_pair pairs fg bg (i + 1) n
    else none

/-- The function `get_or_create_color_pair(fg, bg)` with the value of ncurses' `COLOR_PAIRS`;
returns the handle and the new statics, or `none` when the call indexes
`defined_pairs` outside `0..255`. -/
def get_or_create_color_pair (COLOR_PAIRS : Int) (reg : Registry) (fg bg : Int) :
    Option (Nat × Registry) :=
  let reg := reg.ensure_initialized
  if invalid_color fg bg then some (0, reg)
  else
    match find_pair reg.defined_pairs fg bg 1 (reg.next_pair_id - 1) with
    | none => none
    | some (some i) => some (i, reg)
    | some none =>
      if (reg.next_pair_id : Int) < COLOR_PAIRS then
        if reg.next_pair_id < PAIR_TABLE_SIZE then
          some (reg.next_pair_id,
            { reg with
              defined_pairs := reg.defined_pairs.set reg.next_pair_id ⟨fg, bg⟩,
              next_pair_id := reg.next_pair_id + 1 })
        else none
      else some (0, reg)

/-- A sequence of calls, the statics threaded through; the handles in call order. -/
def run_calls (COLOR_PAIRS : Int) : Registry → List (Int × Int) → Option (List Nat × Registry)
  | reg, [] => some ([], reg)
  | reg, k :: ks =>
    match get_or_create_color_pair COLOR_PAIRS reg k.1 k.2 with
    | none => none
    | some (h, reg1) =>
      match run_calls COLOR_PAIRS reg1 ks with
      | none => none
      | some (hs, reg2) => some (h :: hs, reg2)

/-- The keys the search loop looks at: entries `1 .. next_pair_id - 1`. -/
def Registry.keys (reg : Registry) : List PairDef :=
  (reg.defined_pairs.drop 1).take (reg.next_pair_id - 1)

/-- Shape of the statics in every execution: a 256-entry table, `next_pair_id` in
`1..256`, and `next_pair_id = 1` as long as the table is not initialised. -/
def Registry.wf (reg : Registry) : Prop :=
  reg.defined_pairs.length = PAIR_TABLE_SIZE ∧ 1 ≤ reg.next_pair_id ∧
    reg.next_pair_id ≤ PAIR_TABLE_SIZE ∧ (reg.is_initialized = false → reg.next_pair_id = 1)

instance (reg : Registry) : Decidable reg.wf := by
  unfold Registry.wf; infer_instance

/-- The statics after a call that registers the key `(fg, bg)`. -/
def Registry.register (reg : Registry) (fg bg : Int) : Registry :=
  { reg.ensure_initialized with
    defined_pairs := reg.ensure_initialized.defined_pairs.set reg.next_pair_id ⟨fg, bg⟩,
    next_pair_id := reg.next_pair_id + 1 }

/-- The keys `(0, -1), (1, -1), ..., (n - 1, -1)`: `n` distinct valid colour pairs. -/
def distinct_pairs (n : Nat) : List (Int × Int) :=
  (List.range n).map fun (i : Nat) => ((i : Int), (-1 : Int))

/-- The handle that the registry `reg` stands for at the key `(fg, bg)`: what a call
returned for this key, read back from the statics the call left. -/
def Registry.stands_for (C : Int) (reg : Registry) (fg bg : Int) (h : Nat) : Prop :=
  (invalid_color fg bg ∧ h = 0) ∨
  (¬ invalid_color fg bg ∧ (⟨fg, bg⟩ : PairDef) ∈ reg.keys ∧
    h = reg.keys.indexOf ⟨fg, bg⟩ + 1) ∨
  (¬ invalid_color fg bg ∧ (⟨fg, bg⟩ : PairDef) ∉ reg.keys ∧ h = 0 ∧
    ¬ ((reg.next_pair_id : Int) < C))

/-! ## Colour quantisation (`rgb_to_256`) -/

/-- Lines 190-195. -/
def clamp255 (x : Int) : Int :=
  let x := if x < 0 then 0 else x
  if x > 255 then 255 else x

/-- C `abs`. -/
def c_abs (x : Int) : Int := if x < 0 then -x else x

/-- The function `rgb_to_256`; every division has non-negative operands, where C's truncating
division and `/` agree. -/
def rgb_to_256 (r g b : Int) : Int :=
  let r := clamp255 r
  let g := clamp255 g
  let b := clamp255 b
  if c_abs (r - g) < 8 ∧ c_abs (g - b) < 8 then
    let gray := (r + g + b) / 3
    if gray < 8 then 16
    else if gray > 248 then 231
    else 232 + ((gray - 8) * 24) / 241
  else
    let r_idx := (r * 5 + 127) / 255
    let g_idx := (g * 5 + 127) / 255
    let b_idx := (b * 5 + 127) / 255
    16 + (r_idx * 36) + (g_idx * 6) + b_idx

/-- Modelled from the spec: the xterm palette is not in the source.  Level of a
cube channel index: `[0, 95, 135, 175, 215, 255]`. -/
def xterm_level (i : Int) : Int := if i = 0 then 0 else 55 + 40 * i

/-- Modelled from the spec: the colour of xterm palette entry `idx` for `16 ≤ idx ≤ 255`
(cube index `16 + 36 i + 6 j + k`; gray index `232 + k` with value `8 + 10 k`). -/
def xterm_color (idx : Int) : Int × Int × Int :=
  if idx < 232 then
    let c := idx - 16
    (xterm_level (c / 36), xterm_level ((c / 6) % 6), xterm_level (c % 6))
  else
    let v := 8 + 10 * (idx - 232)
    (v, v, v)

/-- Squared Euclidean distance between two colours. -/
def color_dist (p q : Int × Int × Int) : Int :=
  (p.1 - q.1) ^ 2 + (p.2.1 - q.2.1) ^ 2 + (p.2.2 - q.2.2) ^ 2

/-! ## Animation (`update_position`, the loop of `run_animation`) -/

/-- The function `update_position`: the new state and the new `*repeat_count`. -/
def update_position (state : AnimationState) (block_width direction repeat_count : Int) :
    AnimationState × Int :=
  if direction = 0 then
    let state := { state with position := state.position - 1 }
    if state.position < -block_width then
      ({ state with position := state.screen_width },
        if repeat_count > 0 then repeat_count - 1 else repeat_count)
    else (state, repeat_count)
  else
    let state := { state with position := state.position + 1 }
    if state.position > state.screen_width then
      ({ state with position := -block_width },
        if repeat_count > 0 then repeat_count - 1 else repeat_count)
    else (state, repeat_count)

/-- Iteration: `k` successive calls of `update_position`. -/
def update_position_iter (block_width direction : Int) :
    Nat → AnimationState × Int → AnimationState × Int
  | 0, s => s
  | k + 1, s =>
    update_position_iter block_width direction k
      (update_position s.1 block_width direction s.2)

/-- What the loop of `run_animation` sees from outside: the key `getch` returns on
tick `t`, and the `(height, width)` that `getmaxyx` reports (index `0`: the query
before the loop, index `t + 1`: the query on tick `t`). -/
structure Terminal where
  getch : Nat → Int
  getmaxyx : Nat → Int × Int

/-- Result of the loop: the state at every `draw_frame` call in order, the final
state and the final repeat count. -/
structure AnimationRun where
  frames : List AnimationState
  final : AnimationState
  repeat_count : Int
  deriving DecidableEq, Repr

/-- Lines 165-177, the loop `while (repeat_count != 0) { ... }` from tick `t`; `none` when
`fuel` iterations did not end the loop. -/
def animation_loop (term : Terminal) (block_width direction : Int) :
    Nat → Nat → AnimationState → Int → List AnimationState → Option AnimationRun
  | 0, _, state, repeat_count, frames =>
    if repeat_count ≠ 0 then none else some ⟨frames, state, repeat_count⟩
  | fuel + 1, t, state, repeat_count, frames =>
    if repeat_count ≠ 0 then
      let ch := term.getch t
      if ch = 113 ∨ ch = 81 then some ⟨frames, state, repeat_count⟩
      else
        let state :=
          if ch = KEY_RESIZE then
            { state with screen_height := (term.getmaxyx (t + 1)).1,
                         screen_width := (term.getmaxyx (t + 1)).2 }
          else state
        let next := update_position state block_width direction repeat_count
        animation_loop term block_width direction fuel (t + 1) next.1 next.2
          (frames ++ [state])
    else some ⟨frames, state, repeat_count⟩

/-- Lines 159-178 of `run_animation`, given what `build_text_block` returned. -/
def run_animation_loop (term : Terminal) (config : AppConfig) (line_count : Nat)
    (max_block_width : Int) (fuel : Nat) : Option AnimationRun :=
  let state : AnimationState :=
    { position := 0, screen_height := (term.getmaxyx 0).1,
      screen_width := (term.getmaxyx 0).2 }
  if line_count > 0 then
    let state := { state with
      position := if config.direction = 0 then state.screen_width else -max_block_width }
    animation_loop term max_block_width config.direction fuel 0 state config.repeat_count []
  else some ⟨[], state, config.repeat_count⟩

/-- The states drawn during one full traverse of a block of width `M` over a screen
of width `W` and height `H`: leftwards from `W` down to `-M`, rightwards from `-M`
up to `W`. -/
def traverse_frames (direction W M H : Int) : List AnimationState :=
  (List.range (W + M + 1).toNat).map fun (k : Nat) =>
    { position := if direction = 0 then W - (k : Int) else -M + (k : Int),
      screen_width := W, screen_height := H }

/-! ## Text parsing (`parse_line`) -/

/-- The byte `*p` of a C string: `0` at the end of the list. -/
def byte_at (p : List Nat) : Nat := p.headD 0

/-- C `isalpha` in the "C" locale (the program never calls `setlocale`). -/
def isalpha (c : Nat) : Bool := decide (65 ≤ c ∧ c ≤ 90 ∨ 97 ≤ c ∧ c ≤ 122)

/-- C `isspace` in the "C" locale. -/
def isspace (c : Nat) : Bool := decide (c = 32 ∨ 9 ≤ c ∧ c ≤ 13)

/-- C `isdigit`. -/
def isdigit (c : Nat) : Bool := decide (48 ≤ c ∧ c ≤ 57)

/-- Conversion of an `int`/`long` value to `short` (wraps modulo `2^16`). -/
def to_short (x : Int) : Int := (x + 32768) % 65536 - 32768

/-- Conversion of a `long` value to `int` (wraps modulo `2^32`). -/
def to_int32 (x : Int) : Int := (x + 2147483648) % 4294967296 - 2147483648

/-- C `atoi` as glibc implements it, `(int) strtol(s, NULL, 10)`: leading white space,
an optional sign, the longest run of digits, the value saturated to the `long` range
and then cut to `int`. -/
def atoi (s : List Nat) : Int :=
  let s1 := s.dropWhile isspace
  let neg := decide (byte_at s1 = 45)
  let s2 := if byte_at s1 = 45 ∨ byte_at s1 = 43 then s1.tail else s1
  let v : Nat := (s2.takeWhile isdigit).foldl (fun acc d => acc * 10 + (d - 48)) 0
  let l : Int := if neg then max (-(v : Int)) (-9223372036854775808)
                 else min (v : Int) 9223372036854775807
  to_int32 l

/-- All the tokens that successive `strtok_r(.., delim, &saveptr)` calls return on a
string: the maximal non-empty runs of bytes other than `delim`; `cur` is the token
being read. -/
def strtok_all (delim : Nat) : List Nat → List Nat → List (List Nat)
  | [], cur => if cur = [] then [] else [cur]
  | c :: rest, cur =>
    if c = delim then
      if cur = [] then strtok_all delim rest [] else cur :: strtok_all delim rest []
    else strtok_all delim rest (cur ++ [c])

/-- Lines 242-272: the loop over the parameter tokens of one `m` sequence, on the
tokens still to come (an empty list is `strtok_r` returning `NULL`) and the pair
`(current_fg, current_bg)`. -/
def sgr_codes : List (List Nat) → Int × Int → Int × Int
  | [], colors => colors
  | code_str :: rest, colors =>
    let code := atoi code_str
    if code = 38 ∨ code = 48 then
      match rest with
      | [] => colors
      | type_str :: rest1 =>
        if atoi type_str = 5 then
          match rest1 with
          | [] => colors
          | id_str :: rest2 =>
            sgr_codes rest2
              (if code = 38 then (to_short (atoi id_str), colors.2)
               else (colors.1, to_short (atoi id_str)))
        else if atoi type_str = 2 then
          match rest1 with
          | r_str :: g_str :: b_str :: rest4 =>
            let color_id := rgb_to_256 (atoi r_str) (atoi g_str) (atoi b_str)
            sgr_codes rest4
              (if code = 38 then (color_id, colors.2) else (colors.1, color_id))
          | _ => colors
        else sgr_codes rest1 colors
    else if code = 0 then sgr_codes rest (COLOR_WHITE, -1)
    else if code ≥ 30 ∧ code ≤ 37 then sgr_codes rest (code - 30, colors.2)
    else if code ≥ 40 ∧ code ≤ 47 then sgr_codes rest (colors.1, code - 40)
    else sgr_codes rest colors

/-- Assignment `segs[i] = s`. -/
def set_segment (segs : Nat → TextSegment) (i : Nat) (s : TextSegment) : Nat → TextSegment :=
  fun j => if j = i then s else segs j

/-- The local variables of `parse_line` together with `*line` and the statics of the
registry. -/
structure ParseState where
  line : MarqueeLine
  segment_idx : Nat
  current_fg : Int
  current_bg : Int
  reg : Registry

/-- Condition of the scan at lines 232-234: the byte is neither NUL nor a letter. -/
def seq_byte (c : Nat) : Bool := decide (c ≠ 0) && !isalpha c

/-- Lines 286-291: a literal byte goes to the current segment unless it is full. -/
def put_byte (st : ParseState) (c : Nat) : ParseState :=
  let current_segment := st.line.segments st.segment_idx
  if current_segment.width < MAX_TEXT_PER_SEGMENT - 1 then
    { st with
      line := { st.line with
        segments := set_segment st.line.segments st.segment_idx
          { current_segment with
            text := current_segment.text.take current_segment.width ++ [c],
            width := current_segment.width + 1 },
        total_width := st.line.total_width + 1 } }
  else st

/-- The pointer `seq_end` after the scan of lines 231-234, `p` standing on ESC `[`. -/
def seq_end (p : List Nat) : List Nat := p.tail.tail.dropWhile seq_byte

/-- The string `seq_codes = strndup(p + 2, seq_end - (p + 2))` of line 237. -/
def seq_codes (p : List Nat) : List Nat := p.tail.tail.takeWhile seq_byte

/-- Line 284: `p = (*seq_end != 0) ? (seq_end + 1) : seq_end`. -/
def after_seq (p : List Nat) : List Nat :=
  if byte_at (seq_end p) ≠ 0 then (seq_end p).tail else seq_end p

/-- Lines 237-274: the parameters of an `m` sequence set `current_fg`, `current_bg`. -/
def set_colors (st : ParseState) (p : List Nat) : ParseState :=
  let colors := sgr_codes (strtok_all 59 (seq_codes p) []) (st.current_fg, st.current_bg)
  { st with current_fg := colors.1, current_bg := colors.2 }

/-- Lines 276-277 when the loop goes on: `++segment_idx` if the segment has text. -/
def advance_segment (st : ParseState) : ParseState :=
  if (st.line.segments st.segment_idx).width > 0 then
    { st with segment_idx := st.segment_idx + 1 }
  else st

/-- Lines 280-282: the segment at `segment_idx` is emptied and takes the handle `h`. -/
def open_segment (st : ParseState) (h : Nat) (reg : Registry) : ParseState :=
  { st with
    reg := reg,
    line := { st.line with
      segments := set_segment st.line.segments st.segment_idx
        { text := [], width := 0, ncurses_pair_id := h } } }

/-- Lines 229-294: the loop `while (*p != 0)`; `none` when a registry call leaves its
table, or when `fuel` iterations did not end the loop. -/
def parse_loop (COLOR_PAIRS : Int) : Nat → List Nat → ParseState → Option ParseState
  | 0, p, st => if byte_at p = 0 then some st else none
  | fuel + 1, p, st =>
    if byte_at p = 0 then some st
    else if byte_at p = 27 ∧ byte_at p.tail = 91 then
      if byte_at (seq_end p) = 109 then
        let st := set_colors st p
        if (st.line.segments st.segment_idx).width > 0 ∧
            st.segment_idx + 1 ≥ MAX_SEGMENTS_PER_LINE then
          some { st with segment_idx := st.segment_idx + 1 }
        else
          let st := advance_segment st
          match get_or_create_color_pair COLOR_PAIRS st.reg st.current_fg st.current_bg with
          | none => none
          | some (h, reg) => parse_loop COLOR_PAIRS fuel (after_seq p) (open_segment st h reg)
      else parse_loop COLOR_PAIRS fuel (after_seq p) st
    else parse_loop COLOR_PAIRS fuel p.tail (put_byte st (byte_at p))

/-- Lines 218-226: the state in which the loop starts, `h` being the handle that the
registry returned for `(COLOR_WHITE, -1)`. -/
def parse_start (line : MarqueeLine) (h : Nat) (reg : Registry) : ParseState :=
  { line := { segments := set_segment line.segments 0
                { text := [], width := 0, ncurses_pair_id := h },
              segment_count := 0, total_width := 0 },
    segment_idx := 0, current_fg := COLOR_WHITE, current_bg := -1, reg := reg }

/-- Line 295: the segment count is stored. -/
def parse_finish (st : ParseState) : MarqueeLine :=
  { st.line with
    segment_count :=
      if (st.line.segments 0).width > 0 ∨ st.segment_idx > 0
      then st.segment_idx + 1 else 0 }

/-- The function `parse_line(line_text, line)`: the line written to `*line` and the
new statics of the registry.  The loop runs at most once per byte of `line_text`. -/
def parse_line (COLOR_PAIRS : Int) (reg : Registry) (line : MarqueeLine)
    (line_text : List Nat) : Option (MarqueeLine × Registry) :=
  match get_or_create_color_pair COLOR_PAIRS reg COLOR_WHITE (-1) with
  | none => none
  | some (h, reg) =>
    match parse_loop COLOR_PAIRS line_text.length line_text (parse_start line h reg) with
    | none => none
    | some st => some (parse_finish st, st.reg)

/-- A `MarqueeLine` whose memory holds nothing yet. -/
def blank_line : MarqueeLine :=
  { segments := fun _ => { text := [], width := 0, ncurses_pair_id := 0 },
    segment_count := 0, total_width := 0 }

/-- The segments of a line: entries `0 .. segment_count - 1` of the array. -/
def MarqueeLine.segment_list (line : MarqueeLine) : List TextSegment :=
  (List.range line.segment_count).map line.segments

/-- The texts of the segments of a line joined in order. -/
def MarqueeLine.joined_text (line : MarqueeLine) : List Nat :=
  (line.segment_list.map (fun s => s.text)).flatten

/-- Escape sequences removed, after the words of the specification: an escape
sequence is ESC `[` followed by the non-alphabetic bytes up to and including the
first alphabetic byte, or up to the end of the line when there is none.  The flag
says that the bytes read are inside a sequence. -/
def strip_escapes_from : Bool → List Nat → List Nat
  | _, [] => []
  | true, c :: rest =>
    if isalpha c then strip_escapes_from false rest else strip_escapes_from true rest
  | false, c :: rest =>
    if c = 27 ∧ byte_at rest = 91 then strip_escapes_from true rest
    else c :: strip_escapes_from false rest

/-- The line with every escape sequence removed. -/
def strip_escapes (line_text : List Nat) : List Nat := strip_escapes_from false line_text

/-- The line holds an escape introducer: ESC directly followed by `[`. -/
def has_escape : List Nat → Bool
  | [] => false
  | c :: rest => (decide (c = 27) && decide (byte_at rest = 91)) || has_escape rest

/-- Everything written so far: the texts of the segments `0 .. segment_idx` in order. -/
def ParseState.emitted (st : ParseState) : List Nat :=
  ((List.range (st.segment_idx + 1)).map fun i => (st.line.segments i).text).flatten

/-- The segment being filled has `width` equal to the length of its text. -/
def ParseState.consistent (st : ParseState) : Prop :=
  (st.line.segments st.segment_idx).width = (st.line.segments st.segment_idx).text.length

/-- The 12-byte line ESC `[31m` `RED` ESC `[0m`. -/
def red_line : List Nat := [27, 91, 51, 49, 109, 82, 69, 68, 27, 91, 48, 109]

/-- The 4-byte piece `x` ESC `[m` repeated `n` times: `n` one-byte texts, each
followed by a style-change sequence. -/
def styled_runs (n : Nat) : List Nat := (List.replicate n [120, 27, 91, 109]).flatten

/-! ## Line splitting (`build_text_block`) -/

/-- The bytes of the C string held in a buffer: everything before the first NUL. -/
def c_string (buf : List Nat) : List Nat := buf.takeWhile (fun c => decide (c ≠ 0))

/-- The array `lines[MAX_LINES]` with `line_count`, `*max_block_width` and the statics
of the registry. -/
structure TextBlock where
  lines : Nat → MarqueeLine
  line_count : Nat
  max_block_width : Nat
  reg : Registry

/-- Assignment `lines[i] = l`. -/
def set_line (lines : Nat → MarqueeLine) (i : Nat) (l : MarqueeLine) : Nat → MarqueeLine :=
  fun j => if j = i then l else lines j

/-- Lines 305-309: the parsed line is stored at `lines[line_count]`, the maximum
width is updated and `line_count` is incremented. -/
def add_line (blk : TextBlock) (line : MarqueeLine) (reg : Registry) : TextBlock :=
  { lines := set_line blk.lines blk.line_count line,
    line_count := blk.line_count + 1,
    max_block_width :=
      if line.total_width > blk.max_block_width then line.total_width
      else blk.max_block_width,
    reg := reg }

/-- Lines 304-311: the loop `while (line_str != NULL && line_count < MAX_LINES)` over
the tokens that `strtok_r` still returns. -/
def build_lines (COLOR_PAIRS : Int) : List (List Nat) → TextBlock → Option TextBlock
  | [], blk => some blk
  | line_str :: rest, blk =>
    if blk.line_count < MAX_LINES then
      match parse_line COLOR_PAIRS blk.reg (blk.lines blk.line_count) line_str with
      | none => none
      | some r => build_lines COLOR_PAIRS rest (add_line blk r.1 r.2)
    else some blk

/-- The function `build_text_block(raw_text, lines, &max_block_width)`; the tokens are
those of `strtok_r(raw_text, "\n", &saveptr)`. -/
def build_text_block (COLOR_PAIRS : Int) (reg : Registry) (lines : Nat → MarqueeLine)
    (raw_text : List Nat) : Option TextBlock :=
  build_lines COLOR_PAIRS (strtok_all 10 (c_string raw_text) [])
    { lines := lines, line_count := 0, max_block_width := 0, reg := reg }

/-- The maximum of `total_width` over the lines `0 .. n - 1`, `0` when there is none. -/
def block_max (lines : Nat → MarqueeLine) (n : Nat) : Nat :=
  ((List.range n).map fun i => (lines i).total_width).foldl max 0

/-- The pieces between the delimiters of a text, every delimiter ending one piece:
the text `A d d B` has the three pieces `A`, empty, `B`. -/
def split_on (d : Nat) : List Nat → List (List Nat)
  | [] => [[]]
  | c :: rest =>
    if c = d then [] :: split_on d rest
    else
      match split_on d rest with
      | [] => [[c]]
      | piece :: pieces => (c :: piece) :: pieces

/-- The non-empty pieces between the delimiters of a text, in order. -/
def nonempty_pieces (d : Nat) (s : List Nat) : List (List Nat) :=
  (split_on d s).filter fun piece => decide (piece ≠ [])

/-! ## Options and the safety check of `main` -/

/-- C `strtol(s, NULL, 10)` with a 64-bit `long`: leading white space, an optional
sign, the longest run of digits, the value saturated to the `long` range. -/
def strtol (s : List Nat) : Int :=
  let s1 := s.dropWhile isspace
  let neg := decide (byte_at s1 = 45)
  let s2 := if byte_at s1 = 45 ∨ byte_at s1 = 43 then s1.tail else s1
  let v : Nat := (s2.takeWhile isdigit).foldl (fun acc d => acc * 10 + (d - 48)) 0
  if neg then max (-(v : Int)) (-9223372036854775808)
  else min (v : Int) 9223372036854775807

/-- The initial `AppConfig` of `main`. -/
def default_config : AppConfig :=
  { direction := 0, delay_us := 100000, repeat_count := 1, ignore_interrupts := false }

/-- One turn of the `switch` in `parse_options` on the option character `opt` that
`getopt_long` returned and its `optarg`; `none` when the program exits (`-h`, or an
option that is not known). -/
def apply_option (config : AppConfig) (opt : Nat) (optarg : List Nat) : Option AppConfig :=
  if opt = 97 then some { config with ignore_interrupts := true }
  else if opt = 114 then some { config with direction := 1 }
  else if opt = 108 then some { config with repeat_count := -1 }
  else if opt = 115 then some { config with delay_us := strtol optarg }
  else if opt = 99 then some { config with repeat_count := to_int32 (strtol optarg) }
  else none

/-- The function `parse_options` on the options in the order `getopt_long` returns
them. -/
def parse_options : AppConfig → List (Nat × List Nat) → Option AppConfig
  | config, [] => some config
  | config, o :: rest =>
    match apply_option config o.1 o.2 with
    | none => none
    | some config1 => parse_options config1 rest

def SAFE_LOOP_LIMIT : Int := 10

/-- Lines 382-387 of `main`: interrupt suppression is switched off for an infinite or
a long run. -/
def safety_check (config : AppConfig) : AppConfig :=
  if config.ignore_interrupts = true ∧
      (config.repeat_count = -1 ∨ config.repeat_count > SAFE_LOOP_LIMIT) then
    { config with ignore_interrupts := false }
  else config

/-! ## Numbers as they are written in a line -/

/-- The decimal digits of a natural number, as bytes. -/
def decimal (n : Nat) : List Nat :=
  if n < 10 then [48 + n] else decimal (n / 10) ++ [48 + n % 10]
termination_by n
decreasing_by omega

/-- The decimal form of an integer, with a leading `-` when it is negative. -/
def decimal_int (x : Int) : List Nat :=
  if x < 0 then 45 :: decimal x.natAbs else decimal x.natAbs

/-- The line ESC `[` `codes` `m` followed by the text `t`. -/
def sgr_line (codes t : List Nat) : List Nat := 27 :: 91 :: (codes ++ 109 :: t)

/-- The text ends inside an escape sequence that has no terminator yet; the flag says
that the bytes read are inside a sequence. -/
def open_sequence : Bool → List Nat → Bool
  | b, [] => b
  | true, c :: rest =>
    if isalpha c then open_sequence false rest else open_sequence true rest
  | false, c :: rest =>
    if c = 27 ∧ byte_at rest = 91 then open_sequence true rest
    else open_sequence false rest

/-- The value of a parameter token is one of the codes that lines 244-270 act on:
0, 30..37, 40..47, 38, 48. -/
def recognised_code (code : Int) : Prop :=
  code = 0 ∨ (30 ≤ code ∧ code ≤ 37) ∨ (40 ≤ code ∧ code ≤ 47) ∨ code = 38 ∨ code = 48

instance (code : Int) : Decidable (recognised_code code) := by
  unfold recognised_code; infer_instance

/-- The sum of the `width` fields of the segments `0 .. segment_count - 1` of a line. -/
def MarqueeLine.width_sum (line : MarqueeLine) : Nat :=
  (line.segment_list.map (fun s => s.width)).sum

/-- Every segment written so far has `width` equal to the length of its text and at
most `MAX_TEXT_PER_SEGMENT - 1`, its text holds no NUL byte (so that the length of
the list is the C length of the stored string), and `total_width` is the sum of the
widths. -/
def ParseState.widths_ok (st : ParseState) : Prop :=
  (∀ i, i ≤ st.segment_idx →
    (st.line.segments i).width = (st.line.segments i).text.length ∧
    (st.line.segments i).width ≤ MAX_TEXT_PER_SEGMENT - 1 ∧
    ∀ c ∈ (st.line.segments i).text, c ≠ 0) ∧
  st.line.total_width =
    ((List.range (st.segment_idx + 1)).map fun i => (st.line.segments i).width).sum

/-- The numbers of visible bytes that the segments receive, read off the line after
the words of the claim: the visible bytes (those outside escape sequences) are counted
up to each style-change sequence (terminator `m`), which starts a new count; other
sequences and unterminated ones do not.  The flag says that the bytes read are inside
a sequence, `n` is the count so far. -/
def run_lengths_from : Bool → Nat → List Nat → List Nat
  | _, n, [] => [n]
  | true, n, c :: rest =>
    if isalpha c then
      if c = 109 then n :: run_lengths_from false 0 rest else run_lengths_from false n rest
    else run_lengths_from true n rest
  | false, n, c :: rest =>
    if c = 27 ∧ byte_at rest = 91 then run_lengths_from true n rest
    else run_lengths_from false (n + 1) rest

/-- The numbers of visible bytes between the style-change sequences of a line. -/
def run_lengths (line_text : List Nat) : List Nat := run_lengths_from false 0 line_text

/-- The number of counts that are positive and followed by a style-change sequence:
each of them is a segment that the sequence closes. -/
def closed_count (counts : List Nat) : Nat :=
  (counts.dropLast.filter (fun n => decide (0 < n))).length

/-- The number of segments of a line that a style-change sequence closes. -/
def closed_segments (line_text : List Nat) : Nat := closed_count (run_lengths line_text)

/-! # Theorems -/

/-! ## Colour quantisation: theorems -/

theorem clamp255_eq (x : Int) : clamp255 x = min 255 (max 0 x) := by
  unfold clamp255
  simp only []
  split_ifs <;> omega

theorem clamp255_idem (x : Int) : clamp255 (clamp255 x) = clamp255 x := by
  unfold clamp255
  simp only []
  split_ifs <;> omega

/-- C8: `rgb_to_256` is invariant under clamping of its arguments to `0..255`, with
`clamp(x) = min(255, max(0, x))`; `rgb_to_256(-10,300,128) = rgb_to_256(0,255,128)`,
`rgb_to_256(0,0,0) = 16` and `rgb_to_256(255,255,255) = 231`. -/
theorem rgb_to_256_clamp_invariant (r g b : Int) :
    rgb_to_256 r g b = rgb_to_256 (min 255 (max 0 r)) (min 255 (max 0 g)) (min 255 (max 0 b)) ∧
    rgb_to_256 (-10) 300 128 = rgb_to_256 0 255 128 ∧
    rgb_to_256 0 0 0 = 16 ∧ rgb_to_256 255 255 255 = 231 := by
  refine ⟨?_, by decide, by decide, by decide⟩
  simp only [← clamp255_eq]
  unfold rgb_to_256
  simp only [clamp255_idem]

/-- C7: at the exact palette colour `(95, 0, 0)` (xterm entry 52) `rgb_to_256` returns
88, whose colour is `(135, 0, 0)`: the index returned is not a nearest palette entry
and does not carry the colour it was given.  The same happens on the gray ramp:
`(18, 18, 18)` is entry 233 and is sent to entry 232, whose colour is `(8, 8, 8)`. -/
theorem rgb_to_256_not_nearest :
    rgb_to_256 95 0 0 = 88 ∧ xterm_color 88 = (135, 0, 0) ∧ xterm_color 52 = (95, 0, 0) ∧
    color_dist (95, 0, 0) (xterm_color 52) < color_dist (95, 0, 0) (xterm_color (rgb_to_256 95 0 0)) ∧
    rgb_to_256 18 18 18 = 232 ∧ xterm_color 232 = (8, 8, 8) ∧ xterm_color 233 = (18, 18, 18) := by
  decide

/-! ## The registry: theorems -/

theorem find_pair_eq (pairs : List PairDef) (fg bg : Int) :
    ∀ (n i : Nat), i + n ≤ PAIR_TABLE_SIZE → i + n ≤ pairs.length →
    find_pair pairs fg bg i n =
      some (if (⟨fg, bg⟩ : PairDef) ∈ (pairs.drop i).take n
            then some (i + ((pairs.drop i).take n).indexOf ⟨fg, bg⟩) else none) := by
  intro n
  induction n with
  | zero => intro i _ _; simp [find_pair]
  | succ n ih =>
    intro i h1 h2
    have hi : i < pairs.length := by omega
    have hi2 : i < PAIR_TABLE_SIZE := by omega
    have hd : pairs.drop i = pairs[i] :: pairs.drop (i + 1) := List.drop_eq_getElem_cons hi
    rw [find_pair, if_pos hi2, List.getElem?_eq_getElem hi]
    simp only [hd, List.take_succ_cons]
    by_cases hkey : pairs[i].fg = fg ∧ pairs[i].bg = bg
    · have hk : pairs[i] = ⟨fg, bg⟩ := by
        cases hp : pairs[i]; rw [hp] at hkey; simp at hkey; simp [hkey]
      simp [hkey, hk]
    · have hk : ¬ (pairs[i] = ⟨fg, bg⟩) := by
        intro hp; rw [hp] at hkey; simp at hkey
      have hk2 : ¬ ((⟨fg, bg⟩ : PairDef) = pairs[i]) := fun h => hk h.symm
      rw [if_neg hkey, ih (i + 1) (by omega) (by omega)]
      simp only [List.mem_cons, hk2, false_or, List.indexOf_cons_ne _ hk]
      split_ifs
      · simp; omega
      · rfl

theorem Registry.wf_ensure_initialized (reg : Registry) (h : reg.wf) :
    reg.ensure_initialized.wf ∧ reg.ensure_initialized.keys = reg.keys ∧
    reg.ensure_initialized.next_pair_id = reg.next_pair_id ∧
    reg.ensure_initialized.is_initialized = true := by
  unfold Registry.ensure_initialized
  by_cases hi : reg.is_initialized = true
  · simp [hi, h]
  · have h1 : reg.next_pair_id = 1 := h.2.2.2 (by simpa using hi)
    simp only [hi, Bool.false_eq_true, if_false]
    refine ⟨⟨by simp, by simp [h1], by simp [h1, PAIR_TABLE_SIZE], by simp⟩, ?_, trivial, trivial⟩
    simp [Registry.keys, h1]

theorem drop_take_set {α : Type} (l : List α) (n : Nat) (a : α) (h1 : 1 ≤ n)
    (h2 : n < l.length) :
    ((l.set n a).drop 1).take n = (l.drop 1).take (n - 1) ++ [a] := by
  apply List.ext_getElem?
  intro m
  have hlen : ((l.drop 1).take (n - 1)).length = n - 1 := by
    simp only [List.length_take, List.length_drop]; omega
  rw [List.getElem?_append, hlen, List.getElem?_take, List.getElem?_drop, List.getElem?_set]
  rcases Nat.lt_trichotomy m (n - 1) with hm | hm | hm
  · have e1 : m < n := by omega
    have e2 : ¬ (n = 1 + m) := by omega
    rw [if_pos e1, if_neg e2, if_pos hm, List.getElem?_take, if_pos hm, List.getElem?_drop]
  · have e1 : m < n := by omega
    have e2 : n = 1 + m := by omega
    have e3 : ¬ (m < n - 1) := by omega
    rw [if_pos e1, if_pos e2, if_pos h2, if_neg e3, hm]
    simp
  · have e3 : ¬ (m < n - 1) := by omega
    rw [if_neg e3]
    by_cases e1 : m < n
    · omega
    · rw [if_neg e1]
      have : m - (n - 1) = (m - n) + 1 := by omega
      rw [this]
      rfl

theorem Registry.register_spec (reg : Registry) (fg bg : Int) (h : reg.wf)
    (hlt : reg.next_pair_id < PAIR_TABLE_SIZE) :
    (reg.register fg bg).wf ∧ (reg.register fg bg).keys = reg.keys ++ [⟨fg, bg⟩] ∧
    (reg.register fg bg).next_pair_id = reg.next_pair_id + 1 ∧
    (reg.register fg bg).is_initialized = true := by
  obtain ⟨hwf, hkeys, hnext, hinit⟩ := reg.wf_ensure_initialized h
  obtain ⟨hlen, h1, h2, _⟩ := hwf
  rw [hnext] at h1 h2
  refine ⟨⟨by simp [Registry.register, hlen], by simp [Registry.register],
    by simp only [Registry.register]; omega, by simp [Registry.register, hinit]⟩, ?_, rfl,
    by simp [Registry.register, hinit]⟩
  rw [← hkeys]
  simp only [Registry.register, Registry.keys, hnext, Nat.add_sub_cancel]
  exact drop_take_set _ _ _ h1 (by omega)

theorem get_or_create_color_pair_eq (C : Int) (reg : Registry) (fg bg : Int) (h : reg.wf) :
    get_or_create_color_pair C reg fg bg =
      if invalid_color fg bg then some (0, reg.ensure_initialized)
      else if (⟨fg, bg⟩ : PairDef) ∈ reg.keys then
        some (reg.keys.indexOf ⟨fg, bg⟩ + 1, reg.ensure_initialized)
      else if (reg.next_pair_id : Int) < C then
        if reg.next_pair_id < PAIR_TABLE_SIZE then some (reg.next_pair_id, reg.register fg bg)
        else none
      else some (0, reg.ensure_initialized) := by
  obtain ⟨hwf, hkeys, hnext, hinit⟩ := reg.wf_ensure_initialized h
  obtain ⟨hlen, h1, h2, _⟩ := hwf
  unfold get_or_create_color_pair
  simp only []
  by_cases hinv : invalid_color fg bg
  · simp [hinv]
  · rw [if_neg hinv, if_neg hinv,
      find_pair_eq _ fg bg _ 1 (by omega) (by omega)]
    rw [← hkeys]
    simp only [Registry.keys, hnext]
    by_cases hmem : (⟨fg, bg⟩ : PairDef) ∈
        (reg.ensure_initialized.defined_pairs.drop 1).take (reg.next_pair_id - 1)
    · simp only [hmem, if_true]
      rw [Nat.add_comm]
    · simp only [hmem, if_false]
      rfl

theorem get_or_create_color_pair_wf (C : Int) (reg reg1 : Registry) (fg bg : Int) (h : Nat)
    (hwf : reg.wf) (hcall : get_or_create_color_pair C reg fg bg = some (h, reg1)) :
    reg1.wf := by
  rw [get_or_create_color_pair_eq C reg fg bg hwf] at hcall
  have h0 := (reg.wf_ensure_initialized hwf).1
  split_ifs at hcall with h1 h2 h3 h4
  all_goals try (simp only [Option.some.injEq, Prod.mk.injEq] at hcall; rw [← hcall.2])
  all_goals try exact h0
  exact (reg.register_spec fg bg hwf h4).1

theorem Registry.fresh_wf : Registry.fresh.wf :=
  ⟨List.length_replicate _ _, Nat.le_refl 1, by decide, fun _ => rfl⟩

/-- C6: in every well-formed state of the statics, `get_or_create_color_pair(fg, bg)`
returns handle 0 exactly when the key is invalid (a component outside `-1..255`) or
the key is not among the registered keys and `next_pair_id < COLOR_PAIRS` fails; and
whenever it returns 0 the registered keys and `next_pair_id` are what they were. -/
theorem get_or_create_color_pair_fallback (C : Int) (reg : Registry) (fg bg : Int)
    (hwf : reg.wf) :
    ((∃ reg1, get_or_create_color_pair C reg fg bg = some (0, reg1)) ↔
      (invalid_color fg bg ∨
        ((⟨fg, bg⟩ : PairDef) ∉ reg.keys ∧ ¬ ((reg.next_pair_id : Int) < C)))) ∧
    (∀ reg1, get_or_create_color_pair C reg fg bg = some (0, reg1) →
      reg1.keys = reg.keys ∧ reg1.next_pair_id = reg.next_pair_id) := by
  obtain ⟨_, hkeys, hnext, _⟩ := reg.wf_ensure_initialized hwf
  have hpos : reg.next_pair_id ≠ 0 := by have := hwf.2.1; omega
  rw [get_or_create_color_pair_eq C reg fg bg hwf]
  constructor
  · constructor
    · rintro ⟨reg1, h⟩
      split_ifs at h with h1 h2 h3 h4
      · exact Or.inl h1
      · simp at h
      · simp only [Option.some.injEq, Prod.mk.injEq] at h
        exact absurd h.1 hpos
      · exact Or.inr ⟨h2, h3⟩
    · rintro (h | ⟨h2, h3⟩)
      · exact ⟨_, by rw [if_pos h]⟩
      · by_cases h1 : invalid_color fg bg
        · exact ⟨_, by rw [if_pos h1]⟩
        · exact ⟨_, by rw [if_neg h1, if_neg h2, if_neg h3]⟩
  · intro reg1 h
    split_ifs at h with h1 h2 h3 h4
    · simp only [Option.some.injEq, Prod.mk.injEq] at h
      rw [← h.2]; exact ⟨hkeys, hnext⟩
    · simp at h
    · simp only [Option.some.injEq, Prod.mk.injEq] at h
      exact absurd h.1 hpos
    · simp only [Option.some.injEq, Prod.mk.injEq] at h
      rw [← h.2]; exact ⟨hkeys, hnext⟩

theorem get_or_create_color_pair_fallback_witness :
    ((∃ reg1, get_or_create_color_pair 256 Registry.fresh 300 (-1) = some (0, reg1)) ↔
      (invalid_color 300 (-1) ∨
        ((⟨300, -1⟩ : PairDef) ∉ Registry.fresh.keys ∧
          ¬ ((Registry.fresh.next_pair_id : Int) < 256)))) ∧
    (∀ reg1, get_or_create_color_pair 256 Registry.fresh 300 (-1) = some (0, reg1) →
      reg1.keys = Registry.fresh.keys ∧ reg1.next_pair_id = Registry.fresh.next_pair_id) :=
  get_or_create_color_pair_fallback 256 Registry.fresh 300 (-1) Registry.fresh_wf

theorem run_calls_append (C : Int) (ks ks2 : List (Int × Int)) :
    ∀ reg, run_calls C reg (ks ++ ks2) =
      match run_calls C reg ks with
      | none => none
      | some (hs, reg1) =>
        match run_calls C reg1 ks2 with
        | none => none
        | some (hs2, reg2) => some (hs ++ hs2, reg2) := by
  induction ks with
  | nil =>
    intro reg
    simp only [List.nil_append, run_calls]
    cases run_calls C reg ks2 with
    | none => rfl
    | some r => rfl
  | cons k ks ih =>
    intro reg
    rw [List.cons_append, run_calls, run_calls]
    cases get_or_create_color_pair C reg k.1 k.2 with
    | none => rfl
    | some r =>
      obtain ⟨h, reg1⟩ := r
      simp only [ih reg1]
      cases run_calls C reg1 ks with
      | none => rfl
      | some r1 =>
        obtain ⟨hs, reg2⟩ := r1
        simp only []
        cases run_calls C reg2 ks2 with
        | none => rfl
        | some r2 => rfl

/-- The first `n ≤ 255` distinct keys get the handles `1, ..., n` whenever
`COLOR_PAIRS > 255`. -/
theorem run_calls_distinct_pairs (C : Int) (hC : 255 < C) (n : Nat) (hn : n ≤ 255) :
    ∃ reg, run_calls C Registry.fresh (distinct_pairs n) =
        some ((List.range n).map (· + 1), reg) ∧
      reg.wf ∧ reg.next_pair_id = n + 1 ∧
      reg.keys = (List.range n).map fun (i : Nat) => (⟨(i : Int), -1⟩ : PairDef) := by
  induction n with
  | zero => exact ⟨Registry.fresh, rfl, Registry.fresh_wf, rfl, rfl⟩
  | succ n ih =>
    obtain ⟨reg, hrun, hwf, hnext, hkeys⟩ := ih (by omega)
    have hvalid : ¬ invalid_color (n : Int) (-1) := by
      unfold invalid_color; omega
    have hnew : (⟨(n : Int), -1⟩ : PairDef) ∉ reg.keys := by
      rw [hkeys]
      simp only [List.mem_map, List.mem_range, PairDef.mk.injEq, and_true, not_exists, not_and]
      intro i hi h
      omega
    have hlt : ((reg.next_pair_id : Nat) : Int) < C := by rw [hnext]; push_cast; omega
    have hlt2 : reg.next_pair_id < PAIR_TABLE_SIZE := by rw [hnext]; simp only [PAIR_TABLE_SIZE]; omega
    have hcall : get_or_create_color_pair C reg (n : Int) (-1) =
        some (n + 1, reg.register n (-1)) := by
      rw [get_or_create_color_pair_eq C reg _ _ hwf, if_neg hvalid, if_neg hnew, if_pos hlt,
        if_pos hlt2, hnext]
    obtain ⟨hwf1, hkeys1, hnext1, _⟩ := reg.register_spec n (-1) hwf hlt2
    refine ⟨reg.register n (-1), ?_, hwf1, by rw [hnext1, hnext], ?_⟩
    · simp only [distinct_pairs, List.range_succ, List.map_append, List.map_cons, List.map_nil]
      have hrun1 : run_calls C Registry.fresh
          (List.map (fun (i : Nat) => ((i : Int), (-1 : Int))) (List.range n)) =
          some ((List.range n).map (· + 1), reg) := hrun
      rw [run_calls_append, hrun1]
      simp only [run_calls, hcall]
    · rw [hkeys1, hkeys, List.range_succ, List.map_append]
      rfl

/-- C5: with `COLOR_PAIRS = 65536` (what ncurses reports on a 256-colour terminal) the
first 255 distinct keys receive the handles `1, ..., 255`, and the first lookup of the
256th distinct key, `(255, -1)`, writes `defined_pairs[256]`, outside the 256-entry
table, instead of returning handle 256. -/
theorem get_or_create_color_pair_table_overflow :
    (∃ reg, run_calls 65536 Registry.fresh (distinct_pairs 255) =
        some ((List.range 255).map (· + 1), reg) ∧ reg.next_pair_id = 256 ∧
      get_or_create_color_pair 65536 reg 255 (-1) = none) ∧
    run_calls 65536 Registry.fresh (distinct_pairs 256) = none := by
  obtain ⟨reg, hrun, hwf, hnext, hkeys⟩ :=
    run_calls_distinct_pairs 65536 (by norm_num) 255 (le_refl 255)
  have hvalid : ¬ invalid_color 255 (-1) := by decide
  have hnew : (⟨255, -1⟩ : PairDef) ∉ reg.keys := by
    rw [hkeys]
    simp only [List.mem_map, List.mem_range, PairDef.mk.injEq, and_true, not_exists, not_and]
    intro i hi h
    omega
  have hcall : get_or_create_color_pair 65536 reg 255 (-1) = none := by
    rw [get_or_create_color_pair_eq _ reg _ _ hwf, if_neg hvalid, if_neg hnew, hnext,
      if_pos (by norm_num), if_neg (by decide)]
  refine ⟨⟨reg, hrun, hnext, hcall⟩, ?_⟩
  have : distinct_pairs 256 = distinct_pairs 255 ++ [(255, -1)] := by
    unfold distinct_pairs
    rw [show List.range 256 = List.range 255 ++ [255] from List.range_succ 255, List.map_append]
    rfl
  rw [this, run_calls_append, hrun]
  simp only [run_calls, hcall]

/-! ## Animation: theorems -/

theorem update_position_iter_succ (bw dir : Int) (k : Nat) (s : AnimationState × Int) :
    update_position_iter bw dir (k + 1) s =
      update_position (update_position_iter bw dir k s).1 bw dir
        (update_position_iter bw dir k s).2 := by
  induction k generalizing s with
  | zero => rfl
  | succ k ih =>
    show update_position_iter bw dir (k + 1) (update_position s.1 bw dir s.2) = _
    rw [ih]
    rfl

theorem update_position_left_steps (W M H n : Int) (k : Nat) (hk : (k : Int) ≤ W + M) :
    update_position_iter M 0 k (⟨W, W, H⟩, n) = (⟨W - k, W, H⟩, n) := by
  induction k with
  | zero => simp [update_position_iter]
  | succ k ih =>
    rw [update_position_iter_succ, ih (by omega)]
    have h : ¬ (W - (k : Int) - 1 < -M) := by omega
    simp only [update_position, if_true, h, if_false]
    congr 2
    push_cast
    omega

/-- C9 (counterexample): with `screenWidth = 1`, `maxWidth = 1` and repeat count 1,
after `screenWidth + maxWidth = 2` calls of `update_position` the position is `-1`,
not `screenWidth`, and the repeat count is still 1. -/
theorem update_position_wrap_counterexample :
    (update_position_iter 1 0 (1 + 1) (⟨1, 1, 24⟩, 1)).1.position = -1 ∧
    (update_position_iter 1 0 (1 + 1) (⟨1, 1, 24⟩, 1)).1.position ≠ 1 ∧
    (update_position_iter 1 0 (1 + 1) (⟨1, 1, 24⟩, 1)).2 ≠ 1 - 1 := by
  decide

/-- C9 (amended): scrolling left from `position = screenWidth` with a repeat count
`n > 0`, the first `screenWidth + maxWidth` calls of `update_position` only decrement
the position (after `k` calls it is `screenWidth - k`, the count still `n`), and after
exactly `screenWidth + maxWidth + 1` calls the position is `screenWidth` again and the
repeat count is `n - 1`. -/
theorem update_position_wrap (W M H n : Int) (hW : 0 ≤ W) (hM : 0 ≤ M) (hn : 0 < n) :
    (∀ k : Nat, (k : Int) ≤ W + M →
      update_position_iter M 0 k (⟨W, W, H⟩, n) = (⟨W - k, W, H⟩, n)) ∧
    update_position_iter M 0 (W + M + 1).toNat (⟨W, W, H⟩, n) = (⟨W, W, H⟩, n - 1) := by
  refine ⟨fun k hk => update_position_left_steps W M H n k hk, ?_⟩
  have hT : (W + M + 1).toNat = (W + M).toNat + 1 := by omega
  rw [hT, update_position_iter_succ, update_position_left_steps W M H n _ (by omega)]
  have h : W - ((W + M).toNat : Int) - 1 < -M := by omega
  simp only [update_position, if_true, h]
  simp [hn]

theorem update_position_wrap_witness :
    (∀ k : Nat, (k : Int) ≤ 3 + 2 →
      update_position_iter 2 0 k (⟨3, 3, 24⟩, 1) = (⟨3 - k, 3, 24⟩, 1)) ∧
    update_position_iter 2 0 (3 + 2 + 1 : Int).toNat (⟨3, 3, 24⟩, 1) = (⟨3, 3, 24⟩, 1 - 1) :=
  update_position_wrap 3 2 24 1 (by decide) (by decide) (by decide)

theorem animation_loop_tick (term : Terminal) (bw dir W H pos rc : Int) (fuel t : Nat)
    (frames : List AnimationState)
    (hkeys : ∀ t, term.getch t ≠ 113 ∧ term.getch t ≠ 81)
    (hbounds : ∀ t, term.getmaxyx t = (H, W)) (hrc : rc ≠ 0) :
    animation_loop term bw dir (fuel + 1) t ⟨pos, W, H⟩ rc frames =
      animation_loop term bw dir fuel (t + 1)
        (update_position ⟨pos, W, H⟩ bw dir rc).1 (update_position ⟨pos, W, H⟩ bw dir rc).2
        (frames ++ [⟨pos, W, H⟩]) := by
  have h1 := (hkeys t).1
  have h2 := (hkeys t).2
  simp only [animation_loop, hrc, ne_eq, not_false_eq_true, if_true, h1, h2, or_self,
    if_false, hbounds, ite_self]

theorem animation_loop_stop (term : Terminal) (bw dir : Int) (fuel t : Nat)
    (state : AnimationState) (frames : List AnimationState) :
    animation_loop term bw dir fuel t state 0 frames = some ⟨frames, state, 0⟩ := by
  cases fuel <;> simp [animation_loop]

/-- One traverse leftwards, from the position `-M + j` on. -/
theorem animation_loop_left (term : Terminal) (W M H c : Int)
    (hkeys : ∀ t, term.getch t ≠ 113 ∧ term.getch t ≠ 81)
    (hbounds : ∀ t, term.getmaxyx t = (H, W)) (hc : 0 < c) (j : Nat) :
    ∀ (f t : Nat) (frames : List AnimationState),
    animation_loop term M 0 (f + (j + 1)) t ⟨-M + j, W, H⟩ c frames =
      animation_loop term M 0 f (t + (j + 1)) ⟨W, W, H⟩ (c - 1)
        (frames ++ (List.range (j + 1)).map fun i => ⟨-M + j - i, W, H⟩) := by
  induction j with
  | zero =>
    intro f t frames
    rw [show f + (0 + 1) = f + 1 from rfl,
      animation_loop_tick term M 0 W H _ c f t frames hkeys hbounds (by omega)]
    have h : -M + ((0 : Nat) : Int) - 1 < -M := by omega
    simp [update_position, h, hc, show List.range 1 = [0] from rfl]
  | succ j ih =>
    intro f t frames
    rw [show f + (j + 1 + 1) = (f + (j + 1)) + 1 from rfl,
      animation_loop_tick term M 0 W H _ c _ t frames hkeys hbounds (by omega)]
    have h : ¬ (-M + ((j + 1 : Nat) : Int) - 1 < -M) := by push_cast; omega
    simp only [update_position, if_true, h, if_false]
    rw [show (-M + ((j + 1 : Nat) : Int) - 1) = -M + (j : Int) by push_cast; omega, ih]
    rw [show t + 1 + (j + 1) = t + (j + 1 + 1) by omega]
    congr 1
    rw [List.range_succ_eq_map (j + 1), List.map_cons, List.map_map, List.append_assoc]
    congr 1
    simp only [List.singleton_append, List.cons.injEq, AnimationState.mk.injEq, and_true]
    refine ⟨by push_cast; omega, ?_⟩
    apply List.map_congr_left
    intro i _
    simp only [Function.comp, AnimationState.mk.injEq, and_true]
    push_cast
    omega

/-- One traverse rightwards, from the position `W - j` on. -/
theorem animation_loop_right (term : Terminal) (dir W M H c : Int) (hdir : dir ≠ 0)
    (hkeys : ∀ t, term.getch t ≠ 113 ∧ term.getch t ≠ 81)
    (hbounds : ∀ t, term.getmaxyx t = (H, W)) (hc : 0 < c) (j : Nat) :
    ∀ (f t : Nat) (frames : List AnimationState),
    animation_loop term M dir (f + (j + 1)) t ⟨W - j, W, H⟩ c frames =
      animation_loop term M dir f (t + (j + 1)) ⟨-M, W, H⟩ (c - 1)
        (frames ++ (List.range (j + 1)).map fun i => ⟨W - j + i, W, H⟩) := by
  induction j with
  | zero =>
    intro f t frames
    rw [show f + (0 + 1) = f + 1 from rfl,
      animation_loop_tick term M dir W H _ c f t frames hkeys hbounds (by omega)]
    have h : W - ((0 : Nat) : Int) + 1 > W := by omega
    simp [update_position, h, hc, hdir, show List.range 1 = [0] from rfl]
  | succ j ih =>
    intro f t frames
    rw [show f + (j + 1 + 1) = (f + (j + 1)) + 1 from rfl,
      animation_loop_tick term M dir W H _ c _ t frames hkeys hbounds (by omega)]
    have h : ¬ (W - ((j + 1 : Nat) : Int) + 1 > W) := by push_cast; omega
    simp only [update_position, hdir, if_false, h]
    rw [show (W - ((j + 1 : Nat) : Int) + 1) = W - (j : Int) by push_cast; omega, ih]
    rw [show t + 1 + (j + 1) = t + (j + 1 + 1) by omega]
    congr 1
    rw [List.range_succ_eq_map (j + 1), List.map_cons, List.map_map, List.append_assoc]
    congr 1
    simp only [List.singleton_append, List.cons.injEq, AnimationState.mk.injEq, and_true]
    refine ⟨by push_cast; omega, ?_⟩
    apply List.map_congr_left
    intro i _
    simp only [Function.comp, AnimationState.mk.injEq, and_true]
    push_cast
    omega

/-- One full traverse in either direction, from the start position back to it. -/
theorem animation_loop_traverse (term : Terminal) (dir W M H c : Int)
    (hW : 0 ≤ W) (hM : 0 ≤ M)
    (hkeys : ∀ t, term.getch t ≠ 113 ∧ term.getch t ≠ 81)
    (hbounds : ∀ t, term.getmaxyx t = (H, W)) (hc : 0 < c)
    (f t : Nat) (frames : List AnimationState) :
    animation_loop term M dir (f + (W + M + 1).toNat) t
        ⟨if dir = 0 then W else -M, W, H⟩ c frames =
      animation_loop term M dir f (t + (W + M + 1).toNat)
        ⟨if dir = 0 then W else -M, W, H⟩ (c - 1) (frames ++ traverse_frames dir W M H) := by
  have hT : (W + M + 1).toNat = (W + M).toNat + 1 := by omega
  have hj : (((W + M).toNat : Nat) : Int) = W + M := by omega
  by_cases hdir : dir = 0
  · subst hdir
    have := animation_loop_left term W M H c hkeys hbounds hc (W + M).toNat f t frames
    rw [hj, show -M + (W + M) = W by omega] at this
    simp only [if_true, hT, this, traverse_frames]
  · have := animation_loop_right term dir W M H c hdir hkeys hbounds hc (W + M).toNat f t frames
    rw [hj, show W - (W + M) = -M by omega] at this
    simp only [hdir, if_false, hT, this, traverse_frames]

theorem animation_loop_run (term : Terminal) (dir W M H : Int)
    (hW : 0 ≤ W) (hM : 0 ≤ M)
    (hkeys : ∀ t, term.getch t ≠ 113 ∧ term.getch t ≠ 81)
    (hbounds : ∀ t, term.getmaxyx t = (H, W)) (n : Nat) :
    ∀ (f t : Nat) (frames : List AnimationState),
    animation_loop term M dir (f + n * (W + M + 1).toNat) t
        ⟨if dir = 0 then W else -M, W, H⟩ n frames =
      some ⟨frames ++ (List.replicate n (traverse_frames dir W M H)).flatten,
        ⟨if dir = 0 then W else -M, W, H⟩, 0⟩ := by
  induction n with
  | zero =>
    intro f t frames
    simp [animation_loop_stop]
  | succ n ih =>
    intro f t frames
    rw [show f + (n + 1) * (W + M + 1).toNat = (f + n * (W + M + 1).toNat) + (W + M + 1).toNat
      by rw [Nat.succ_mul]; omega]
    rw [animation_loop_traverse term dir W M H _ hW hM hkeys hbounds (by push_cast; omega)]
    rw [show (((n + 1 : Nat) : Int) - 1) = (n : Int) by push_cast; omega, ih]
    simp [List.replicate_succ]

/-- C10: with a repeat count `n > 0`, either direction, fixed screen bounds
`W ≥ 0`, `H`, a block of width `M ≥ 0` of at least one line, and no quit key, the loop
of `run_animation` ends (any fuel of at least `n * (W + M + 1)` iterations is enough):
it draws exactly `n` full traverses, `n * (W + M + 1)` frames in all, the last tick is
the one whose `update_position` wraps for the `n`-th time and brings the repeat count
to 0, and nothing is drawn after it. -/
theorem run_animation_terminates (term : Terminal) (config : AppConfig) (line_count : Nat)
    (W M H n : Int) (fuel : Nat) (hW : 0 ≤ W) (hM : 0 ≤ M) (hn : 0 < n)
    (hcount : config.repeat_count = n) (hlines : 0 < line_count)
    (hkeys : ∀ t, term.getch t ≠ 113 ∧ term.getch t ≠ 81)
    (hbounds : ∀ t, term.getmaxyx t = (H, W))
    (hfuel : n.toNat * (W + M + 1).toNat ≤ fuel) :
    run_animation_loop term config line_count M fuel =
      some { frames := (List.replicate n.toNat (traverse_frames config.direction W M H)).flatten,
             final := ⟨if config.direction = 0 then W else -M, W, H⟩,
             repeat_count := 0 } ∧
    ((List.replicate n.toNat (traverse_frames config.direction W M H)).flatten).length =
      n.toNat * (W + M + 1).toNat := by
  constructor
  · obtain ⟨f, rfl⟩ : ∃ f, fuel = f + n.toNat * (W + M + 1).toNat :=
      ⟨fuel - n.toNat * (W + M + 1).toNat, by omega⟩
    have hn' : ((n.toNat : Nat) : Int) = n := by omega
    have := animation_loop_run term config.direction W M H hW hM hkeys hbounds n.toNat f 0 []
    rw [hn'] at this
    simp only [run_animation_loop, hlines, if_true, hbounds, hcount]
    simpa using this
  · simp [traverse_frames, List.length_flatten]

theorem run_animation_terminates_witness :
    run_animation_loop ⟨fun _ => -1, fun _ => (24, 3)⟩ ⟨0, 100000, 1, false⟩ 3 1 5 =
      some { frames := (List.replicate (1 : Int).toNat (traverse_frames 0 3 1 24)).flatten,
             final := ⟨if (0 : Int) = 0 then 3 else -1, 3, 24⟩,
             repeat_count := 0 } ∧
    ((List.replicate (1 : Int).toNat (traverse_frames 0 3 1 24)).flatten).length =
      (1 : Int).toNat * (3 + 1 + 1 : Int).toNat :=
  run_animation_terminates ⟨fun _ => -1, fun _ => (24, 3)⟩ ⟨0, 100000, 1, false⟩ 3 3 1 24 1 5
    (by decide) (by decide) (by decide) rfl (by decide) (fun _ => ⟨by simp, by simp⟩) (fun _ => rfl)
    (by decide)

/-! ## The registry: what a call leaves behind -/

theorem Registry.ensure_initialized_of_initialized (reg : Registry)
    (h : reg.is_initialized = true) : reg.ensure_initialized = reg := by
  unfold Registry.ensure_initialized
  rw [if_pos h]

theorem Registry.keys_length (reg : Registry) (hwf : reg.wf) :
    reg.keys.length = reg.next_pair_id - 1 := by
  obtain ⟨h1, h2, h3, _⟩ := hwf
  simp only [Registry.keys, List.length_take, List.length_drop, h1]
  omega

theorem get_or_create_color_pair_post (C : Int) (reg reg1 : Registry) (fg bg : Int) (h : Nat)
    (hwf : reg.wf) (hcall : get_or_create_color_pair C reg fg bg = some (h, reg1)) :
    reg1.wf ∧ reg1.is_initialized = true ∧ reg1.stands_for C fg bg h ∧
    ((reg1.keys = reg.keys ∧ reg1.next_pair_id = reg.next_pair_id) ∨
      (reg1.keys = reg.keys ++ [⟨fg, bg⟩] ∧ ((reg.next_pair_id : Nat) : Int) < C)) := by
  obtain ⟨hwf0, hkeys0, hnext0, hinit0⟩ := reg.wf_ensure_initialized hwf
  have hlen := reg.keys_length hwf
  have hpos := hwf.2.1
  rw [get_or_create_color_pair_eq C reg fg bg hwf] at hcall
  split_ifs at hcall with h1 h2 h3 h4
  · simp only [Option.some.injEq, Prod.mk.injEq] at hcall
    obtain ⟨rfl, rfl⟩ := hcall
    exact ⟨hwf0, hinit0, Or.inl ⟨h1, rfl⟩, Or.inl ⟨hkeys0, hnext0⟩⟩
  · simp only [Option.some.injEq, Prod.mk.injEq] at hcall
    obtain ⟨rfl, rfl⟩ := hcall
    refine ⟨hwf0, hinit0, Or.inr (Or.inl ⟨h1, ?_, ?_⟩), Or.inl ⟨hkeys0, hnext0⟩⟩
    · rw [hkeys0]; exact h2
    · rw [hkeys0]
  · simp only [Option.some.injEq, Prod.mk.injEq] at hcall
    obtain ⟨rfl, rfl⟩ := hcall
    obtain ⟨hwf1, hkeys1, hnext1, hinit1⟩ := reg.register_spec fg bg hwf h4
    refine ⟨hwf1, hinit1, Or.inr (Or.inl ⟨h1, ?_, ?_⟩), Or.inr ⟨hkeys1, h3⟩⟩
    · rw [hkeys1]; simp
    · rw [hkeys1, List.indexOf_append_of_not_mem h2, hlen]
      simp only [List.indexOf_cons_self]
      omega
  · simp only [Option.some.injEq, Prod.mk.injEq] at hcall
    obtain ⟨rfl, rfl⟩ := hcall
    refine ⟨hwf0, hinit0, Or.inr (Or.inr ⟨h1, ?_, rfl, ?_⟩), Or.inl ⟨hkeys0, hnext0⟩⟩
    · rw [hkeys0]; exact h2
    · rw [hnext0]; exact h3

theorem get_or_create_color_pair_of_stands_for (C : Int) (reg : Registry) (fg bg : Int)
    (h : Nat) (hwf : reg.wf) (hinit : reg.is_initialized = true)
    (hs : reg.stands_for C fg bg h) :
    get_or_create_color_pair C reg fg bg = some (h, reg) := by
  rw [get_or_create_color_pair_eq C reg fg bg hwf,
    reg.ensure_initialized_of_initialized hinit]
  rcases hs with ⟨h1, rfl⟩ | ⟨h1, h2, rfl⟩ | ⟨h1, h2, rfl, h3⟩
  · rw [if_pos h1]
  · rw [if_neg h1, if_pos h2]
  · rw [if_neg h1, if_neg h2, if_neg h3]

theorem Registry.stands_for_mono (C : Int) (reg1 reg2 : Registry) (fg bg fg2 bg2 : Int)
    (h : Nat) (hs : reg1.stands_for C fg bg h)
    (hext : (reg2.keys = reg1.keys ∧ reg2.next_pair_id = reg1.next_pair_id) ∨
      (reg2.keys = reg1.keys ++ [⟨fg2, bg2⟩] ∧ ((reg1.next_pair_id : Nat) : Int) < C)) :
    reg2.stands_for C fg bg h := by
  rcases hext with ⟨e1, e2⟩ | ⟨e1, e2⟩
  · unfold Registry.stands_for
    rw [e1, e2]
    exact hs
  · rcases hs with ⟨h1, rfl⟩ | ⟨h1, h2, rfl⟩ | ⟨h1, h2, rfl, h3⟩
    · exact Or.inl ⟨h1, rfl⟩
    · refine Or.inr (Or.inl ⟨h1, ?_, ?_⟩)
      · rw [e1]; exact List.mem_append_left _ h2
      · rw [e1, List.indexOf_append_of_mem h2]
    · exact absurd e2 h3

/-- Handles are stable: what a call returned for a key is what every later call
returns for it, and a later call for a key already asked leaves the statics as they
are. -/
theorem get_or_create_color_pair_stable (C : Int) (reg reg1 reg2 : Registry)
    (fg bg fg2 bg2 : Int) (h h2 : Nat) (hwf : reg.wf)
    (hcall : get_or_create_color_pair C reg fg bg = some (h, reg1))
    (hcall2 : get_or_create_color_pair C reg1 fg2 bg2 = some (h2, reg2)) :
    get_or_create_color_pair C reg2 fg bg = some (h, reg2) ∧
    get_or_create_color_pair C reg2 fg2 bg2 = some (h2, reg2) := by
  obtain ⟨hwf1, _, hs1, _⟩ := get_or_create_color_pair_post C reg reg1 fg bg h hwf hcall
  obtain ⟨hwf2, hinit2, hs2, hext⟩ :=
    get_or_create_color_pair_post C reg1 reg2 fg2 bg2 h2 hwf1 hcall2
  exact ⟨get_or_create_color_pair_of_stands_for C reg2 fg bg h hwf2 hinit2
      (Registry.stands_for_mono C reg1 reg2 fg bg fg2 bg2 h hs1 hext),
    get_or_create_color_pair_of_stands_for C reg2 fg2 bg2 h2 hwf2 hinit2 hs2⟩

/-! ## Parsing: the loop -/

theorem byte_at_cons (c : Nat) (rest : List Nat) : byte_at (c :: rest) = c := rfl

theorem byte_at_nil : byte_at [] = 0 := rfl

theorem eq_cons_of_byte_at_ne_zero (p : List Nat) (h : byte_at p ≠ 0) :
    p = byte_at p :: p.tail := by
  cases p with
  | nil => exact absurd rfl h
  | cons c rest => rfl

theorem eq_nil_of_byte_at_eq_zero (p : List Nat) (hnul : ∀ c ∈ p, c ≠ 0)
    (h : byte_at p = 0) : p = [] := by
  cases p with
  | nil => rfl
  | cons c rest => exact absurd h (hnul c (List.mem_cons_self c rest))

theorem seq_end_suffix (p : List Nat) : seq_end p <:+ p :=
  ((List.dropWhile_suffix _).trans (List.tail_suffix _)).trans (List.tail_suffix _)

theorem after_seq_suffix (p : List Nat) : after_seq p <:+ p := by
  unfold after_seq
  split_ifs
  · exact (List.tail_suffix _).trans (seq_end_suffix p)
  · exact seq_end_suffix p

theorem after_seq_length (p : List Nat) (h : byte_at p ≠ 0) :
    (after_seq p).length < p.length := by
  have h1 : (after_seq p).length ≤ (seq_end p).length := by
    unfold after_seq
    split_ifs <;> simp
  have h2 : (seq_end p).length ≤ p.tail.tail.length :=
    (List.dropWhile_suffix _).length_le
  have h3 : p = byte_at p :: p.tail := eq_cons_of_byte_at_ne_zero p h
  have h4 : p.length = p.tail.length + 1 := by
    conv_lhs => rw [h3]
    simp
  have h5 : p.tail.tail.length ≤ p.tail.length := by simp
  omega

theorem tail_length_lt (p : List Nat) (h : byte_at p ≠ 0) : p.tail.length < p.length := by
  have h3 : p = byte_at p :: p.tail := eq_cons_of_byte_at_ne_zero p h
  conv_rhs => rw [h3]
  simp

/-- Case analysis of the loop: a property of (remaining text, state, result) that
holds when the loop stops and is carried backwards over every kind of iteration
holds for every run of the loop that returns. -/
theorem parse_loop_cases (C : Int) (P : List Nat → ParseState → ParseState → Prop)
    (h_end : ∀ p st, byte_at p = 0 → P p st st)
    (h_break : ∀ p st, byte_at p ≠ 0 → byte_at p = 27 → byte_at p.tail = 91 →
      byte_at (seq_end p) = 109 →
      (st.line.segments st.segment_idx).width > 0 →
      st.segment_idx + 1 ≥ MAX_SEGMENTS_PER_LINE →
      P p st { set_colors st p with segment_idx := st.segment_idx + 1 })
    (h_style : ∀ p st h reg r, byte_at p ≠ 0 → byte_at p = 27 → byte_at p.tail = 91 →
      byte_at (seq_end p) = 109 →
      ¬ ((st.line.segments st.segment_idx).width > 0 ∧
          st.segment_idx + 1 ≥ MAX_SEGMENTS_PER_LINE) →
      get_or_create_color_pair C st.reg (set_colors st p).current_fg
        (set_colors st p).current_bg = some (h, reg) →
      P (after_seq p) (open_segment (advance_segment (set_colors st p)) h reg) r →
      P p st r)
    (h_other : ∀ p st r, byte_at p ≠ 0 → byte_at p = 27 → byte_at p.tail = 91 →
      byte_at (seq_end p) ≠ 109 → P (after_seq p) st r → P p st r)
    (h_byte : ∀ p st r, byte_at p ≠ 0 → ¬ (byte_at p = 27 ∧ byte_at p.tail = 91) →
      P p.tail (put_byte st (byte_at p)) r → P p st r) :
    ∀ fuel p st r, parse_loop C fuel p st = some r → P p st r := by
  intro fuel
  induction fuel with
  | zero =>
    intro p st r h
    simp only [parse_loop] at h
    split_ifs at h with h0
    simp only [Option.some.injEq] at h
    subst h
    exact h_end p st h0
  | succ fuel ih =>
    intro p st r h
    rw [parse_loop] at h
    by_cases h0 : byte_at p = 0
    · rw [if_pos h0] at h
      simp only [Option.some.injEq] at h
      subst h
      exact h_end p st h0
    rw [if_neg h0] at h
    by_cases h1 : byte_at p = 27 ∧ byte_at p.tail = 91
    swap
    · rw [if_neg h1] at h
      exact h_byte p st r h0 h1 (ih _ _ _ h)
    rw [if_pos h1] at h
    by_cases h2 : byte_at (seq_end p) = 109
    swap
    · rw [if_neg h2] at h
      exact h_other p st r h0 h1.1 h1.2 h2 (ih _ _ _ h)
    rw [if_pos h2] at h
    simp only [] at h
    by_cases h3 : (st.line.segments st.segment_idx).width > 0 ∧
        st.segment_idx + 1 ≥ MAX_SEGMENTS_PER_LINE
    · have h3a : ((set_colors st p).line.segments (set_colors st p).segment_idx).width > 0 ∧
          (set_colors st p).segment_idx + 1 ≥ MAX_SEGMENTS_PER_LINE := h3
      rw [if_pos h3a] at h
      simp only [Option.some.injEq] at h
      subst h
      exact h_break p st h0 h1.1 h1.2 h2 h3.1 h3.2
    · have h3a : ¬ (((set_colors st p).line.segments (set_colors st p).segment_idx).width > 0 ∧
          (set_colors st p).segment_idx + 1 ≥ MAX_SEGMENTS_PER_LINE) := h3
      rw [if_neg h3a] at h
      have hreg : (advance_segment (set_colors st p)).reg = st.reg := by
        unfold advance_segment; split_ifs <;> rfl
      have hfg : (advance_segment (set_colors st p)).current_fg =
          (set_colors st p).current_fg := by
        unfold advance_segment; split_ifs <;> rfl
      have hbg : (advance_segment (set_colors st p)).current_bg =
          (set_colors st p).current_bg := by
        unfold advance_segment; split_ifs <;> rfl
      simp only [hreg, hfg, hbg] at h
      cases hcall : get_or_create_color_pair C st.reg (set_colors st p).current_fg
          (set_colors st p).current_bg with
      | none => rw [hcall] at h; simp at h
      | some hr =>
        obtain ⟨hh, reg⟩ := hr
        rw [hcall] at h
        exact h_style p st hh reg r h0 h1.1 h1.2 h2 h3 hcall (ih _ _ _ h)

theorem get_or_create_color_pair_returns (C : Int) (reg : Registry) (fg bg : Int)
    (hC : C ≤ 256) (hwf : reg.wf) :
    ∃ h reg1, get_or_create_color_pair C reg fg bg = some (h, reg1) ∧ reg1.wf := by
  have hne : get_or_create_color_pair C reg fg bg ≠ none := by
    rw [get_or_create_color_pair_eq C reg fg bg hwf]
    split_ifs with h1 h2 h3 h4 <;> try simp
    simp only [PAIR_TABLE_SIZE] at h4
    omega
  cases hcall : get_or_create_color_pair C reg fg bg with
  | none => exact absurd hcall hne
  | some r => exact ⟨r.1, r.2, rfl, get_or_create_color_pair_wf C reg r.2 fg bg r.1 hwf hcall⟩

theorem put_byte_reg (st : ParseState) (c : Nat) : (put_byte st c).reg = st.reg := by
  unfold put_byte; simp only []; split_ifs <;> rfl

theorem put_byte_segment_idx (st : ParseState) (c : Nat) :
    (put_byte st c).segment_idx = st.segment_idx := by
  unfold put_byte; simp only []; split_ifs <;> rfl

/-- The loop returns whenever the registry is well formed and `COLOR_PAIRS ≤ 256`;
one unit of fuel per byte is enough. -/
theorem parse_loop_returns (C : Int) (hC : C ≤ 256) :
    ∀ fuel p st, p.length ≤ fuel → st.reg.wf →
      ∃ r, parse_loop C fuel p st = some r ∧ r.reg.wf := by
  intro fuel
  induction fuel with
  | zero =>
    intro p st hlen hwf
    have hp : p = [] := List.length_eq_zero.mp (by omega)
    subst hp
    exact ⟨st, by simp [parse_loop, byte_at], hwf⟩
  | succ fuel ih =>
    intro p st hlen hwf
    rw [parse_loop]
    by_cases h0 : byte_at p = 0
    · rw [if_pos h0]; exact ⟨st, rfl, hwf⟩
    rw [if_neg h0]
    have hl1 := after_seq_length p h0
    have hl2 := tail_length_lt p h0
    by_cases h1 : byte_at p = 27 ∧ byte_at p.tail = 91
    swap
    · rw [if_neg h1]
      exact ih _ _ (by omega) (by rw [put_byte_reg]; exact hwf)
    rw [if_pos h1]
    by_cases h2 : byte_at (seq_end p) = 109
    swap
    · rw [if_neg h2]
      exact ih _ _ (by omega) hwf
    rw [if_pos h2]
    simp only []
    split_ifs with h3
    · exact ⟨_, rfl, hwf⟩
    · have hreg : (advance_segment (set_colors st p)).reg = st.reg := by
        unfold advance_segment; split_ifs <;> rfl
      obtain ⟨h, reg1, hcall, hwf1⟩ := get_or_create_color_pair_returns C
        (advance_segment (set_colors st p)).reg (advance_segment (set_colors st p)).current_fg
        (advance_segment (set_colors st p)).current_bg hC (by rw [hreg]; exact hwf)
      rw [hcall]
      exact ih _ _ (by omega) hwf1

/-- The function parse_line returns whenever the registry is well formed and
`COLOR_PAIRS ≤ 256`. -/
theorem parse_line_returns (C : Int) (reg : Registry) (line : MarqueeLine)
    (line_text : List Nat) (hC : C ≤ 256) (hwf : reg.wf) :
    ∃ r, parse_line C reg line line_text = some r ∧ r.2.wf := by
  obtain ⟨h, reg1, hcall, hwf1⟩ := get_or_create_color_pair_returns C reg COLOR_WHITE (-1) hC hwf
  obtain ⟨st, hloop, hwf2⟩ := parse_loop_returns C hC line_text.length line_text
    (parse_start line h reg1) (le_refl _) hwf1
  exact ⟨(parse_finish st, st.reg), by simp only [parse_line, hcall, hloop], hwf2⟩

/-! ## Parsing: escape sequences removed -/

theorem isalpha_91 : isalpha 91 = false := by decide

theorem strip_escapes_in_seq (body : List Nat) (hnul : ∀ c ∈ body, c ≠ 0) :
    strip_escapes_from true body =
      strip_escapes_from false
        (if byte_at (body.dropWhile seq_byte) ≠ 0 then (body.dropWhile seq_byte).tail
         else body.dropWhile seq_byte) := by
  induction body with
  | nil => simp [strip_escapes_from, byte_at]
  | cons c b ih =>
    have hc : c ≠ 0 := hnul c (List.mem_cons_self c b)
    have hb : ∀ x ∈ b, x ≠ 0 := fun x hx => hnul x (List.mem_cons_of_mem c hx)
    by_cases ha : isalpha c = true
    · have hs : seq_byte c = false := by simp [seq_byte, ha]
      simp [strip_escapes_from, ha, List.dropWhile_cons, hs, byte_at, hc]
    · have hs : seq_byte c = true := by simp [seq_byte, ha, hc]
      simp only [strip_escapes_from, ha, List.dropWhile_cons, hs, if_true, if_false]
      simpa using ih hb

theorem strip_escapes_seq (p : List Nat) (hnul : ∀ c ∈ p, c ≠ 0)
    (h1 : byte_at p = 27) (h2 : byte_at p.tail = 91) :
    strip_escapes p = strip_escapes (after_seq p) := by
  have e1 : p = 27 :: p.tail := by
    have := eq_cons_of_byte_at_ne_zero p (by omega); rwa [h1] at this
  have e2 : p.tail = 91 :: p.tail.tail := by
    have := eq_cons_of_byte_at_ne_zero p.tail (by omega); rwa [h2] at this
  have hb : ∀ c ∈ p.tail.tail, c ≠ 0 := fun c hc =>
    hnul c (List.mem_of_mem_tail (List.mem_of_mem_tail hc))
  have h3 : strip_escapes p = strip_escapes_from true p.tail.tail := by
    unfold strip_escapes
    conv_lhs => rw [e1]
    rw [strip_escapes_from, if_pos ⟨rfl, h2⟩]
    conv_lhs => rw [e2]
    rw [strip_escapes_from, isalpha_91]
    simp
  rw [h3, strip_escapes_in_seq _ hb]
  rfl

theorem strip_escapes_byte (p : List Nat) (h0 : byte_at p ≠ 0)
    (h1 : ¬ (byte_at p = 27 ∧ byte_at p.tail = 91)) :
    strip_escapes p = byte_at p :: strip_escapes p.tail := by
  have e1 : p = byte_at p :: p.tail := eq_cons_of_byte_at_ne_zero p h0
  unfold strip_escapes
  conv_lhs => rw [e1]
  rw [strip_escapes_from, if_neg h1]

/-! ## Parsing: the concatenation law -/

theorem set_segment_same (segs : Nat → TextSegment) (i : Nat) (s : TextSegment) :
    set_segment segs i s i = s := by
  simp [set_segment]

theorem set_segment_other (segs : Nat → TextSegment) (i j : Nat) (s : TextSegment)
    (h : j ≠ i) : set_segment segs i s j = segs j := by
  simp [set_segment, h]

theorem map_range_set_segment {α : Type} (f : TextSegment → α) (segs : Nat → TextSegment)
    (n : Nat) (s : TextSegment) :
    (List.range n).map (fun i => f (set_segment segs n s i)) =
      (List.range n).map (fun i => f (segs i)) := by
  apply List.map_congr_left
  intro i hi
  rw [set_segment_other _ _ _ _ (by have := List.mem_range.mp hi; omega)]

theorem ParseState.emitted_eq (st : ParseState) :
    st.emitted =
      ((List.range st.segment_idx).map fun i => (st.line.segments i).text).flatten ++
        (st.line.segments st.segment_idx).text := by
  simp [ParseState.emitted, List.range_succ]

theorem put_byte_fits (st : ParseState) (c : Nat)
    (h : (st.line.segments st.segment_idx).width < MAX_TEXT_PER_SEGMENT - 1) :
    put_byte st c =
      { st with
        line := { st.line with
          segments := set_segment st.line.segments st.segment_idx
            { st.line.segments st.segment_idx with
              text := (st.line.segments st.segment_idx).text.take
                (st.line.segments st.segment_idx).width ++ [c],
              width := (st.line.segments st.segment_idx).width + 1 },
          total_width := st.line.total_width + 1 } } := by
  unfold put_byte
  simp only [h, if_true]

theorem put_byte_full (st : ParseState) (c : Nat)
    (h : ¬ (st.line.segments st.segment_idx).width < MAX_TEXT_PER_SEGMENT - 1) :
    put_byte st c = st := by
  unfold put_byte
  simp only [h, if_false]

theorem put_byte_spec (st : ParseState) (c : Nat) (hcons : st.consistent)
    (h : (st.line.segments st.segment_idx).width < MAX_TEXT_PER_SEGMENT - 1) :
    (put_byte st c).consistent ∧ (put_byte st c).emitted = st.emitted ++ [c] ∧
    (put_byte st c).line.total_width = st.line.total_width + 1 := by
  unfold ParseState.consistent at hcons
  rw [put_byte_fits st c h]
  refine ⟨?_, ?_, rfl⟩
  · simp [ParseState.consistent, set_segment_same, hcons]
  · rw [ParseState.emitted_eq, ParseState.emitted_eq]
    simp only [set_segment_same]
    rw [map_range_set_segment (fun s => s.text), hcons, List.take_length, List.append_assoc]

theorem open_segment_spec (st : ParseState) (p : List Nat) (h : Nat) (reg : Registry) :
    (open_segment (advance_segment (set_colors st p)) h reg).consistent ∧
    (open_segment (advance_segment (set_colors st p)) h reg).line.total_width =
      st.line.total_width ∧
    (st.consistent →
      (open_segment (advance_segment (set_colors st p)) h reg).emitted = st.emitted) := by
  by_cases hw : (st.line.segments st.segment_idx).width > 0
  · have e : advance_segment (set_colors st p) =
        { set_colors st p with segment_idx := st.segment_idx + 1 } := by
      unfold advance_segment
      rw [if_pos (show ((set_colors st p).line.segments (set_colors st p).segment_idx).width > 0
        from hw)]
      rfl
    rw [e]
    refine ⟨by simp [ParseState.consistent, open_segment, set_segment_same], rfl, ?_⟩
    intro _
    rw [ParseState.emitted_eq]
    simp only [open_segment, set_segment_same, List.append_nil]
    rw [map_range_set_segment (fun s => s.text)]
    rfl
  · have e : advance_segment (set_colors st p) = set_colors st p := by
      unfold advance_segment
      rw [if_neg (show ¬ ((set_colors st p).line.segments (set_colors st p).segment_idx).width > 0
        from hw)]
    rw [e]
    refine ⟨by simp [ParseState.consistent, open_segment, set_segment_same], rfl, ?_⟩
    intro hcons
    unfold ParseState.consistent at hcons
    have ht : (st.line.segments st.segment_idx).text = [] := by
      apply List.eq_nil_of_length_eq_zero
      omega
    rw [ParseState.emitted_eq, ParseState.emitted_eq]
    simp only [open_segment, set_segment_same, List.append_nil]
    rw [show (set_colors st p).segment_idx = st.segment_idx from rfl,
      show (set_colors st p).line = st.line from rfl,
      map_range_set_segment (fun s => s.text), ht, List.append_nil]

theorem put_byte_total_le (st : ParseState) (c : Nat) :
    (put_byte st c).line.total_width ≤ st.line.total_width + 1 := by
  unfold put_byte
  simp only []
  split_ifs <;> simp

theorem mem_of_mem_suffix {l1 l2 : List Nat} (h : l1 <:+ l2) {c : Nat} (hc : c ∈ l1) :
    c ∈ l2 := h.subset hc

/-- The loop, on a NUL-free rest of the line: the width it adds is at most the number
of visible bytes, and when nothing is dropped and the loop is not left by `break`,
the text it adds is the rest of the line without its escape sequences. -/
theorem parse_loop_concat (C : Int) :
    ∀ fuel p st r, parse_loop C fuel p st = some r → (∀ c ∈ p, c ≠ 0) →
      r.line.total_width ≤ st.line.total_width + (strip_escapes p).length ∧
      (st.consistent → r.segment_idx < MAX_SEGMENTS_PER_LINE →
        r.line.total_width = st.line.total_width + (strip_escapes p).length →
        r.emitted = st.emitted ++ strip_escapes p ∧ r.consistent) := by
  apply parse_loop_cases C (fun p st r => (∀ c ∈ p, c ≠ 0) →
      r.line.total_width ≤ st.line.total_width + (strip_escapes p).length ∧
      (st.consistent → r.segment_idx < MAX_SEGMENTS_PER_LINE →
        r.line.total_width = st.line.total_width + (strip_escapes p).length →
        r.emitted = st.emitted ++ strip_escapes p ∧ r.consistent))
  · intro p st h0 hnul
    have hp := eq_nil_of_byte_at_eq_zero p hnul h0
    subst hp
    exact ⟨by simp [strip_escapes, strip_escapes_from],
      fun hc _ _ => ⟨by simp [strip_escapes, strip_escapes_from], hc⟩⟩
  · intro p st _ _ _ _ _ hfull hnul
    refine ⟨by simp [set_colors], ?_⟩
    intro _ hidx
    simp only [MAX_SEGMENTS_PER_LINE] at hidx hfull
    omega
  · intro p st h reg r _ h1 h2 _ _ _ ih hnul
    obtain ⟨hc, ht, he⟩ := open_segment_spec st p h reg
    have ih := ih (fun c hc => hnul c (mem_of_mem_suffix (after_seq_suffix p) hc))
    rw [strip_escapes_seq p hnul h1 h2]
    rw [ht] at ih
    refine ⟨ih.1, ?_⟩
    intro hcons hidx htot
    have := ih.2 hc hidx htot
    rwa [he hcons] at this
  · intro p st r _ h1 h2 _ ih hnul
    have ih := ih (fun c hc => hnul c (mem_of_mem_suffix (after_seq_suffix p) hc))
    rw [strip_escapes_seq p hnul h1 h2]
    exact ih
  · intro p st r h0 h1 ih hnul
    have ih := ih (fun c hc => hnul c (List.mem_of_mem_tail hc))
    rw [strip_escapes_byte p h0 h1, List.length_cons]
    have hle := put_byte_total_le st (byte_at p)
    refine ⟨by omega, ?_⟩
    intro hcons hidx htot
    by_cases hw : (st.line.segments st.segment_idx).width < MAX_TEXT_PER_SEGMENT - 1
    · obtain ⟨hc1, he1, ht1⟩ := put_byte_spec st (byte_at p) hcons hw
      have := ih.2 hc1 hidx (by omega)
      rw [he1, List.append_assoc] at this
      exact this
    · rw [put_byte_full st _ hw] at ih
      omega

/-! ## Parsing: single iterations of the loop -/

theorem parse_loop_end (C : Int) (fuel : Nat) (p : List Nat) (st : ParseState)
    (h0 : byte_at p = 0) : parse_loop C fuel p st = some st := by
  cases fuel with
  | zero => simp [parse_loop, h0]
  | succ fuel => rw [parse_loop, if_pos h0]

theorem parse_loop_byte (C : Int) (fuel : Nat) (p : List Nat) (st : ParseState)
    (h0 : byte_at p ≠ 0) (h1 : ¬ (byte_at p = 27 ∧ byte_at p.tail = 91)) :
    parse_loop C (fuel + 1) p st = parse_loop C fuel p.tail (put_byte st (byte_at p)) := by
  rw [parse_loop, if_neg h0, if_neg h1]

theorem parse_loop_other (C : Int) (fuel : Nat) (p : List Nat) (st : ParseState)
    (h0 : byte_at p ≠ 0) (h1 : byte_at p = 27) (h2 : byte_at p.tail = 91)
    (h3 : byte_at (seq_end p) ≠ 109) :
    parse_loop C (fuel + 1) p st = parse_loop C fuel (after_seq p) st := by
  rw [parse_loop, if_neg h0, if_pos ⟨h1, h2⟩, if_neg h3]

theorem parse_loop_break (C : Int) (fuel : Nat) (p : List Nat) (st : ParseState)
    (h0 : byte_at p ≠ 0) (h1 : byte_at p = 27) (h2 : byte_at p.tail = 91)
    (h3 : byte_at (seq_end p) = 109)
    (h4 : (st.line.segments st.segment_idx).width > 0)
    (h5 : st.segment_idx + 1 ≥ MAX_SEGMENTS_PER_LINE) :
    parse_loop C (fuel + 1) p st =
      some { set_colors st p with segment_idx := st.segment_idx + 1 } := by
  rw [parse_loop, if_neg h0, if_pos ⟨h1, h2⟩, if_pos h3]
  simp only []
  rw [if_pos (show ((set_colors st p).line.segments (set_colors st p).segment_idx).width > 0 ∧
    (set_colors st p).segment_idx + 1 ≥ MAX_SEGMENTS_PER_LINE from ⟨h4, h5⟩)]
  rfl

theorem parse_loop_style (C : Int) (fuel : Nat) (p : List Nat) (st : ParseState)
    (h0 : byte_at p ≠ 0) (h1 : byte_at p = 27) (h2 : byte_at p.tail = 91)
    (h3 : byte_at (seq_end p) = 109)
    (h4 : ¬ ((st.line.segments st.segment_idx).width > 0 ∧
      st.segment_idx + 1 ≥ MAX_SEGMENTS_PER_LINE)) :
    parse_loop C (fuel + 1) p st =
      match get_or_create_color_pair C st.reg (set_colors st p).current_fg
          (set_colors st p).current_bg with
      | none => none
      | some (h, reg) =>
        parse_loop C fuel (after_seq p) (open_segment (advance_segment (set_colors st p)) h reg) := by
  rw [parse_loop, if_neg h0, if_pos ⟨h1, h2⟩, if_pos h3]
  simp only []
  rw [if_neg (show ¬ (((set_colors st p).line.segments (set_colors st p).segment_idx).width > 0 ∧
    (set_colors st p).segment_idx + 1 ≥ MAX_SEGMENTS_PER_LINE) from h4)]
  have hreg : (advance_segment (set_colors st p)).reg = st.reg := by
    unfold advance_segment; split_ifs <;> rfl
  have hfg : (advance_segment (set_colors st p)).current_fg =
      (set_colors st p).current_fg := by
    unfold advance_segment; split_ifs <;> rfl
  have hbg : (advance_segment (set_colors st p)).current_bg =
      (set_colors st p).current_bg := by
    unfold advance_segment; split_ifs <;> rfl
  rw [hreg, hfg, hbg]

theorem parse_line_eq (C : Int) (reg : Registry) (line : MarqueeLine) (line_text : List Nat)
    (r : MarqueeLine × Registry) (h : parse_line C reg line line_text = some r) :
    ∃ h0 reg1 st, get_or_create_color_pair C reg COLOR_WHITE (-1) = some (h0, reg1) ∧
      parse_loop C line_text.length line_text (parse_start line h0 reg1) = some st ∧
      r = (parse_finish st, st.reg) := by
  unfold parse_line at h
  cases hcall : get_or_create_color_pair C reg COLOR_WHITE (-1) with
  | none => rw [hcall] at h; simp at h
  | some hr =>
    obtain ⟨h0, reg1⟩ := hr
    rw [hcall] at h
    simp only [] at h
    cases hloop : parse_loop C line_text.length line_text (parse_start line h0 reg1) with
    | none => rw [hloop] at h; simp at h
    | some st =>
      rw [hloop] at h
      simp only [Option.some.injEq] at h
      exact ⟨h0, reg1, st, rfl, hloop, h.symm⟩

/-! ## C1: the concatenation law -/

theorem parse_start_spec (line : MarqueeLine) (h : Nat) (reg : Registry) :
    (parse_start line h reg).consistent ∧ (parse_start line h reg).emitted = [] ∧
    (parse_start line h reg).line.total_width = 0 ∧
    (parse_start line h reg).segment_idx = 0 := by
  refine ⟨?_, ?_, rfl, rfl⟩
  · simp [ParseState.consistent, parse_start, set_segment_same]
  · simp [ParseState.emitted_eq, parse_start, set_segment_same]

theorem joined_text_parse_finish (st : ParseState) (hcons : st.consistent) :
    (parse_finish st).joined_text = st.emitted := by
  unfold MarqueeLine.joined_text MarqueeLine.segment_list parse_finish
  simp only [List.map_map]
  by_cases hc : (st.line.segments 0).width > 0 ∨ st.segment_idx > 0
  · rw [if_pos hc]
    rfl
  · rw [if_neg hc]
    have h0 : st.segment_idx = 0 := by omega
    unfold ParseState.consistent at hcons
    rw [h0] at hcons
    have ht : (st.line.segments 0).text = [] := by
      apply List.eq_nil_of_length_eq_zero
      omega
    simp [ParseState.emitted_eq, h0, ht]

/-- The concatenation law with the byte capacity read off the result: when the parse
counts at most 128 segments and its `total_width` is the number of visible bytes of a
NUL-free line, the texts of the segments joined in order are the line without its
escape sequences. -/
theorem parse_line_concatenation_of_total_width (C : Int) (reg : Registry) (line : MarqueeLine)
    (line_text : List Nat) (hnul : ∀ c ∈ line_text, c ≠ 0) :
    (C ≤ 256 → reg.wf → ∃ r, parse_line C reg line line_text = some r) ∧
    ∀ r, parse_line C reg line line_text = some r →
      r.1.segment_count ≤ MAX_SEGMENTS_PER_LINE →
      r.1.total_width = (strip_escapes line_text).length →
      r.1.joined_text = strip_escapes line_text := by
  constructor
  · intro hC hwf
    obtain ⟨r, hr, _⟩ := parse_line_returns C reg line line_text hC hwf
    exact ⟨r, hr⟩
  · intro r hr hcount htotal
    obtain ⟨h0, reg1, st, _, hloop, rfl⟩ := parse_line_eq C reg line line_text r hr
    obtain ⟨hc0, he0, ht0, hi0⟩ := parse_start_spec line h0 reg1
    have hidx : st.segment_idx < MAX_SEGMENTS_PER_LINE := by
      simp only [parse_finish] at hcount
      split_ifs at hcount with hc
      · omega
      · simp only [MAX_SEGMENTS_PER_LINE]; omega
    have htot : st.line.total_width =
        (parse_start line h0 reg1).line.total_width + (strip_escapes line_text).length := by
      rw [ht0, Nat.zero_add]; exact htotal
    obtain ⟨he, hc⟩ := (parse_loop_concat C _ _ _ _ hloop hnul).2 hc0 hidx htot
    rw [he0, List.nil_append] at he
    show (parse_finish st).joined_text = _
    rw [joined_text_parse_finish st hc, he]

/-! ## Parsing: what a style change and a literal byte do to the state -/

theorem open_segment_of_empty (st : ParseState) (p : List Nat) (h : Nat) (reg : Registry)
    (hw : (st.line.segments st.segment_idx).width = 0) :
    (open_segment (advance_segment (set_colors st p)) h reg).segment_idx = st.segment_idx ∧
    (open_segment (advance_segment (set_colors st p)) h reg).line.segments =
      set_segment st.line.segments st.segment_idx ⟨[], 0, h⟩ ∧
    (open_segment (advance_segment (set_colors st p)) h reg).line.total_width =
      st.line.total_width ∧
    (open_segment (advance_segment (set_colors st p)) h reg).reg = reg := by
  have e : advance_segment (set_colors st p) = set_colors st p := by
    unfold advance_segment
    rw [if_neg (show ¬ ((set_colors st p).line.segments (set_colors st p).segment_idx).width > 0
      from by rw [show ((set_colors st p).line.segments (set_colors st p).segment_idx).width =
        (st.line.segments st.segment_idx).width from rfl, hw]; exact Nat.lt_irrefl 0)]
  rw [e]
  exact ⟨rfl, rfl, rfl, rfl⟩

theorem open_segment_of_nonempty (st : ParseState) (p : List Nat) (h : Nat) (reg : Registry)
    (hw : (st.line.segments st.segment_idx).width > 0) :
    (open_segment (advance_segment (set_colors st p)) h reg).segment_idx =
      st.segment_idx + 1 ∧
    (open_segment (advance_segment (set_colors st p)) h reg).line.segments =
      set_segment st.line.segments (st.segment_idx + 1) ⟨[], 0, h⟩ ∧
    (open_segment (advance_segment (set_colors st p)) h reg).line.total_width =
      st.line.total_width ∧
    (open_segment (advance_segment (set_colors st p)) h reg).reg = reg := by
  have e : advance_segment (set_colors st p) =
      { set_colors st p with segment_idx := st.segment_idx + 1 } := by
    unfold advance_segment
    rw [if_pos (show ((set_colors st p).line.segments (set_colors st p).segment_idx).width > 0
      from hw)]
    rfl
  rw [e]
  exact ⟨rfl, rfl, rfl, rfl⟩

theorem put_byte_of_fits (st : ParseState) (c : Nat)
    (h : (st.line.segments st.segment_idx).width < MAX_TEXT_PER_SEGMENT - 1) :
    (put_byte st c).segment_idx = st.segment_idx ∧
    (put_byte st c).line.segments =
      set_segment st.line.segments st.segment_idx
        ⟨(st.line.segments st.segment_idx).text.take (st.line.segments st.segment_idx).width ++ [c],
          (st.line.segments st.segment_idx).width + 1,
          (st.line.segments st.segment_idx).ncurses_pair_id⟩ ∧
    (put_byte st c).line.total_width = st.line.total_width + 1 ∧
    (put_byte st c).reg = st.reg := by
  rw [put_byte_fits st c h]
  exact ⟨rfl, rfl, rfl, rfl⟩

theorem set_segment_self (segs : Nat → TextSegment) (i : Nat) :
    set_segment segs i (segs i) = segs := by
  funext j
  unfold set_segment
  split_ifs with h
  · rw [h]
  · rfl

theorem set_segment_set_segment (segs : Nat → TextSegment) (i : Nat) (s t : TextSegment) :
    set_segment (set_segment segs i s) i t = set_segment segs i t := by
  funext j
  unfold set_segment
  split_ifs <;> rfl

/-- A run of literal bytes that fits into the segment being filled is appended to
its text. -/
theorem foldl_put_byte_fits (q : List Nat) :
    ∀ st : ParseState, st.consistent →
      (st.line.segments st.segment_idx).width + q.length ≤ MAX_TEXT_PER_SEGMENT - 1 →
      (q.foldl put_byte st).segment_idx = st.segment_idx ∧
      (q.foldl put_byte st).line.segments =
        set_segment st.line.segments st.segment_idx
          ⟨(st.line.segments st.segment_idx).text ++ q,
            (st.line.segments st.segment_idx).width + q.length,
            (st.line.segments st.segment_idx).ncurses_pair_id⟩ ∧
      (q.foldl put_byte st).line.total_width = st.line.total_width + q.length ∧
      (q.foldl put_byte st).reg = st.reg ∧
      (q.foldl put_byte st).current_fg = st.current_fg ∧
      (q.foldl put_byte st).current_bg = st.current_bg := by
  induction q with
  | nil =>
    intro st _ _
    simp only [List.foldl_nil, List.append_nil, List.length_nil, Nat.add_zero, true_and]
    exact ⟨(set_segment_self _ _).symm, trivial⟩
  | cons c q ih =>
    intro st hcons hfit
    rw [List.length_cons] at hfit
    have hlt : (st.line.segments st.segment_idx).width < MAX_TEXT_PER_SEGMENT - 1 := by omega
    obtain ⟨b1, b2, b3, b4⟩ := put_byte_of_fits st c hlt
    obtain ⟨hc1, _, _⟩ := put_byte_spec st c hcons hlt
    have hfg : (put_byte st c).current_fg = st.current_fg := by
      rw [put_byte_fits st c hlt]
    have hbg : (put_byte st c).current_bg = st.current_bg := by
      rw [put_byte_fits st c hlt]
    have hseg : (put_byte st c).line.segments (put_byte st c).segment_idx =
        ⟨(st.line.segments st.segment_idx).text.take (st.line.segments st.segment_idx).width ++ [c],
          (st.line.segments st.segment_idx).width + 1,
          (st.line.segments st.segment_idx).ncurses_pair_id⟩ := by
      rw [b1, b2, set_segment_same]
    obtain ⟨i1, i2, i3, i4, i5, i6⟩ := ih (put_byte st c) hc1 (by rw [hseg]; simp only []; omega)
    rw [List.foldl_cons]
    refine ⟨by rw [i1, b1], ?_, by rw [i3, b3, List.length_cons]; omega, by rw [i4, b4],
      by rw [i5, hfg], by rw [i6, hbg]⟩
    rw [i2, hseg, b1, b2, set_segment_set_segment]
    unfold ParseState.consistent at hcons
    simp only [hcons, List.take_length, List.append_assoc, List.singleton_append,
      List.length_cons]
    rw [Nat.add_assoc, Nat.add_comm 1 q.length]

/-- A run of bytes that are neither NUL nor ESC is put byte by byte. -/
theorem parse_loop_bytes (C : Int) (q : List Nat) (hq : ∀ c ∈ q, c ≠ 0 ∧ c ≠ 27) :
    ∀ (fuel : Nat) (rest : List Nat) (st : ParseState),
      parse_loop C (fuel + q.length) (q ++ rest) st =
        parse_loop C fuel rest (q.foldl put_byte st) := by
  induction q with
  | nil => intro fuel rest st; rfl
  | cons c q ih =>
    intro fuel rest st
    have hc := hq c (List.mem_cons_self c q)
    rw [List.length_cons, ← Nat.add_assoc, List.cons_append,
      parse_loop_byte C _ _ _ (by rw [byte_at_cons]; exact hc.1)
        (by rw [byte_at_cons]; exact fun h => hc.2 h.1)]
    exact ih (fun x hx => hq x (List.mem_cons_of_mem c hx)) fuel rest _

/-! ## C2: the coloured word -/

set_option maxRecDepth 4000 in
/-- C2 (counterexample): from the fresh statics with `COLOR_PAIRS = 256`, the parse of
ESC `[31m` `RED` ESC `[0m` stores `segment_count = 2`, not 1. -/
theorem parse_line_red_counterexample :
    (parse_line 256 Registry.fresh blank_line red_line).map (fun r => r.1.segment_count) =
      some 2 ∧
    (parse_line 256 Registry.fresh blank_line red_line).map (fun r => r.1.segment_count) ≠
      some 1 := by
  decide

/-- C2 (amended): the parse of the 12-byte line ESC `[31m` `RED` ESC `[0m` yields two
segments and `total_width = 3`: the first has text `RED`, width 3 and the handle the
registry gives for `(fg = 1, bg = -1)`; the second, opened by the closing ESC `[0m`,
is empty (width 0) and has the handle of `(COLOR_WHITE, -1)`.  The parse returns
whenever `COLOR_PAIRS ≤ 256`. -/
theorem parse_line_red (C : Int) (reg : Registry) (line : MarqueeLine) (hwf : reg.wf) :
    (C ≤ 256 → ∃ r, parse_line C reg line red_line = some r) ∧
    ∀ r, parse_line C reg line red_line = some r →
      r.1.segment_count = 2 ∧ r.1.total_width = 3 ∧
      (r.1.segments 0).text = [82, 69, 68] ∧ (r.1.segments 0).width = 3 ∧
      get_or_create_color_pair C r.2 1 (-1) = some ((r.1.segments 0).ncurses_pair_id, r.2) ∧
      (r.1.segments 1).text = [] ∧ (r.1.segments 1).width = 0 ∧
      get_or_create_color_pair C r.2 COLOR_WHITE (-1) =
        some ((r.1.segments 1).ncurses_pair_id, r.2) := by
  constructor
  · intro hC
    obtain ⟨r, hr, _⟩ := parse_line_returns C reg line red_line hC hwf
    exact ⟨r, hr⟩
  · intro r hr
    obtain ⟨h7, reg1, st, hcall0, hloop, rfl⟩ := parse_line_eq C reg line red_line r hr
    have hwf1 := get_or_create_color_pair_wf C reg reg1 _ _ h7 hwf hcall0
    have hw0 : ((parse_start line h7 reg1).line.segments
        (parse_start line h7 reg1).segment_idx).width = 0 := by
      simp [parse_start, set_segment_same]
    rw [show red_line.length = 11 + 1 from rfl,
      parse_loop_style C 11 red_line _ (by decide) rfl rfl rfl (by rw [hw0]; simp)] at hloop
    rw [show (set_colors (parse_start line h7 reg1) red_line).current_fg = 1 from rfl,
      show (set_colors (parse_start line h7 reg1) red_line).current_bg = -1 from rfl,
      show (parse_start line h7 reg1).reg = reg1 from rfl] at hloop
    cases hcall1 : get_or_create_color_pair C reg1 1 (-1) with
    | none => rw [hcall1] at hloop; simp at hloop
    | some x =>
      obtain ⟨h1, reg2⟩ := x
      rw [hcall1] at hloop
      simp only [] at hloop
      obtain ⟨a1, a2, a3, a4⟩ := open_segment_of_empty (parse_start line h7 reg1) red_line
        h1 reg2 hw0
      generalize open_segment (advance_segment (set_colors (parse_start line h7 reg1) red_line))
        h1 reg2 = s1 at hloop a1 a2 a3 a4
      rw [show (parse_start line h7 reg1).segment_idx = 0 from rfl] at a1 a2
      rw [show (parse_start line h7 reg1).line.total_width = 0 from rfl] at a3
      have w1 : (s1.line.segments s1.segment_idx).width = 0 := by
        rw [a1, a2, set_segment_same]
      have hc1 : s1.consistent := by
        unfold ParseState.consistent
        rw [a1, a2, set_segment_same]
        rfl
      rw [show after_seq red_line = [82, 69, 68] ++ [27, 91, 48, 109] from rfl,
        show (11 : Nat) = 8 + [82, 69, 68].length from rfl,
        parse_loop_bytes C [82, 69, 68] (by decide) 8 [27, 91, 48, 109] s1] at hloop
      obtain ⟨b1, b2, b3, b4, _, _⟩ := foldl_put_byte_fits [82, 69, 68] s1 hc1
        (by rw [w1]; decide)
      rw [a1, a2, set_segment_same, set_segment_set_segment] at b2
      rw [a1] at b1
      rw [a3] at b3
      rw [a4] at b4
      simp only [List.nil_append, List.length_cons, List.length_nil, Nat.zero_add] at b2 b3
      generalize List.foldl put_byte s1 [82, 69, 68] = s3 at hloop b1 b2 b3 b4
      have w3 : (s3.line.segments s3.segment_idx).width > 0 := by
        rw [b1, b2, set_segment_same]
        show 1 + 1 + 1 > 0
        decide
      rw [show (8 : Nat) = 7 + 1 from rfl,
        parse_loop_style C 7 [27, 91, 48, 109] s3 (by decide) rfl rfl rfl
          (by rw [b1]; simp [MAX_SEGMENTS_PER_LINE])] at hloop
      rw [show (set_colors s3 [27, 91, 48, 109]).current_fg = COLOR_WHITE from rfl,
        show (set_colors s3 [27, 91, 48, 109]).current_bg = -1 from rfl, b4] at hloop
      cases hcall2 : get_or_create_color_pair C reg2 COLOR_WHITE (-1) with
      | none => rw [hcall2] at hloop; simp at hloop
      | some y =>
        obtain ⟨h2, reg3⟩ := y
        rw [hcall2] at hloop
        simp only [] at hloop
        rw [parse_loop_end C 7 (after_seq [27, 91, 48, 109]) _ rfl] at hloop
        simp only [Option.some.injEq] at hloop
        obtain ⟨d1, d2, d3, d4⟩ := open_segment_of_nonempty s3 [27, 91, 48, 109] h2 reg3 w3
        rw [hloop] at d1 d2 d3 d4
        rw [b1] at d1 d2
        rw [b2] at d2
        rw [b3] at d3
        obtain ⟨hs1, hs2⟩ := get_or_create_color_pair_stable C reg1 reg2 reg3 1 (-1)
          COLOR_WHITE (-1) h1 h2 hwf1 hcall1 hcall2
        have g0 : st.line.segments 0 = ⟨[82, 69, 68], 3, h1⟩ := by
          rw [d2]; simp [set_segment]
        have g1 : st.line.segments 1 = ⟨[], 0, h2⟩ := by
          rw [d2]; simp [set_segment]
        simp only [parse_finish, d1, d3, d4, g0, g1]
        exact ⟨by decide, trivial, trivial, trivial, hs1, trivial, trivial, hs2⟩

theorem parse_line_red_witness :
    ∃ r, parse_line 256 Registry.fresh blank_line red_line = some r ∧
      r.1.segment_count = 2 ∧ r.1.total_width = 3 ∧
      (r.1.segments 0).text = [82, 69, 68] ∧ (r.1.segments 0).width = 3 ∧
      (r.1.segments 1).text = [] ∧ (r.1.segments 1).width = 0 := by
  obtain ⟨hret, hall⟩ := parse_line_red 256 Registry.fresh blank_line Registry.fresh_wf
  obtain ⟨r, hr⟩ := hret (by decide)
  obtain ⟨a1, a2, a3, a4, _, a6, a7, _⟩ := hall r hr
  exact ⟨r, hr, a1, a2, a3, a4, a6, a7⟩

/-! ## C3: the segment count at the capacity -/

theorem styled_runs_succ (n : Nat) :
    styled_runs (n + 1) = [120] ++ (27 :: 91 :: 109 :: styled_runs n) := by
  simp [styled_runs, List.replicate_succ]

theorem styled_runs_length (n : Nat) : (styled_runs n).length = 4 * n := by
  induction n with
  | zero => rfl
  | succ n ih => rw [styled_runs_succ]; simp [ih]; omega

theorem put_byte_width_pos (st : ParseState) (c : Nat) :
    ((put_byte st c).line.segments (put_byte st c).segment_idx).width > 0 := by
  by_cases h : (st.line.segments st.segment_idx).width < MAX_TEXT_PER_SEGMENT - 1
  · obtain ⟨b1, b2, _, _⟩ := put_byte_of_fits st c h
    rw [b1, b2, set_segment_same]
    exact Nat.succ_pos _
  · rw [put_byte_full st c h]
    simp only [MAX_TEXT_PER_SEGMENT] at h
    omega

/-- Every piece `x` ESC `[m` closes one segment; the piece that closes the 128th
leaves the loop by `break` with `segment_idx = 128`. -/
theorem parse_loop_styled_runs (C : Int) (hC : C ≤ 256) (n : Nat) :
    ∀ (fuel : Nat) (st : ParseState), 1 ≤ n →
      st.segment_idx + n = MAX_SEGMENTS_PER_LINE → 4 * n ≤ fuel → st.reg.wf →
      ∃ r, parse_loop C fuel (styled_runs n) st = some r ∧
        r.segment_idx = MAX_SEGMENTS_PER_LINE := by
  induction n with
  | zero => intro fuel st h1; omega
  | succ n ih =>
    intro fuel st _ hidx hfuel hwf
    obtain ⟨f, rfl⟩ : ∃ f, fuel = (f + 1) + [120].length := ⟨fuel - 2, by simp; omega⟩
    rw [styled_runs_succ, parse_loop_bytes C [120] (by decide)]
    have hw := put_byte_width_pos st 120
    have hi : (put_byte st 120).segment_idx = st.segment_idx := put_byte_segment_idx st 120
    have hreg : (put_byte st 120).reg = st.reg := put_byte_reg st 120
    simp only [List.foldl_cons, List.foldl_nil]
    generalize put_byte st 120 = s1 at hw hi hreg
    by_cases hlast : n = 0
    · subst hlast
      rw [parse_loop_break C f (27 :: 91 :: 109 :: styled_runs 0) s1
        (by rw [byte_at_cons]; decide) rfl rfl rfl hw (by rw [hi]; omega)]
      exact ⟨_, rfl, by simp only []; rw [hi]; omega⟩
    · rw [parse_loop_style C f (27 :: 91 :: 109 :: styled_runs n) s1
        (by rw [byte_at_cons]; decide) rfl rfl rfl
        (by rw [hi]; simp only [MAX_SEGMENTS_PER_LINE] at hidx ⊢; omega)]
      obtain ⟨h, reg1, hcall, hwf1⟩ := get_or_create_color_pair_returns C s1.reg
        (set_colors s1 (27 :: 91 :: 109 :: styled_runs n)).current_fg
        (set_colors s1 (27 :: 91 :: 109 :: styled_runs n)).current_bg hC (by rw [hreg]; exact hwf)
      rw [hcall]
      simp only []
      obtain ⟨d1, _, _, d4⟩ := open_segment_of_nonempty s1
        (27 :: 91 :: 109 :: styled_runs n) h reg1 hw
      rw [show after_seq (27 :: 91 :: 109 :: styled_runs n) = styled_runs n from rfl]
      exact ih f _ (by omega) (by rw [d1, hi]; omega) (by simp at hfuel; omega)
        (by rw [d4]; exact hwf1)

/-- C3: the line made of 128 pieces `x` ESC `[m` (512 bytes) makes parse_line store
`segment_count = 129`, one more than the 128 entries of `segments`. -/
theorem parse_line_segment_count_overflow :
    ∃ r, parse_line 256 Registry.fresh blank_line (styled_runs 128) = some r ∧
      r.1.segment_count = 129 ∧ ¬ (r.1.segment_count ≤ MAX_SEGMENTS_PER_LINE) := by
  obtain ⟨h0, reg1, hcall, hwf1⟩ :=
    get_or_create_color_pair_returns 256 Registry.fresh COLOR_WHITE (-1) (by decide)
      Registry.fresh_wf
  obtain ⟨st, hloop, hidx⟩ := parse_loop_styled_runs 256 (by decide) 128
    (styled_runs 128).length (parse_start blank_line h0 reg1) (by decide) rfl
    (by rw [styled_runs_length]) hwf1
  refine ⟨(parse_finish st, st.reg), by simp only [parse_line, hcall, hloop], ?_⟩
  simp only [parse_finish, hidx, MAX_SEGMENTS_PER_LINE]
  rw [if_pos (Or.inr (by decide))]
  exact ⟨rfl, by decide⟩

/-! ## C4: lines without escape sequences -/

theorem has_escape_of_esc (p : List Nat) (h1 : byte_at p = 27) (h2 : byte_at p.tail = 91) :
    has_escape p = true := by
  have e1 : p = 27 :: p.tail := by
    have := eq_cons_of_byte_at_ne_zero p (by omega); rwa [h1] at this
  rw [e1, has_escape]
  simp [h2]

theorem has_escape_tail (p : List Nat) (h0 : byte_at p ≠ 0) (h : has_escape p = false) :
    has_escape p.tail = false := by
  have e1 : p = byte_at p :: p.tail := eq_cons_of_byte_at_ne_zero p h0
  rw [e1, has_escape] at h
  simp only [Bool.or_eq_false_iff] at h
  exact h.2

/-- On a NUL-free text without escape introducer the loop only puts bytes. -/
theorem parse_loop_plain (C : Int) :
    ∀ fuel p st r, parse_loop C fuel p st = some r → (∀ c ∈ p, c ≠ 0) →
      has_escape p = false → r = p.foldl put_byte st := by
  apply parse_loop_cases C (fun p st r => (∀ c ∈ p, c ≠ 0) →
      has_escape p = false → r = p.foldl put_byte st)
  · intro p st h0 hnul _
    have hp := eq_nil_of_byte_at_eq_zero p hnul h0
    subst hp
    rfl
  · intro p st _ h1 h2 _ _ _ _ hesc
    rw [has_escape_of_esc p h1 h2] at hesc
    exact absurd hesc (by decide)
  · intro p st h reg r _ h1 h2 _ _ _ _ _ hesc
    rw [has_escape_of_esc p h1 h2] at hesc
    exact absurd hesc (by decide)
  · intro p st r _ h1 h2 _ _ _ hesc
    rw [has_escape_of_esc p h1 h2] at hesc
    exact absurd hesc (by decide)
  · intro p st r h0 _ ih hnul hesc
    have := ih (fun c hc => hnul c (List.mem_of_mem_tail hc)) (has_escape_tail p h0 hesc)
    rw [this]
    conv_rhs => rw [eq_cons_of_byte_at_ne_zero p h0]
    rfl

theorem foldl_put_byte_spec (p : List Nat) :
    ∀ st : ParseState, (st.line.segments st.segment_idx).width ≤ MAX_TEXT_PER_SEGMENT - 1 →
      (p.foldl put_byte st).segment_idx = st.segment_idx ∧
      ((p.foldl put_byte st).line.segments st.segment_idx).width =
        min ((st.line.segments st.segment_idx).width + p.length) (MAX_TEXT_PER_SEGMENT - 1) ∧
      (p.foldl put_byte st).line.total_width + (st.line.segments st.segment_idx).width =
        st.line.total_width +
          min ((st.line.segments st.segment_idx).width + p.length) (MAX_TEXT_PER_SEGMENT - 1) ∧
      (p.foldl put_byte st).reg = st.reg := by
  induction p with
  | nil =>
    intro st hw
    simp only [List.foldl_nil, List.length_nil, Nat.add_zero, true_and]
    exact ⟨by omega, by omega, trivial⟩
  | cons c p ih =>
    intro st hw
    rw [List.foldl_cons]
    by_cases hfit : (st.line.segments st.segment_idx).width < MAX_TEXT_PER_SEGMENT - 1
    · have hidx : (put_byte st c).segment_idx = st.segment_idx := put_byte_segment_idx st c
      have hwid : ((put_byte st c).line.segments st.segment_idx).width =
          (st.line.segments st.segment_idx).width + 1 := by
        rw [put_byte_fits st c hfit]
        simp [set_segment_same]
      have htot : (put_byte st c).line.total_width = st.line.total_width + 1 := by
        rw [put_byte_fits st c hfit]
      obtain ⟨i1, i2, i3, i4⟩ := ih (put_byte st c) (by rw [hidx, hwid]; omega)
      rw [hidx] at i1 i2 i3
      rw [hwid] at i2 i3
      rw [htot] at i3
      rw [put_byte_reg] at i4
      refine ⟨i1, ?_, ?_, i4⟩
      · rw [i2, List.length_cons]; congr 1; omega
      · rw [List.length_cons,
          show (st.line.segments st.segment_idx).width + (p.length + 1) =
            (st.line.segments st.segment_idx).width + 1 + p.length by omega]
        omega
    · rw [put_byte_full st c hfit]
      obtain ⟨i1, i2, i3, i4⟩ := ih st hw
      refine ⟨i1, ?_, ?_, i4⟩
      · rw [i2, List.length_cons]; omega
      · rw [i3, List.length_cons]; omega

/-- A NUL-free line of length `L` without escape introducer: the parse yields one
segment if `L > 0` and none if `L = 0`, of width `min L 511`, which is also
`total_width`. -/
theorem parse_line_plain_general (C : Int) (reg : Registry) (line : MarqueeLine)
    (line_text : List Nat) (hnul : ∀ c ∈ line_text, c ≠ 0)
    (hesc : has_escape line_text = false) (r : MarqueeLine × Registry)
    (hr : parse_line C reg line line_text = some r) :
    r.1.segment_count = (if line_text.length > 0 then 1 else 0) ∧
    (r.1.segments 0).width = min line_text.length (MAX_TEXT_PER_SEGMENT - 1) ∧
    r.1.total_width = min line_text.length (MAX_TEXT_PER_SEGMENT - 1) := by
  obtain ⟨h0, reg1, st, _, hloop, rfl⟩ := parse_line_eq C reg line line_text r hr
  have hst := parse_loop_plain C _ _ _ _ hloop hnul hesc
  obtain ⟨hc0, he0, ht0, hi0⟩ := parse_start_spec line h0 reg1
  have hw0 : ((parse_start line h0 reg1).line.segments
      (parse_start line h0 reg1).segment_idx).width = 0 := by
    simp [parse_start, set_segment_same]
  obtain ⟨i1, i2, i3, _⟩ := foldl_put_byte_spec line_text (parse_start line h0 reg1)
    (by rw [hw0]; exact Nat.zero_le _)
  rw [← hst, hw0] at i2 i3
  rw [← hst, hi0] at i1
  rw [hi0] at i2
  rw [ht0] at i3
  simp only [Nat.zero_add, Nat.add_zero] at i2 i3
  refine ⟨?_, i2, i3⟩
  simp only [parse_finish, i1, i2]
  simp only [MAX_TEXT_PER_SEGMENT]
  by_cases hl : line_text.length > 0
  · rw [if_pos hl, if_pos (Or.inl (by omega))]
  · rw [if_neg hl, if_neg (by omega)]

theorem has_escape_replicate (n : Nat) : has_escape (List.replicate n 120) = false := by
  induction n with
  | zero => rfl
  | succ n ih => simp [List.replicate_succ, has_escape, ih]

/-- C4 (counterexample): the empty line (length 0, no escape sequence) yields no
segment at all, and a line of 512 bytes `x` (length equal to MAX_TEXT_PER_SEGMENT, no
escape sequence) yields a segment of width 511 and `total_width` 511, not 512. -/
theorem parse_line_plain_counterexample :
    (∃ r, parse_line 256 Registry.fresh blank_line [] = some r ∧ r.1.segment_count = 0) ∧
    (∃ r, parse_line 256 Registry.fresh blank_line (List.replicate MAX_TEXT_PER_SEGMENT 120) =
        some r ∧ (r.1.segments 0).width = 511 ∧ r.1.total_width = 511) := by
  constructor
  · obtain ⟨r, hr, _⟩ := parse_line_returns 256 Registry.fresh blank_line [] (by decide)
      Registry.fresh_wf
    obtain ⟨h1, _, _⟩ := parse_line_plain_general 256 Registry.fresh blank_line []
      (by simp) rfl r hr
    exact ⟨r, hr, h1⟩
  · obtain ⟨r, hr, _⟩ := parse_line_returns 256 Registry.fresh blank_line
      (List.replicate MAX_TEXT_PER_SEGMENT 120) (by decide) Registry.fresh_wf
    obtain ⟨_, h2, h3⟩ := parse_line_plain_general 256 Registry.fresh blank_line
      (List.replicate MAX_TEXT_PER_SEGMENT 120)
      (fun c hc => by rw [List.eq_of_mem_replicate hc]; decide)
      (has_escape_replicate _) r hr
    rw [List.length_replicate] at h2 h3
    exact ⟨r, hr, h2, h3⟩

/-- C4 (amended): for every NUL-free line of length `L` with `1 ≤ L ≤ 511`
(MAX_TEXT_PER_SEGMENT - 1) that contains no escape introducer, parse_line yields
exactly one segment, of width `L`, and `total_width = L`.  The parse returns whenever
the registry stays inside its table. -/
theorem parse_line_plain (C : Int) (reg : Registry) (line : MarqueeLine)
    (line_text : List Nat) (hnul : ∀ c ∈ line_text, c ≠ 0)
    (hesc : has_escape line_text = false) (h1 : 1 ≤ line_text.length)
    (h2 : line_text.length ≤ MAX_TEXT_PER_SEGMENT - 1) :
    (C ≤ 256 → reg.wf → ∃ r, parse_line C reg line line_text = some r) ∧
    ∀ r, parse_line C reg line line_text = some r →
      r.1.segment_count = 1 ∧ (r.1.segments 0).width = line_text.length ∧
      r.1.total_width = line_text.length := by
  constructor
  · intro hC hwf
    obtain ⟨r, hr, _⟩ := parse_line_returns C reg line line_text hC hwf
    exact ⟨r, hr⟩
  · intro r hr
    obtain ⟨e1, e2, e3⟩ := parse_line_plain_general C reg line line_text hnul hesc r hr
    rw [if_pos (by omega)] at e1
    rw [Nat.min_eq_left h2] at e2 e3
    exact ⟨e1, e2, e3⟩

theorem parse_line_plain_witness :
    ∃ r, parse_line 256 Registry.fresh blank_line [72, 105] = some r ∧
      r.1.segment_count = 1 ∧ (r.1.segments 0).width = 2 ∧ r.1.total_width = 2 := by
  obtain ⟨hret, hall⟩ := parse_line_plain 256 Registry.fresh blank_line [72, 105]
    (by decide) (by decide) (by decide) (by decide)
  obtain ⟨r, hr⟩ := hret (by decide) Registry.fresh_wf
  exact ⟨r, hr, hall r hr⟩

/-! ## Parsing: the concatenation law for lines of at most 511 visible bytes -/

/-- No byte is dropped when the whole line has at most 511 visible bytes: the width of
the segment being filled never exceeds `total_width`, which stays below the limit. -/
theorem parse_loop_total_width_short (C : Int) :
    ∀ fuel p st r, parse_loop C fuel p st = some r → (∀ c ∈ p, c ≠ 0) →
      (st.line.segments st.segment_idx).width ≤ st.line.total_width →
      st.line.total_width + (strip_escapes p).length ≤ MAX_TEXT_PER_SEGMENT - 1 →
      r.segment_idx < MAX_SEGMENTS_PER_LINE →
      r.line.total_width = st.line.total_width + (strip_escapes p).length := by
  apply parse_loop_cases C (fun p st r => (∀ c ∈ p, c ≠ 0) →
      (st.line.segments st.segment_idx).width ≤ st.line.total_width →
      st.line.total_width + (strip_escapes p).length ≤ MAX_TEXT_PER_SEGMENT - 1 →
      r.segment_idx < MAX_SEGMENTS_PER_LINE →
      r.line.total_width = st.line.total_width + (strip_escapes p).length)
  · intro p st h0 hnul _ _ _
    have hp := eq_nil_of_byte_at_eq_zero p hnul h0
    subst hp
    rfl
  · intro p st _ _ _ _ _ hfull _ _ _ hidx
    simp only [MAX_SEGMENTS_PER_LINE] at hidx hfull
    omega
  · intro p st h reg r _ h1 h2 _ _ _ ih hnul hw hfit hidx
    rw [strip_escapes_seq p hnul h1 h2] at hfit ⊢
    obtain ⟨_, ht, _⟩ := open_segment_spec st p h reg
    have hw1 : ((open_segment (advance_segment (set_colors st p)) h reg).line.segments
        (open_segment (advance_segment (set_colors st p)) h reg).segment_idx).width = 0 := by
      simp [open_segment, set_segment_same]
    have := ih (fun c hc => hnul c (mem_of_mem_suffix (after_seq_suffix p) hc))
      (by rw [hw1]; exact Nat.zero_le _) (by rw [ht]; exact hfit) hidx
    rw [ht] at this
    exact this
  · intro p st r _ h1 h2 _ ih hnul hw hfit hidx
    rw [strip_escapes_seq p hnul h1 h2] at hfit ⊢
    exact ih (fun c hc => hnul c (mem_of_mem_suffix (after_seq_suffix p) hc)) hw hfit hidx
  · intro p st r h0 h1 ih hnul hw hfit hidx
    rw [strip_escapes_byte p h0 h1, List.length_cons] at hfit ⊢
    have hlt : (st.line.segments st.segment_idx).width < MAX_TEXT_PER_SEGMENT - 1 := by omega
    obtain ⟨b1, b2, b3, _⟩ := put_byte_of_fits st (byte_at p) hlt
    have hw1 : ((put_byte st (byte_at p)).line.segments
        (put_byte st (byte_at p)).segment_idx).width =
        (st.line.segments st.segment_idx).width + 1 := by
      rw [b1, b2, set_segment_same]
    have := ih (fun c hc => hnul c (List.mem_of_mem_tail hc)) (by rw [hw1, b3]; omega)
      (by rw [b3]; omega) hidx
    rw [this, b3]
    omega

/-- The concatenation law with the capacities read off the line itself: a NUL-free
line with at most 511 visible bytes, parsed without leaving the loop by `break`
(at most 128 segments counted), is the join of its segment texts once its escape
sequences are removed. -/
theorem parse_line_concatenation_short (C : Int) (reg : Registry) (line : MarqueeLine)
    (line_text : List Nat) (hnul : ∀ c ∈ line_text, c ≠ 0)
    (hshort : (strip_escapes line_text).length ≤ MAX_TEXT_PER_SEGMENT - 1)
    (r : MarqueeLine × Registry) (hr : parse_line C reg line line_text = some r)
    (hcount : r.1.segment_count ≤ MAX_SEGMENTS_PER_LINE) :
    r.1.joined_text = strip_escapes line_text ∧
    r.1.total_width = (strip_escapes line_text).length := by
  obtain ⟨h0, reg1, st, _, hloop, rfl⟩ := parse_line_eq C reg line line_text r hr
  obtain ⟨hc0, he0, ht0, hi0⟩ := parse_start_spec line h0 reg1
  have hidx : st.segment_idx < MAX_SEGMENTS_PER_LINE := by
    simp only [parse_finish] at hcount
    split_ifs at hcount with hc
    · omega
    · simp only [MAX_SEGMENTS_PER_LINE]; omega
  have hw0 : ((parse_start line h0 reg1).line.segments
      (parse_start line h0 reg1).segment_idx).width = 0 := by
    simp [parse_start, set_segment_same]
  have htot := parse_loop_total_width_short C _ _ _ _ hloop hnul
    (by rw [hw0]; exact Nat.zero_le _) (by rw [ht0, Nat.zero_add]; exact hshort) hidx
  obtain ⟨he, hc⟩ := (parse_loop_concat C _ _ _ _ hloop hnul).2 hc0 hidx htot
  rw [he0, List.nil_append] at he
  rw [ht0, Nat.zero_add] at htot
  exact ⟨by show (parse_finish st).joined_text = _; rw [joined_text_parse_finish st hc, he],
    htot⟩

/-! ## C19: the position stays in range -/

theorem update_position_step (s : AnimationState) (M dir rc : Int)
    (hlo : -M ≤ s.position) (hhi : s.position ≤ s.screen_width) (hM : -M ≤ s.screen_width) :
    -M ≤ (update_position s M dir rc).1.position ∧
    (update_position s M dir rc).1.position ≤ s.screen_width ∧
    (update_position s M dir rc).1.screen_width = s.screen_width ∧
    (update_position s M dir rc).1.screen_height = s.screen_height ∧
    (update_position s M dir rc).2 ≤ rc ∧ rc - 1 ≤ (update_position s M dir rc).2 ∧
    (0 < rc → 0 ≤ (update_position s M dir rc).2) ∧
    (rc ≤ 0 → (update_position s M dir rc).2 = rc) := by
  unfold update_position
  by_cases hdir : dir = 0
  · simp only [hdir, if_true]
    by_cases hwrap : s.position - 1 < -M
    · simp only [hwrap, if_true]
      by_cases hrc : rc > 0
      · simp only [hrc, if_true]
        refine ⟨hM, le_refl _, trivial, trivial, ?_, ?_, ?_, ?_⟩ <;> omega
      · simp only [hrc, if_false]
        refine ⟨hM, le_refl _, trivial, trivial, ?_, ?_, ?_, ?_⟩ <;> first | omega | (intro h; omega) | simp
    · simp only [hwrap, if_false]
      refine ⟨?_, ?_, trivial, trivial, ?_, ?_, ?_, ?_⟩ <;> first | omega | (intro h; omega) | simp
  · simp only [hdir, if_false]
    by_cases hwrap : s.position + 1 > s.screen_width
    · simp only [hwrap, if_true]
      by_cases hrc : rc > 0
      · simp only [hrc, if_true]
        refine ⟨le_refl _, hM, trivial, trivial, ?_, ?_, ?_, ?_⟩ <;> omega
      · simp only [hrc, if_false]
        refine ⟨le_refl _, hM, trivial, trivial, ?_, ?_, ?_, ?_⟩ <;> first | omega | (intro h; omega) | simp
    · simp only [hwrap, if_false]
      refine ⟨?_, ?_, trivial, trivial, ?_, ?_, ?_, ?_⟩ <;> first | omega | (intro h; omega) | simp

theorem update_position_iter_range (W M H n dir : Int) (hW : 0 ≤ W) (hM : 0 ≤ M) (k : Nat) :
    -M ≤ (update_position_iter M dir k (⟨if dir = 0 then W else -M, W, H⟩, n)).1.position ∧
    (update_position_iter M dir k (⟨if dir = 0 then W else -M, W, H⟩, n)).1.position ≤ W ∧
    (update_position_iter M dir k (⟨if dir = 0 then W else -M, W, H⟩, n)).1.screen_width = W ∧
    (update_position_iter M dir k (⟨if dir = 0 then W else -M, W, H⟩, n)).2 ≤ n ∧
    (0 ≤ n → 0 ≤ (update_position_iter M dir k (⟨if dir = 0 then W else -M, W, H⟩, n)).2) := by
  induction k with
  | zero =>
    simp only [update_position_iter]
    refine ⟨?_, ?_, trivial, le_refl _, fun h => h⟩ <;> split_ifs <;> omega
  | succ k ih =>
    obtain ⟨h1, h2, h3, h4, h5⟩ := ih
    rw [update_position_iter_succ]
    generalize update_position_iter M dir k (⟨if dir = 0 then W else -M, W, H⟩, n) = s
      at h1 h2 h3 h4 h5
    obtain ⟨a1, a2, a3, _, a5, _, a7, a8⟩ := update_position_step s.1 M dir s.2 h1
      (by rw [h3]; exact h2) (by rw [h3]; omega)
    rw [h3] at a2 a3
    refine ⟨a1, a2, a3, by omega, ?_⟩
    intro hn
    have := h5 hn
    by_cases hz : 0 < s.2
    · exact a7 hz
    · have hs : s.2 = 0 := by omega
      rw [a8 (by omega), hs]

/-- C19: with fixed screen bounds `W ≥ 0`, a block width `M ≥ 0`, either direction and
the start position of `run_animation` (`W` for direction 0, `-M` otherwise), after any
number `k` of `update_position` steps the position lies in `-M .. W`; the next step
never increases the repeat count and never takes it from a positive value to a
negative one (a count that starts non-negative stays so). -/
theorem update_position_stays_in_range (W M H n dir : Int) (hW : 0 ≤ W) (hM : 0 ≤ M)
    (k : Nat) :
    -M ≤ (update_position_iter M dir k (⟨if dir = 0 then W else -M, W, H⟩, n)).1.position ∧
    (update_position_iter M dir k (⟨if dir = 0 then W else -M, W, H⟩, n)).1.position ≤ W ∧
    (update_position_iter M dir (k + 1) (⟨if dir = 0 then W else -M, W, H⟩, n)).2 ≤
      (update_position_iter M dir k (⟨if dir = 0 then W else -M, W, H⟩, n)).2 ∧
    (0 < (update_position_iter M dir k (⟨if dir = 0 then W else -M, W, H⟩, n)).2 →
      0 ≤ (update_position_iter M dir (k + 1) (⟨if dir = 0 then W else -M, W, H⟩, n)).2) ∧
    (0 ≤ n → 0 ≤ (update_position_iter M dir k (⟨if dir = 0 then W else -M, W, H⟩, n)).2) := by
  obtain ⟨h1, h2, h3, _, h5⟩ := update_position_iter_range W M H n dir hW hM k
  refine ⟨h1, h2, ?_, ?_, h5⟩
  · rw [update_position_iter_succ]
    generalize update_position_iter M dir k (⟨if dir = 0 then W else -M, W, H⟩, n) = s
      at h1 h2 h3
    exact (update_position_step s.1 M dir s.2 h1 (by rw [h3]; exact h2)
      (by rw [h3]; omega)).2.2.2.2.1
  · rw [update_position_iter_succ]
    generalize update_position_iter M dir k (⟨if dir = 0 then W else -M, W, H⟩, n) = s
      at h1 h2 h3
    exact (update_position_step s.1 M dir s.2 h1 (by rw [h3]; exact h2)
      (by rw [h3]; omega)).2.2.2.2.2.2.1

theorem update_position_stays_in_range_witness :
    -2 ≤ (update_position_iter 2 1 7 (⟨if (1 : Int) = 0 then 3 else -2, 3, 24⟩, 2)).1.position ∧
    (update_position_iter 2 1 7 (⟨if (1 : Int) = 0 then 3 else -2, 3, 24⟩, 2)).1.position ≤ 3 ∧
    (update_position_iter 2 1 (7 + 1) (⟨if (1 : Int) = 0 then 3 else -2, 3, 24⟩, 2)).2 ≤
      (update_position_iter 2 1 7 (⟨if (1 : Int) = 0 then 3 else -2, 3, 24⟩, 2)).2 ∧
    (0 < (update_position_iter 2 1 7 (⟨if (1 : Int) = 0 then 3 else -2, 3, 24⟩, 2)).2 →
      0 ≤ (update_position_iter 2 1 (7 + 1) (⟨if (1 : Int) = 0 then 3 else -2, 3, 24⟩, 2)).2) ∧
    ((0 : Int) ≤ 2 →
      0 ≤ (update_position_iter 2 1 7 (⟨if (1 : Int) = 0 then 3 else -2, 3, 24⟩, 2)).2) :=
  update_position_stays_in_range 3 2 24 2 1 (by decide) (by decide) 7

/-! ## C20: indexing of the table -/

theorem run_calls_returns (C : Int) (hC : C ≤ 256) (ks : List (Int × Int)) :
    ∀ reg : Registry, reg.wf →
      ∃ hs reg1, run_calls C reg ks = some (hs, reg1) ∧ reg1.wf := by
  induction ks with
  | nil => intro reg hwf; exact ⟨[], reg, rfl, hwf⟩
  | cons k ks ih =>
    intro reg hwf
    obtain ⟨h, reg1, hcall, hwf1⟩ := get_or_create_color_pair_returns C reg k.1 k.2 hC hwf
    obtain ⟨hs, reg2, hrun, hwf2⟩ := ih reg1 hwf1
    exact ⟨h :: hs, reg2, by simp only [run_calls, hcall, hrun], hwf2⟩

/-- C20: the table is indexed inside `0..255` exactly when `COLOR_PAIRS ≤ 256`.  For
such a capacity every sequence of calls returns and leaves `next_pair_id ≤ 256`; for
every larger capacity the 256 distinct valid keys `(0, -1), ..., (255, -1)` bring
`next_pair_id` to 256 and the call for the last of them writes `defined_pairs[256]`. -/
theorem defined_pairs_index_bounds :
    (∀ (C : Int) (ks : List (Int × Int)), C ≤ 256 →
      ∃ hs reg, run_calls C Registry.fresh ks = some (hs, reg) ∧
        reg.next_pair_id ≤ PAIR_TABLE_SIZE) ∧
    (∀ C : Int, 256 < C →
      (∃ hs reg, run_calls C Registry.fresh (distinct_pairs 255) = some (hs, reg) ∧
        reg.next_pair_id = PAIR_TABLE_SIZE ∧
        get_or_create_color_pair C reg 255 (-1) = none) ∧
      run_calls C Registry.fresh (distinct_pairs 256) = none) := by
  constructor
  · intro C ks hC
    obtain ⟨hs, reg, hrun, hwf⟩ := run_calls_returns C hC ks Registry.fresh Registry.fresh_wf
    exact ⟨hs, reg, hrun, hwf.2.2.1⟩
  · intro C hC
    obtain ⟨reg, hrun, hwf, hnext, hkeys⟩ :=
      run_calls_distinct_pairs C (by omega) 255 (le_refl 255)
    have hvalid : ¬ invalid_color 255 (-1) := by decide
    have hnew : (⟨255, -1⟩ : PairDef) ∉ reg.keys := by
      rw [hkeys]
      simp only [List.mem_map, List.mem_range, PairDef.mk.injEq, and_true, not_exists, not_and]
      intro i hi h
      omega
    have hcall : get_or_create_color_pair C reg 255 (-1) = none := by
      rw [get_or_create_color_pair_eq _ reg _ _ hwf, if_neg hvalid, if_neg hnew, hnext,
        if_pos (by push_cast; omega), if_neg (by decide)]
    refine ⟨⟨_, reg, hrun, hnext, hcall⟩, ?_⟩
    have : distinct_pairs 256 = distinct_pairs 255 ++ [(255, -1)] := by
      unfold distinct_pairs
      rw [show List.range 256 = List.range 255 ++ [255] from List.range_succ 255,
        List.map_append]
      rfl
    rw [this, run_calls_append, hrun]
    simp only [run_calls, hcall]

/-! ## C11: interrupt suppression -/

theorem update_position_keeps_count (s : AnimationState) (bw dir rc : Int) (hrc : rc ≤ 0) :
    (update_position s bw dir rc).2 = rc := by
  have hn : ¬ rc > 0 := by omega
  unfold update_position
  simp only [hn, if_false]
  by_cases hdir : dir = 0
  · simp only [hdir, if_true]
    split_ifs <;> rfl
  · simp only [hdir, if_false]
    split_ifs <;> rfl

theorem animation_loop_negative (term : Terminal) (bw dir rc : Int) (hrc : rc < 0)
    (hkeys : ∀ t, term.getch t ≠ 113 ∧ term.getch t ≠ 81) :
    ∀ (fuel t : Nat) (state : AnimationState) (frames : List AnimationState),
      animation_loop term bw dir fuel t state rc frames = none := by
  intro fuel
  induction fuel with
  | zero =>
    intro t state frames
    simp only [animation_loop]
    rw [if_pos (by omega)]
  | succ fuel ih =>
    intro t state frames
    have h1 := (hkeys t).1
    have h2 := (hkeys t).2
    have hne : rc ≠ 0 := by omega
    have hkeep : ∀ s : AnimationState, (update_position s bw dir rc).2 = rc :=
      fun s => update_position_keeps_count s bw dir rc (by omega)
    simp only [animation_loop, hne, ne_eq, not_false_eq_true, if_true, h1, h2, or_self,
      if_false, hkeep]
    exact ih _ _ _

/-- C11: the options `-a -c -2` give a configuration with `repeat_count = -2` whose
`ignore_interrupts` is still true after the safety check of `main` (it is neither
`-1` nor above 10), and the loop of `run_animation` started with it never ends on
its own: without a quit key no amount of fuel lets it return. -/
theorem safety_check_misses_negative_counts :
    parse_options default_config [(97, []), (99, [45, 50])] =
      some ⟨0, 100000, -2, true⟩ ∧
    (safety_check ⟨0, 100000, -2, true⟩).ignore_interrupts = true ∧
    (safety_check ⟨0, 100000, -2, true⟩).repeat_count = -2 ∧
    ∀ (term : Terminal) (line_count : Nat) (M : Int) (fuel : Nat), 0 < line_count →
      (∀ t, term.getch t ≠ 113 ∧ term.getch t ≠ 81) →
      run_animation_loop term (safety_check ⟨0, 100000, -2, true⟩) line_count M fuel = none := by
  refine ⟨by decide, by decide, by decide, ?_⟩
  intro term line_count M fuel hl hkeys
  have e : safety_check ⟨0, 100000, -2, true⟩ = ⟨0, 100000, -2, true⟩ := by decide
  rw [e]
  simp only [run_animation_loop, hl, if_true]
  exact animation_loop_negative term M 0 (-2) (by decide) hkeys fuel 0 _ _

/-- What the safety check does guarantee: when `ignore_interrupts` is still true
after it, the repeat count is at most 10 and is not `-1`. -/
theorem safety_check_spec (config : AppConfig)
    (h : (safety_check config).ignore_interrupts = true) :
    (safety_check config).repeat_count ≤ SAFE_LOOP_LIMIT ∧
    (safety_check config).repeat_count ≠ -1 ∧
    (safety_check config).repeat_count = config.repeat_count := by
  by_cases hc : config.ignore_interrupts = true ∧
      (config.repeat_count = -1 ∨ config.repeat_count > SAFE_LOOP_LIMIT)
  · have e : safety_check config = { config with ignore_interrupts := false } := by
      unfold safety_check; rw [if_pos hc]
    rw [e] at h
    exact absurd h (by simp)
  · have e : safety_check config = config := by
      unfold safety_check; rw [if_neg hc]
    rw [e] at h ⊢
    simp only [not_and, not_or, not_lt] at hc
    exact ⟨(hc h).2, (hc h).1, rfl⟩

/-! ## Line splitting: tokens and pieces -/

theorem split_on_ne_nil (d : Nat) (s : List Nat) : split_on d s ≠ [] := by
  cases s with
  | nil => simp [split_on]
  | cons c rest =>
    rw [split_on]
    split_ifs
    · simp
    · split <;> simp

theorem strtok_all_of_split_on (d : Nat) :
    ∀ (s cur piece : List Nat) (pieces : List (List Nat)), split_on d s = piece :: pieces →
      strtok_all d s cur =
        ((cur ++ piece) :: pieces).filter fun piece => decide (piece ≠ []) := by
  intro s
  induction s with
  | nil =>
    intro cur piece pieces h
    simp only [split_on, List.cons.injEq] at h
    obtain ⟨rfl, rfl⟩ := h
    by_cases hc : cur = []
    · simp [strtok_all, hc]
    · simp [strtok_all, hc]
  | cons c rest ih =>
    intro cur piece pieces h
    obtain ⟨p1, ps1, h1⟩ := List.exists_cons_of_ne_nil (split_on_ne_nil d rest)
    rw [split_on] at h
    by_cases hcd : c = d
    · rw [if_pos hcd] at h
      simp only [List.cons.injEq] at h
      obtain ⟨rfl, rfl⟩ := h
      have := ih [] p1 ps1 h1
      rw [List.nil_append, ← h1] at this
      rw [strtok_all, if_pos hcd, this, List.append_nil]
      by_cases hc : cur = []
      · simp [hc]
      · simp [hc]
    · rw [if_neg hcd, h1] at h
      simp only [List.cons.injEq] at h
      obtain ⟨rfl, rfl⟩ := h
      rw [strtok_all, if_neg hcd, ih (cur ++ [c]) p1 ps1 h1]
      simp

/-- The tokens of `strtok_r` are the non-empty pieces between the delimiters. -/
theorem strtok_all_eq_nonempty_pieces (d : Nat) (s : List Nat) :
    strtok_all d s [] = nonempty_pieces d s := by
  obtain ⟨p1, ps1, h1⟩ := List.exists_cons_of_ne_nil (split_on_ne_nil d s)
  rw [strtok_all_of_split_on d s [] p1 ps1 h1, List.nil_append, ← h1]
  rfl

theorem split_on_no_delim (d : Nat) :
    ∀ (s : List Nat), ∀ piece ∈ split_on d s, d ∉ piece := by
  intro s
  induction s with
  | nil => intro piece h; simp [split_on] at h; subst h; simp
  | cons c rest ih =>
    intro piece h
    obtain ⟨p1, ps1, h1⟩ := List.exists_cons_of_ne_nil (split_on_ne_nil d rest)
    rw [split_on] at h
    by_cases hcd : c = d
    · rw [if_pos hcd] at h
      rcases List.mem_cons.mp h with rfl | h
      · simp
      · exact ih piece h
    · rw [if_neg hcd, h1] at h
      rcases List.mem_cons.mp h with rfl | h
      · have := ih p1 (by rw [h1]; exact List.mem_cons_self _ _)
        simp only [List.mem_cons, not_or]
        exact ⟨fun e => hcd e.symm, this⟩
      · exact ih piece (by rw [h1]; exact List.mem_cons_of_mem _ h)

theorem nonempty_pieces_spec (d : Nat) (s : List Nat) :
    ∀ piece ∈ nonempty_pieces d s, piece ≠ [] ∧ d ∉ piece := by
  intro piece h
  unfold nonempty_pieces at h
  rw [List.mem_filter] at h
  exact ⟨by simpa using h.2, split_on_no_delim d s piece h.1⟩

/-! ## Line splitting: the loop of `build_text_block` -/

theorem set_line_same (lines : Nat → MarqueeLine) (i : Nat) (l : MarqueeLine) :
    set_line lines i l i = l := by
  simp [set_line]

theorem set_line_other (lines : Nat → MarqueeLine) (i j : Nat) (l : MarqueeLine)
    (h : j ≠ i) : set_line lines i l j = lines j := by
  simp [set_line, h]

theorem block_max_succ (lines : Nat → MarqueeLine) (n : Nat) :
    block_max lines (n + 1) = max (block_max lines n) (lines n).total_width := by
  simp [block_max, List.range_succ, List.foldl_append]

theorem block_max_set_line (lines : Nat → MarqueeLine) (n : Nat) (l : MarqueeLine) :
    block_max (set_line lines n l) n = block_max lines n := by
  unfold block_max
  congr 1
  apply List.map_congr_left
  intro i hi
  rw [set_line_other _ _ _ _ (by have := List.mem_range.mp hi; omega)]

theorem build_lines_spec (C : Int) :
    ∀ (toks : List (List Nat)) (blk r : TextBlock), build_lines C toks blk = some r →
      blk.line_count ≤ MAX_LINES →
      r.line_count = min (blk.line_count + toks.length) MAX_LINES ∧
      (∀ i, i < blk.line_count → r.lines i = blk.lines i) ∧
      (∀ j (hj : j < toks.length), blk.line_count + j < MAX_LINES →
        ∃ reg reg1, parse_line C reg (blk.lines (blk.line_count + j)) (toks.get ⟨j, hj⟩) =
          some (r.lines (blk.line_count + j), reg1)) ∧
      (blk.max_block_width = block_max blk.lines blk.line_count →
        r.max_block_width = block_max r.lines r.line_count) := by
  intro toks
  induction toks with
  | nil =>
    intro blk r h hle
    simp only [build_lines, Option.some.injEq] at h
    subst h
    refine ⟨by simp only [List.length_nil, Nat.add_zero]; omega, fun _ _ => rfl, ?_, fun h => h⟩
    intro j hj
    simp at hj
  | cons tok rest ih =>
    intro blk r h hle
    rw [build_lines] at h
    by_cases hlt : blk.line_count < MAX_LINES
    · rw [if_pos hlt] at h
      cases hp : parse_line C blk.reg (blk.lines blk.line_count) tok with
      | none => rw [hp] at h; simp at h
      | some r0 =>
        rw [hp] at h
        simp only [] at h
        obtain ⟨i1, i2, i3, i4⟩ := ih (add_line blk r0.1 r0.2) r h (by simp only [add_line]; omega)
        have hcount : (add_line blk r0.1 r0.2).line_count = blk.line_count + 1 := rfl
        have hlines : (add_line blk r0.1 r0.2).lines = set_line blk.lines blk.line_count r0.1 := rfl
        rw [hcount] at i1 i2 i3 i4
        rw [hlines] at i2 i3 i4
        refine ⟨by rw [i1, List.length_cons]; congr 1; omega, ?_, ?_, ?_⟩
        · intro i hi
          rw [i2 i (by omega), set_line_other _ _ _ _ (by omega)]
        · intro j hj hjl
          cases j with
          | zero =>
            refine ⟨blk.reg, r0.2, ?_⟩
            rw [Nat.add_zero, i2 blk.line_count (by omega), set_line_same]
            exact hp
          | succ j =>
            obtain ⟨reg, reg1, hpj⟩ := i3 j (by simp at hj; omega) (by omega)
            rw [set_line_other _ _ _ _ (by omega)] at hpj
            refine ⟨reg, reg1, ?_⟩
            rw [show blk.line_count + (j + 1) = blk.line_count + 1 + j by omega]
            exact hpj
        · intro hmax
          apply i4
          rw [block_max_succ, block_max_set_line, set_line_same, ← hmax]
          simp only [add_line]
          split_ifs with hgt
          · omega
          · omega
    · rw [if_neg hlt] at h
      simp only [Option.some.injEq] at h
      subst h
      refine ⟨by omega, fun _ _ => rfl, ?_, fun h => h⟩
      intro j _ hjl
      omega

theorem build_lines_returns (C : Int) (hC : C ≤ 256) :
    ∀ (toks : List (List Nat)) (blk : TextBlock), blk.reg.wf →
      ∃ r, build_lines C toks blk = some r ∧ r.reg.wf := by
  intro toks
  induction toks with
  | nil => intro blk hwf; exact ⟨blk, rfl, hwf⟩
  | cons tok rest ih =>
    intro blk hwf
    rw [build_lines]
    by_cases hlt : blk.line_count < MAX_LINES
    · rw [if_pos hlt]
      obtain ⟨r0, hp, hwf0⟩ := parse_line_returns C blk.reg (blk.lines blk.line_count) tok hC hwf
      rw [hp]
      exact ih (add_line blk r0.1 r0.2) hwf0
    · rw [if_neg hlt]
      exact ⟨blk, rfl, hwf⟩

theorem split_on_subset (d : Nat) :
    ∀ (s : List Nat), ∀ piece ∈ split_on d s, ∀ c ∈ piece, c ∈ s := by
  intro s
  induction s with
  | nil => intro piece h c hc; simp [split_on] at h; subst h; simp at hc
  | cons x rest ih =>
    intro piece h c hc
    obtain ⟨p1, ps1, h1⟩ := List.exists_cons_of_ne_nil (split_on_ne_nil d rest)
    rw [split_on] at h
    by_cases hxd : x = d
    · rw [if_pos hxd] at h
      rcases List.mem_cons.mp h with rfl | h
      · simp at hc
      · exact List.mem_cons_of_mem _ (ih piece h c hc)
    · rw [if_neg hxd, h1] at h
      rcases List.mem_cons.mp h with rfl | h
      · rcases List.mem_cons.mp hc with rfl | hc
        · exact List.mem_cons_self _ _
        · exact List.mem_cons_of_mem _
            (ih p1 (by rw [h1]; exact List.mem_cons_self _ _) c hc)
      · exact List.mem_cons_of_mem _
          (ih piece (by rw [h1]; exact List.mem_cons_of_mem _ h) c hc)

theorem c_string_no_nul (buf : List Nat) : ∀ c ∈ c_string buf, c ≠ 0 := by
  intro c hc
  have := List.mem_takeWhile_imp hc
  simpa using this

theorem build_text_block_eq (C : Int) (reg : Registry) (lines : Nat → MarqueeLine)
    (raw_text : List Nat) :
    build_text_block C reg lines raw_text =
      build_lines C (nonempty_pieces 10 (c_string raw_text))
        { lines := lines, line_count := 0, max_block_width := 0, reg := reg } := by
  rw [build_text_block, strtok_all_eq_nonempty_pieces]

/-! ## C13: the summary of a block -/

/-- C13: for every raw text, build_text_block returns a line count of at most MAX_LINES
(256) and a `max_block_width` that is the maximum of `total_width` over the lines it
produced (0 when it produced none); for `A\nB\nC` it produces 3 lines and
`max_block_width = 1`.  It returns whenever the registry stays inside its table. -/
theorem build_text_block_summary (C : Int) (reg : Registry) (lines : Nat → MarqueeLine) :
    (∀ raw_text : List Nat,
      (C ≤ 256 → reg.wf → ∃ blk, build_text_block C reg lines raw_text = some blk) ∧
      ∀ blk, build_text_block C reg lines raw_text = some blk →
        blk.line_count ≤ MAX_LINES ∧
        blk.max_block_width = block_max blk.lines blk.line_count) ∧
    (C ≤ 256 → reg.wf → ∃ blk, build_text_block C reg lines [65, 10, 66, 10, 67] = some blk) ∧
    ∀ blk, build_text_block C reg lines [65, 10, 66, 10, 67] = some blk →
      blk.line_count = 3 ∧ blk.max_block_width = 1 := by
  have hret : ∀ raw_text : List Nat, C ≤ 256 → reg.wf →
      ∃ blk, build_text_block C reg lines raw_text = some blk := by
    intro raw_text hC hwf
    obtain ⟨r, hr, _⟩ := build_lines_returns C hC (nonempty_pieces 10 (c_string raw_text))
      { lines := lines, line_count := 0, max_block_width := 0, reg := reg } hwf
    exact ⟨r, by rw [build_text_block_eq]; exact hr⟩
  refine ⟨fun raw_text => ⟨hret raw_text, ?_⟩, hret _, ?_⟩
  · intro blk h
    rw [build_text_block_eq] at h
    obtain ⟨i1, _, _, i4⟩ := build_lines_spec C _ _ _ h (Nat.zero_le _)
    refine ⟨by rw [i1]; exact Nat.min_le_right _ _, i4 rfl⟩
  · intro blk h
    rw [build_text_block_eq] at h
    have htoks : nonempty_pieces 10 (c_string [65, 10, 66, 10, 67]) = [[65], [66], [67]] := by
      decide
    rw [htoks] at h
    obtain ⟨i1, _, i3, i4⟩ := build_lines_spec C _ _ _ h (Nat.zero_le _)
    have hcount : blk.line_count = 3 := by rw [i1]; rfl
    have hw : ∀ j (hj : j < 3), (blk.lines j).total_width = 1 := by
      intro j hj
      obtain ⟨reg0, reg1, hp⟩ := i3 j hj (by simp only [MAX_LINES]; omega)
      simp only [Nat.zero_add] at hp
      interval_cases j
      · exact (parse_line_plain_general C reg0 (lines 0) [65] (by decide) (by decide) _ hp).2.2
      · exact (parse_line_plain_general C reg0 (lines 1) [66] (by decide) (by decide) _ hp).2.2
      · exact (parse_line_plain_general C reg0 (lines 2) [67] (by decide) (by decide) _ hp).2.2
    refine ⟨hcount, ?_⟩
    rw [i4 rfl, hcount, block_max_succ, block_max_succ, block_max_succ, hw 0 (by omega),
      hw 1 (by omega), hw 2 (by omega)]
    rfl

/-! ## C12: one line per non-empty piece -/

/-- C12 (counterexample): the text `A\n\nB` yields two lines, not three: no line is
produced for the empty piece between the two line feeds. -/
theorem build_text_block_blank_line_counterexample :
    ∃ blk, build_text_block 256 Registry.fresh (fun _ => blank_line) [65, 10, 10, 66] =
        some blk ∧ blk.line_count = 2 ∧ blk.line_count ≠ 3 ∧
      split_on 10 [65, 10, 10, 66] = [[65], [], [66]] := by
  obtain ⟨r, hr, _⟩ := build_lines_returns 256 (by decide)
    (nonempty_pieces 10 (c_string [65, 10, 10, 66]))
    { lines := fun _ => blank_line, line_count := 0, max_block_width := 0,
      reg := Registry.fresh } Registry.fresh_wf
  obtain ⟨i1, _, _, _⟩ := build_lines_spec 256 _ _ _ hr (Nat.zero_le _)
  have htoks : nonempty_pieces 10 (c_string [65, 10, 10, 66]) = [[65], [66]] := by decide
  rw [htoks] at i1
  have hc : r.line_count = 2 := by rw [i1]; rfl
  exact ⟨r, by rw [build_text_block_eq]; exact hr, hc, by rw [hc]; decide, by decide⟩

/-- C12 (amended): for every raw text, build_text_block produces one line per
non-empty line-feed-delimited piece of the C string in the buffer, in order, up to
MAX_LINES (256) lines: line `i` is the parse of the `i`-th non-empty piece.  An empty
piece (between two consecutive line feeds, before a leading or after a trailing line
feed) produces no line, and no piece that is parsed contains a line feed or a NUL.
It returns whenever the registry stays inside its table. -/
theorem build_text_block_lines (C : Int) (reg : Registry) (lines : Nat → MarqueeLine)
    (raw_text : List Nat) :
    (C ≤ 256 → reg.wf → ∃ blk, build_text_block C reg lines raw_text = some blk) ∧
    (∀ blk, build_text_block C reg lines raw_text = some blk →
      blk.line_count = min (nonempty_pieces 10 (c_string raw_text)).length MAX_LINES ∧
      ∀ (i : Nat) (piece : List Nat),
        (nonempty_pieces 10 (c_string raw_text))[i]? = some piece → i < MAX_LINES →
        ∃ reg0 reg1, parse_line C reg0 (lines i) piece = some (blk.lines i, reg1)) ∧
    ∀ piece ∈ nonempty_pieces 10 (c_string raw_text),
      piece ≠ [] ∧ 10 ∉ piece ∧ 0 ∉ piece := by
  refine ⟨?_, ?_, ?_⟩
  · intro hC hwf
    obtain ⟨r, hr, _⟩ := build_lines_returns C hC (nonempty_pieces 10 (c_string raw_text))
      { lines := lines, line_count := 0, max_block_width := 0, reg := reg } hwf
    exact ⟨r, by rw [build_text_block_eq]; exact hr⟩
  · intro blk h
    rw [build_text_block_eq] at h
    obtain ⟨i1, _, i3, _⟩ := build_lines_spec C _ _ _ h (Nat.zero_le _)
    refine ⟨by rw [i1]; simp, ?_⟩
    intro i piece hi hlt
    obtain ⟨hlen, hget⟩ := List.getElem?_eq_some.mp hi
    obtain ⟨reg0, reg1, hp⟩ := i3 i hlen (by simp only [Nat.zero_add]; exact hlt)
    simp only [Nat.zero_add] at hp
    refine ⟨reg0, reg1, ?_⟩
    rw [← hget]
    exact hp
  · intro piece hp
    obtain ⟨h1, h2⟩ := nonempty_pieces_spec 10 _ piece hp
    refine ⟨h1, h2, ?_⟩
    intro h0
    unfold nonempty_pieces at hp
    rw [List.mem_filter] at hp
    exact c_string_no_nul raw_text 0 (split_on_subset 10 _ piece hp.1 0 h0) rfl

/-! ## C14: the widths of a parsed line -/

theorem sum_widths_succ (segs : Nat → TextSegment) (n : Nat) :
    ((List.range (n + 1)).map fun i => (segs i).width).sum =
      ((List.range n).map fun i => (segs i).width).sum + (segs n).width := by
  rw [List.range_succ, List.map_append, List.sum_append]
  simp

theorem sum_widths_set_segment (segs : Nat → TextSegment) (n : Nat) (s : TextSegment) :
    ((List.range n).map fun i => (set_segment segs n s i).width).sum =
      ((List.range n).map fun i => (segs i).width).sum := by
  congr 1
  apply List.map_congr_left
  intro i hi
  rw [set_segment_other _ _ _ _ (Nat.ne_of_lt (List.mem_range.mp hi))]

theorem widths_ok_open_segment (st : ParseState) (p : List Nat) (h : Nat) (reg : Registry)
    (hok : st.widths_ok) : (open_segment (advance_segment (set_colors st p)) h reg).widths_ok := by
  obtain ⟨hseg, htot⟩ := hok
  by_cases hw : (st.line.segments st.segment_idx).width > 0
  · obtain ⟨e1, e2, e3, _⟩ := open_segment_of_nonempty st p h reg hw
    unfold ParseState.widths_ok
    rw [e1, e2, e3]
    constructor
    · intro i hi
      by_cases hi2 : i = st.segment_idx + 1
      · rw [hi2, set_segment_same]
        exact ⟨rfl, Nat.zero_le _, fun c hc => absurd hc (List.not_mem_nil c)⟩
      · rw [set_segment_other _ _ _ _ hi2]
        exact hseg i (by omega)
    · rw [sum_widths_succ, sum_widths_set_segment, set_segment_same, htot]
      rfl
  · have hw0 : (st.line.segments st.segment_idx).width = 0 := by omega
    obtain ⟨e1, e2, e3, _⟩ := open_segment_of_empty st p h reg hw0
    unfold ParseState.widths_ok
    rw [e1, e2, e3]
    constructor
    · intro i hi
      by_cases hi2 : i = st.segment_idx
      · rw [hi2, set_segment_same]
        exact ⟨rfl, Nat.zero_le _, fun c hc => absurd hc (List.not_mem_nil c)⟩
      · rw [set_segment_other _ _ _ _ hi2]
        exact hseg i hi
    · rw [sum_widths_succ, sum_widths_set_segment, set_segment_same, htot, sum_widths_succ, hw0]

theorem widths_ok_put_byte (st : ParseState) (c : Nat) (hc0 : c ≠ 0) (hok : st.widths_ok) :
    (put_byte st c).widths_ok := by
  obtain ⟨hseg, htot⟩ := hok
  by_cases hlt : (st.line.segments st.segment_idx).width < MAX_TEXT_PER_SEGMENT - 1
  · obtain ⟨e1, e2, e3, _⟩ := put_byte_of_fits st c hlt
    unfold ParseState.widths_ok
    rw [e1, e2, e3]
    constructor
    · intro i hi
      by_cases hi2 : i = st.segment_idx
      · rw [hi2, set_segment_same]
        have hl := (hseg st.segment_idx (Nat.le_refl _)).1
        refine ⟨?_, hlt, ?_⟩
        · simp only [List.length_append, List.length_take, List.length_singleton]
          omega
        · intro d hd
          rcases List.mem_append.mp hd with hd1 | hd1
          · exact (hseg st.segment_idx (Nat.le_refl _)).2.2 d (List.mem_of_mem_take hd1)
          · rw [List.mem_singleton.mp hd1]
            exact hc0
      · rw [set_segment_other _ _ _ _ hi2]
        exact hseg i hi
    · rw [sum_widths_succ, sum_widths_set_segment, set_segment_same, htot, sum_widths_succ]
      simp only []
      omega
  · rw [put_byte_full st c hlt]
    exact ⟨hseg, htot⟩

/-- The loop keeps the widths of the segments consistent, unless it stops at the
segment limit. -/
theorem parse_loop_widths (C : Int) :
    ∀ fuel p st r, parse_loop C fuel p st = some r →
      st.widths_ok → r.segment_idx < MAX_SEGMENTS_PER_LINE → r.widths_ok := by
  apply parse_loop_cases C
    (fun _ st r => st.widths_ok → r.segment_idx < MAX_SEGMENTS_PER_LINE → r.widths_ok)
  · intro p st _ hok _
    exact hok
  · intro p st _ _ _ _ _ h6 _ hidx
    exfalso
    simp only [] at hidx
    omega
  · intro p st h reg r _ _ _ _ _ _ ih hok hidx
    exact ih (widths_ok_open_segment st p h reg hok) hidx
  · intro p st r _ _ _ _ ih hok hidx
    exact ih hok hidx
  · intro p st r h0 _ ih hok hidx
    exact ih (widths_ok_put_byte st _ h0 hok) hidx

theorem parse_start_widths_ok (line : MarqueeLine) (h : Nat) (reg : Registry) :
    (parse_start line h reg).widths_ok := by
  constructor
  · intro i hi
    have hi0 : i = 0 := Nat.le_zero.mp hi
    rw [hi0]
    exact ⟨rfl, Nat.zero_le _, fun c hc => absurd hc (List.not_mem_nil c)⟩
  · rfl

/-- C14: for every line text, as long as the parse counts at most 128 segments, the
stored `total_width` is the sum of the `width` fields of the counted segments, and
each counted segment has `width` equal to the length of its text and at most 511;
the text holds no NUL byte, so this length is the length of the stored C string.
The parse returns whenever the registry stays inside its table. -/
theorem parse_line_widths (C : Int) (reg : Registry) (line : MarqueeLine)
    (line_text : List Nat) :
    (C ≤ 256 → reg.wf → ∃ r, parse_line C reg line line_text = some r) ∧
    ∀ r, parse_line C reg line line_text = some r →
      r.1.segment_count ≤ MAX_SEGMENTS_PER_LINE →
      r.1.total_width = r.1.width_sum ∧
      ∀ i, i < r.1.segment_count →
        (r.1.segments i).width = (r.1.segments i).text.length ∧
        (r.1.segments i).width ≤ MAX_TEXT_PER_SEGMENT - 1 ∧
        ∀ c ∈ (r.1.segments i).text, c ≠ 0 := by
  constructor
  · intro hC hwf
    obtain ⟨r, hr, _⟩ := parse_line_returns C reg line line_text hC hwf
    exact ⟨r, hr⟩
  · intro r hr hcount
    obtain ⟨h0, reg1, st, _, hloop, rfl⟩ := parse_line_eq C reg line line_text r hr
    have hidx : st.segment_idx < MAX_SEGMENTS_PER_LINE := by
      simp only [parse_finish] at hcount
      split_ifs at hcount with hc
      · omega
      · simp only [MAX_SEGMENTS_PER_LINE]; omega
    obtain ⟨hseg, htot⟩ :=
      parse_loop_widths C _ _ _ _ hloop (parse_start_widths_ok line h0 reg1) hidx
    show (parse_finish st).total_width = (parse_finish st).width_sum ∧
      ∀ i, i < (parse_finish st).segment_count →
        ((parse_finish st).segments i).width = ((parse_finish st).segments i).text.length ∧
        ((parse_finish st).segments i).width ≤ MAX_TEXT_PER_SEGMENT - 1 ∧
        ∀ c ∈ ((parse_finish st).segments i).text, c ≠ 0
    unfold MarqueeLine.width_sum MarqueeLine.segment_list
    rw [List.map_map]
    simp only [parse_finish]
    by_cases hc : (st.line.segments 0).width > 0 ∨ st.segment_idx > 0
    · rw [if_pos hc]
      refine ⟨htot, ?_⟩
      intro i hi
      exact hseg i (by omega)
    · rw [if_neg hc]
      have hi0 : st.segment_idx = 0 := by omega
      have hw0 : (st.line.segments 0).width = 0 := by omega
      refine ⟨?_, ?_⟩
      · rw [htot, hi0, sum_widths_succ, hw0]
        rfl
      · intro i hi
        omega

set_option maxRecDepth 4000 in
theorem parse_line_widths_witness :
    ∃ r, parse_line 256 Registry.fresh blank_line red_line = some r ∧
      r.1.segment_count = 2 ∧ r.1.total_width = 3 ∧ r.1.width_sum = 3 ∧
      (r.1.segments 0).width = 3 ∧ (r.1.segments 0).text.length = 3 ∧
      (r.1.segments 1).width = 0 ∧ (r.1.segments 1).text.length = 0 := by
  obtain ⟨hret, hw⟩ := parse_line_widths 256 Registry.fresh blank_line red_line
  obtain ⟨r, hr⟩ := hret (by decide) Registry.fresh_wf
  have e : (parse_line 256 Registry.fresh blank_line red_line).map
      (fun r => (r.1.segment_count, r.1.total_width, (r.1.segments 0).width,
        (r.1.segments 1).width)) = some (2, 3, 3, 0) := by decide
  rw [hr] at e
  simp only [Option.map_some', Option.some.injEq, Prod.mk.injEq] at e
  obtain ⟨e1, e2, e3, e4⟩ := e
  obtain ⟨hsum, hseg⟩ := hw r hr (by rw [e1]; decide)
  have s0 := (hseg 0 (by rw [e1]; decide)).1
  have s1 := (hseg 1 (by rw [e1]; decide)).1
  exact ⟨r, hr, e1, e2, by rw [← hsum, e2], e3, by rw [← s0, e3], e4, by rw [← s1, e4]⟩

/-! ## C18: consecutive style changes -/

theorem sgr_line_scan (codes t : List Nat) (hc : ∀ c ∈ codes, seq_byte c = true) :
    seq_end (sgr_line codes t) = 109 :: t ∧ seq_codes (sgr_line codes t) = codes ∧
    after_seq (sgr_line codes t) = t := by
  have h109 : ¬ (seq_byte 109 = true) := by decide
  have e1 : seq_end (sgr_line codes t) = 109 :: t := by
    unfold seq_end sgr_line
    simp only [List.tail_cons]
    rw [List.dropWhile_append_of_pos hc, List.dropWhile_cons_of_neg h109]
  have e2 : seq_codes (sgr_line codes t) = codes := by
    unfold seq_codes sgr_line
    simp only [List.tail_cons]
    rw [List.takeWhile_append_of_pos hc, List.takeWhile_cons_of_neg h109, List.append_nil]
  refine ⟨e1, e2, ?_⟩
  unfold after_seq
  rw [e1]
  rfl

theorem set_colors_sgr_line (st : ParseState) (codes t : List Nat)
    (hc : ∀ c ∈ codes, seq_byte c = true) :
    set_colors st (sgr_line codes t) =
      { st with
        current_fg := (sgr_codes (strtok_all 59 codes []) (st.current_fg, st.current_bg)).1,
        current_bg := (sgr_codes (strtok_all 59 codes []) (st.current_fg, st.current_bg)).2 } := by
  unfold set_colors
  rw [(sgr_line_scan codes t hc).2.1]

/-- One style change on the text `sgr_line codes t`. -/
theorem parse_loop_sgr_line (C : Int) (fuel : Nat) (st : ParseState) (codes t : List Nat)
    (hc : ∀ c ∈ codes, seq_byte c = true)
    (hroom : ¬ ((st.line.segments st.segment_idx).width > 0 ∧
      st.segment_idx + 1 ≥ MAX_SEGMENTS_PER_LINE))
    (h : Nat) (reg : Registry)
    (hcall : get_or_create_color_pair C st.reg
      (sgr_codes (strtok_all 59 codes []) (st.current_fg, st.current_bg)).1
      (sgr_codes (strtok_all 59 codes []) (st.current_fg, st.current_bg)).2 = some (h, reg)) :
    parse_loop C (fuel + 1) (sgr_line codes t) st =
      parse_loop C fuel t (open_segment (advance_segment
        { st with
          current_fg := (sgr_codes (strtok_all 59 codes []) (st.current_fg, st.current_bg)).1,
          current_bg := (sgr_codes (strtok_all 59 codes []) (st.current_fg, st.current_bg)).2 })
        h reg) := by
  obtain ⟨a1, _, a3⟩ := sgr_line_scan codes t hc
  rw [parse_loop_style C fuel (sgr_line codes t) st (by show (27 : Nat) ≠ 0; decide) rfl rfl
      (by rw [a1]; rfl) hroom,
    set_colors_sgr_line st codes t hc]
  simp only []
  rw [hcall, a3]

theorem open_segment_twice (st : ParseState) (fg1 bg1 fg2 bg2 : Int) (h1 h2 : Nat)
    (reg1 reg2 : Registry) :
    open_segment (advance_segment
      { open_segment (advance_segment { st with current_fg := fg1, current_bg := bg1 }) h1 reg1
        with current_fg := fg2, current_bg := bg2 }) h2 reg2 =
    open_segment (advance_segment { st with current_fg := fg2, current_bg := bg2 }) h2 reg2 := by
  by_cases hw : (st.line.segments st.segment_idx).width > 0
  · simp [open_segment, advance_segment, hw, set_segment_same, set_segment_set_segment]
  · simp [open_segment, advance_segment, hw, set_segment_same, set_segment_set_segment]

theorem open_segment_fields (st : ParseState) (h : Nat) (reg : Registry) :
    (open_segment (advance_segment st) h reg).reg = reg ∧
    (open_segment (advance_segment st) h reg).current_fg = st.current_fg ∧
    (open_segment (advance_segment st) h reg).current_bg = st.current_bg ∧
    ((open_segment (advance_segment st) h reg).line.segments
      (open_segment (advance_segment st) h reg).segment_idx).width = 0 := by
  unfold advance_segment
  split_ifs <;> simp [open_segment, set_segment_same]

/-- Two style changes in a row act as one change to the colours of the second. -/
theorem parse_loop_two_styles (C : Int) (fuel : Nat) (st : ParseState)
    (c1 c2 rest : List Nat)
    (hc1 : ∀ c ∈ c1, seq_byte c = true) (hc2 : ∀ c ∈ c2, seq_byte c = true)
    (hroom : ¬ ((st.line.segments st.segment_idx).width > 0 ∧
      st.segment_idx + 1 ≥ MAX_SEGMENTS_PER_LINE))
    (h1 h2 : Nat) (reg1 reg2 : Registry)
    (hcall1 : get_or_create_color_pair C st.reg
      (sgr_codes (strtok_all 59 c1 []) (st.current_fg, st.current_bg)).1
      (sgr_codes (strtok_all 59 c1 []) (st.current_fg, st.current_bg)).2 = some (h1, reg1))
    (hcall2 : get_or_create_color_pair C reg1
      (sgr_codes (strtok_all 59 c2 [])
        (sgr_codes (strtok_all 59 c1 []) (st.current_fg, st.current_bg))).1
      (sgr_codes (strtok_all 59 c2 [])
        (sgr_codes (strtok_all 59 c1 []) (st.current_fg, st.current_bg))).2 = some (h2, reg2)) :
    parse_loop C (fuel + 2) (sgr_line c1 (sgr_line c2 rest)) st =
      parse_loop C fuel rest (open_segment (advance_segment
        { st with
          current_fg := (sgr_codes (strtok_all 59 c2 [])
            (sgr_codes (strtok_all 59 c1 []) (st.current_fg, st.current_bg))).1,
          current_bg := (sgr_codes (strtok_all 59 c2 [])
            (sgr_codes (strtok_all 59 c1 []) (st.current_fg, st.current_bg))).2 })
        h2 reg2) := by
  rw [parse_loop_sgr_line C (fuel + 1) st c1 _ hc1 hroom h1 reg1 hcall1]
  obtain ⟨f1, f2, f3, f4⟩ := open_segment_fields
    { st with
      current_fg := (sgr_codes (strtok_all 59 c1 []) (st.current_fg, st.current_bg)).1,
      current_bg := (sgr_codes (strtok_all 59 c1 []) (st.current_fg, st.current_bg)).2 } h1 reg1
  rw [parse_loop_sgr_line C fuel _ c2 rest hc2 (by rw [f4]; simp) h2 reg2
    (by rw [f1, f2, f3]; exact hcall2), f2, f3, open_segment_twice]

/-- Every segment before the current one has text: the loop moves on from a segment
only when its width is positive. -/
theorem parse_loop_closed_nonempty (C : Int) :
    ∀ fuel p st r, parse_loop C fuel p st = some r →
      (∀ i, i < st.segment_idx → (st.line.segments i).width > 0) →
      ∀ i, i < r.segment_idx → (r.line.segments i).width > 0 := by
  apply parse_loop_cases C
    (fun _ st r => (∀ i, i < st.segment_idx → (st.line.segments i).width > 0) →
      ∀ i, i < r.segment_idx → (r.line.segments i).width > 0)
  · intro p st _ hst
    exact hst
  · intro p st _ _ _ _ hw _ hst i hi
    have hi2 : i < st.segment_idx + 1 := hi
    show (st.line.segments i).width > 0
    by_cases hi3 : i = st.segment_idx
    · rw [hi3]; exact hw
    · exact hst i (by omega)
  · intro p st h reg r _ _ _ _ _ _ ih hst
    apply ih
    by_cases hw : (st.line.segments st.segment_idx).width > 0
    · obtain ⟨e1, e2, _, _⟩ := open_segment_of_nonempty st p h reg hw
      rw [e1, e2]
      intro i hi
      rw [set_segment_other _ _ _ _ (by omega)]
      by_cases hi3 : i = st.segment_idx
      · rw [hi3]; exact hw
      · exact hst i (by omega)
    · obtain ⟨e1, e2, _, _⟩ := open_segment_of_empty st p h reg (by omega)
      rw [e1, e2]
      intro i hi
      rw [set_segment_other _ _ _ _ (by omega)]
      exact hst i hi
  · intro p st r _ _ _ _ ih hst
    exact ih hst
  · intro p st r _ _ ih hst
    apply ih
    by_cases hlt : (st.line.segments st.segment_idx).width < MAX_TEXT_PER_SEGMENT - 1
    · obtain ⟨e1, e2, _, _⟩ := put_byte_of_fits st (byte_at p) hlt
      rw [e1, e2]
      intro i hi
      rw [set_segment_other _ _ _ _ (by omega)]
      exact hst i hi
    · rw [put_byte_full st _ hlt]
      exact hst

/-! ## C16: parameter tokens that are not recognised codes -/

/-- One step of the loop over the parameter tokens. -/
theorem sgr_codes_cons (tok : List Nat) (rest : List (List Nat)) (colors : Int × Int) :
    sgr_codes (tok :: rest) colors =
      if atoi tok = 38 ∨ atoi tok = 48 then
        match rest with
        | [] => colors
        | type_str :: rest1 =>
          if atoi type_str = 5 then
            match rest1 with
            | [] => colors
            | id_str :: rest2 =>
              sgr_codes rest2
                (if atoi tok = 38 then (to_short (atoi id_str), colors.2)
                 else (colors.1, to_short (atoi id_str)))
          else if atoi type_str = 2 then
            match rest1 with
            | r_str :: g_str :: b_str :: rest4 =>
              sgr_codes rest4
                (if atoi tok = 38 then (rgb_to_256 (atoi r_str) (atoi g_str) (atoi b_str), colors.2)
                 else (colors.1, rgb_to_256 (atoi r_str) (atoi g_str) (atoi b_str)))
            | _ => colors
          else sgr_codes rest1 colors
      else if atoi tok = 0 then sgr_codes rest (COLOR_WHITE, -1)
      else if atoi tok ≥ 30 ∧ atoi tok ≤ 37 then sgr_codes rest (atoi tok - 30, colors.2)
      else if atoi tok ≥ 40 ∧ atoi tok ≤ 47 then sgr_codes rest (colors.1, atoi tok - 40)
      else sgr_codes rest colors := by
  cases rest with
  | nil => rfl
  | cons t r1 =>
    cases r1 with
    | nil => rfl
    | cons a r2 =>
      cases r2 with
      | nil => rfl
      | cons b r3 =>
        cases r3 with
        | nil => rfl
        | cons c r4 => rfl

theorem sgr_codes_skip (tok : List Nat) (rest : List (List Nat)) (colors : Int × Int)
    (h : ¬ recognised_code (atoi tok)) :
    sgr_codes (tok :: rest) colors = sgr_codes rest colors := by
  unfold recognised_code at h
  rw [sgr_codes_cons]
  rw [if_neg (by omega), if_neg (by omega), if_neg (by omega), if_neg (by omega)]

theorem sgr_codes_skip_all (toks : List (List Nat)) (colors : Int × Int)
    (h : ∀ tok ∈ toks, ¬ recognised_code (atoi tok)) : sgr_codes toks colors = colors := by
  induction toks with
  | nil => rfl
  | cons tok rest ih =>
    rw [sgr_codes_skip tok rest colors (h tok (List.mem_cons_self tok rest))]
    exact ih (fun t ht => h t (List.mem_cons_of_mem tok ht))

theorem sgr_codes_zero (tok : List Nat) (rest : List (List Nat)) (colors : Int × Int)
    (h : atoi tok = 0) :
    sgr_codes (tok :: rest) colors = sgr_codes rest (COLOR_WHITE, -1) := by
  rw [sgr_codes_cons]
  rw [if_neg (by omega), if_pos h]

theorem atoi_no_digit (tok : List Nat) (h : ∀ c ∈ tok, isdigit c = false) : atoi tok = 0 := by
  have hnil : ∀ s : List Nat, (∀ c ∈ s, isdigit c = false) → s.takeWhile isdigit = [] := by
    intro s hs
    cases s with
    | nil => rfl
    | cons c s => exact List.takeWhile_cons_of_neg (by rw [hs c (List.mem_cons_self c s)]; simp)
  have hdrop : ∀ c ∈ tok.dropWhile isspace, isdigit c = false :=
    fun c hc => h c ((List.dropWhile_sublist _).subset hc)
  unfold atoi
  simp only []
  split_ifs with h1 h2 h2
  all_goals first
    | rw [hnil _ (fun c hc => hdrop c (List.mem_of_mem_tail hc))]
      simp [to_int32]
    | rw [hnil _ hdrop]
      simp [to_int32]

set_option maxRecDepth 4000 in
theorem sgr_codes_malformed_token_counterexample :
    (∀ c ∈ [63], isdigit c = false) ∧
    sgr_codes [[63]] (1, -1) = (COLOR_WHITE, -1) ∧
    sgr_codes [[63]] (1, -1) ≠ (1, -1) ∧
    (parse_line 256 Registry.fresh blank_line
        [27, 91, 51, 49, 109, 65, 27, 91, 63, 109, 66]).map
      (fun r => (r.1.segment_count, (r.1.segments 0).text, (r.1.segments 0).ncurses_pair_id,
        (r.1.segments 1).text, (r.1.segments 1).ncurses_pair_id)) =
      some (2, [65], 2, [66], 1) := by
  decide

/-- C16 (amended): within the parameters of an `m` sequence, a token whose value as
`atoi` reads it is none of the codes 0, 30..37, 40..47, 38, 48 leaves the foreground and
background unchanged and the tokens after it are still interpreted; a sequence whose
tokens are all of that kind leaves both colours of the parse state unchanged.  A token
without any digit is not of that kind: `atoi` reads it as 0, so it acts as the
code 0 and resets the colours to white on the default background. -/
theorem sgr_codes_unrecognised_noop :
    (∀ (tok : List Nat) (rest : List (List Nat)) (colors : Int × Int),
      ¬ recognised_code (atoi tok) → sgr_codes (tok :: rest) colors = sgr_codes rest colors) ∧
    (∀ (toks : List (List Nat)) (colors : Int × Int),
      (∀ tok ∈ toks, ¬ recognised_code (atoi tok)) → sgr_codes toks colors = colors) ∧
    (∀ (st : ParseState) (p : List Nat),
      (∀ tok ∈ strtok_all 59 (seq_codes p) [], ¬ recognised_code (atoi tok)) →
      set_colors st p = st) ∧
    (∀ (tok : List Nat) (rest : List (List Nat)) (colors : Int × Int),
      (∀ c ∈ tok, isdigit c = false) →
      sgr_codes (tok :: rest) colors = sgr_codes rest (COLOR_WHITE, -1)) := by
  refine ⟨sgr_codes_skip, sgr_codes_skip_all, ?_, ?_⟩
  · intro st p h
    unfold set_colors
    simp only []
    rw [sgr_codes_skip_all _ _ h]
  · intro tok rest colors h
    exact sgr_codes_zero tok rest colors (atoi_no_digit tok h)

set_option maxRecDepth 4000 in
theorem sgr_codes_unrecognised_noop_witness :
    sgr_codes ([49] :: [[51, 50]]) (1, 4) = sgr_codes [[51, 50]] (1, 4) ∧
    sgr_codes [[49], [51, 57], [57, 48]] (1, 4) = (1, 4) ∧
    set_colors (parse_start blank_line 1 Registry.fresh) (sgr_line [49, 59, 51, 57] [65]) =
      parse_start blank_line 1 Registry.fresh ∧
    sgr_codes ([63] :: [[52, 50]]) (1, 4) = sgr_codes [[52, 50]] (COLOR_WHITE, -1) := by
  obtain ⟨h1, h2, h3, h4⟩ := sgr_codes_unrecognised_noop
  exact ⟨h1 [49] [[51, 50]] (1, 4) (by decide),
    h2 [[49], [51, 57], [57, 48]] (1, 4) (by decide),
    h3 (parse_start blank_line 1 Registry.fresh) (sgr_line [49, 59, 51, 57] [65]) (by decide),
    h4 [63] [[52, 50]] (1, 4) (by decide)⟩

/-! ## C15: the extended-colour forms -/

/-- A line made of one `m` sequence and a text without NUL and escape introducer of
1 to 511 bytes: one segment holding the text, with the handle of the colours that
the parameters compute from white on the default background. -/
theorem parse_line_sgr_text (C : Int) (reg : Registry) (line : MarqueeLine)
    (codes t : List Nat) (hwf : reg.wf) (hc : ∀ c ∈ codes, seq_byte c = true)
    (hnul : ∀ c ∈ t, c ≠ 0) (hesc : has_escape t = false) (hpos : 0 < t.length)
    (hlen : t.length ≤ MAX_TEXT_PER_SEGMENT - 1) (r : MarqueeLine × Registry)
    (hr : parse_line C reg line (sgr_line codes t) = some r) :
    r.1.segment_count = 1 ∧ (r.1.segments 0).text = t ∧ (r.1.segments 0).width = t.length ∧
    r.1.total_width = t.length ∧
    get_or_create_color_pair C r.2
      (sgr_codes (strtok_all 59 codes []) (COLOR_WHITE, -1)).1
      (sgr_codes (strtok_all 59 codes []) (COLOR_WHITE, -1)).2 =
      some ((r.1.segments 0).ncurses_pair_id, r.2) := by
  obtain ⟨h7, reg1, st, hcall0, hloop, rfl⟩ := parse_line_eq C reg line (sgr_line codes t) r hr
  have hw0 : ((parse_start line h7 reg1).line.segments
      (parse_start line h7 reg1).segment_idx).width = 0 := by
    simp [parse_start, set_segment_same]
  obtain ⟨q1, _, q3⟩ := sgr_line_scan codes t hc
  have hl : (sgr_line codes t).length = (codes.length + 2 + t.length) + 1 := by
    simp only [sgr_line, List.length_cons, List.length_append]
    omega
  rw [hl, parse_loop_style C _ (sgr_line codes t) _ (by show (27 : Nat) ≠ 0; decide) rfl rfl
    (by rw [q1]; rfl) (by rw [hw0]; simp), q3] at hloop
  have hfg : (set_colors (parse_start line h7 reg1) (sgr_line codes t)).current_fg =
      (sgr_codes (strtok_all 59 codes []) (COLOR_WHITE, -1)).1 := by
    rw [set_colors_sgr_line _ _ _ hc]
    rfl
  have hbg : (set_colors (parse_start line h7 reg1) (sgr_line codes t)).current_bg =
      (sgr_codes (strtok_all 59 codes []) (COLOR_WHITE, -1)).2 := by
    rw [set_colors_sgr_line _ _ _ hc]
    rfl
  rw [hfg, hbg, show (parse_start line h7 reg1).reg = reg1 from rfl] at hloop
  cases hcall1 : get_or_create_color_pair C reg1
      (sgr_codes (strtok_all 59 codes []) (COLOR_WHITE, -1)).1
      (sgr_codes (strtok_all 59 codes []) (COLOR_WHITE, -1)).2 with
  | none => rw [hcall1] at hloop; simp at hloop
  | some x =>
    obtain ⟨h1, reg2⟩ := x
    rw [hcall1] at hloop
    simp only [] at hloop
    obtain ⟨a1, a2, a3, a4⟩ :=
      open_segment_of_empty (parse_start line h7 reg1) (sgr_line codes t) h1 reg2 hw0
    generalize open_segment (advance_segment (set_colors (parse_start line h7 reg1)
      (sgr_line codes t))) h1 reg2 = s1 at hloop a1 a2 a3 a4
    rw [show (parse_start line h7 reg1).segment_idx = 0 from rfl] at a1 a2
    rw [show (parse_start line h7 reg1).line.total_width = 0 from rfl] at a3
    have hseg1 : s1.line.segments s1.segment_idx = ⟨[], 0, h1⟩ := by
      rw [a1, a2, set_segment_same]
    have hc1 : s1.consistent := by
      unfold ParseState.consistent
      rw [hseg1]
      rfl
    have hst := parse_loop_plain C _ _ _ _ hloop hnul hesc
    obtain ⟨b1, b2, b3, b4, _, _⟩ := foldl_put_byte_fits t s1 hc1
      (by rw [hseg1]; simpa using hlen)
    rw [← hst] at b1 b2 b3 b4
    rw [hseg1, a1, a2, set_segment_set_segment] at b2
    rw [a1] at b1
    rw [a3] at b3
    rw [a4] at b4
    simp only [List.nil_append, Nat.zero_add] at b2 b3
    have g0 : st.line.segments 0 = ⟨t, t.length, h1⟩ := by
      rw [b2, set_segment_same]
    obtain ⟨hs1, hs2⟩ := get_or_create_color_pair_stable C reg reg1 reg2 COLOR_WHITE (-1)
      _ _ h7 h1 hwf hcall0 hcall1
    simp only [parse_finish, b1, b3, b4, g0]
    refine ⟨?_, trivial, trivial, trivial, hs2⟩
    rw [if_pos (Or.inl hpos)]



theorem decimal_eq (n : Nat) :
    decimal n = if n < 10 then [48 + n] else decimal (n / 10) ++ [48 + n % 10] := by
  rw [decimal]

theorem decimal_digits (n : Nat) : ∀ c ∈ decimal n, 48 ≤ c ∧ c ≤ 57 := by
  induction n using Nat.strong_induction_on with
  | _ n ih =>
    intro c hc
    rw [decimal_eq] at hc
    split_ifs at hc with h
    · rw [List.mem_singleton] at hc
      omega
    · rcases List.mem_append.mp hc with h1 | h1
      · exact ih (n / 10) (by omega) c h1
      · rw [List.mem_singleton] at h1
        omega

theorem decimal_ne_nil (n : Nat) : decimal n ≠ [] := by
  rw [decimal_eq]
  split_ifs <;> simp

theorem decimal_value (n : Nat) :
    (decimal n).foldl (fun acc d => acc * 10 + (d - 48)) 0 = n := by
  induction n using Nat.strong_induction_on with
  | _ n ih =>
    rw [decimal_eq]
    split_ifs with h
    · simp
    · rw [List.foldl_append, ih (n / 10) (by omega)]
      simp only [List.foldl_cons, List.foldl_nil]
      omega

theorem decimal_4294967296 : decimal 4294967296 = [52, 50, 57, 52, 57, 54, 55, 50, 57, 54] := by
  rw [decimal_eq]; norm_num
  rw [decimal_eq]; norm_num
  rw [decimal_eq]; norm_num
  rw [decimal_eq]; norm_num
  rw [decimal_eq]; norm_num
  rw [decimal_eq]; norm_num
  rw [decimal_eq]; norm_num
  rw [decimal_eq]; norm_num
  rw [decimal_eq]; norm_num
  rw [decimal_eq]; norm_num

/-- The value `atoi` reads from a run of digits. -/
theorem atoi_digits (s : List Nat) (hs : ∀ c ∈ s, 48 ≤ c ∧ c ≤ 57) :
    atoi s = to_int32 (min ((s.foldl (fun acc d => acc * 10 + (d - 48)) 0 : Nat) : Int)
      9223372036854775807) := by
  have h1 : s.dropWhile isspace = s := by
    cases s with
    | nil => rfl
    | cons c s =>
      have := hs c (List.mem_cons_self c s)
      exact List.dropWhile_cons_of_neg (by simp only [isspace, decide_eq_true_eq]; omega)
  have h2 : ¬ (byte_at s = 45 ∨ byte_at s = 43) := by
    cases s with
    | nil => simp [byte_at]
    | cons c s =>
      have := hs c (List.mem_cons_self c s)
      simp only [byte_at_cons]
      omega
  have h3 : s.takeWhile isdigit = s := by
    rw [List.takeWhile_eq_self_iff]
    intro c hc
    have := hs c hc
    simp only [isdigit, decide_eq_true_eq]
    omega
  unfold atoi
  simp only [h1, if_neg h2, h3]
  rw [if_neg (by simp only [decide_eq_true_eq]; omega)]

/-- The value `atoi` reads from a minus sign and a run of digits. -/
theorem atoi_minus_digits (s : List Nat) (hs : ∀ c ∈ s, 48 ≤ c ∧ c ≤ 57) :
    atoi (45 :: s) =
      to_int32 (max (-((s.foldl (fun acc d => acc * 10 + (d - 48)) 0 : Nat) : Int))
        (-9223372036854775808)) := by
  have h1 : (45 :: s).dropWhile isspace = 45 :: s :=
    List.dropWhile_cons_of_neg (by decide)
  have h3 : s.takeWhile isdigit = s := by
    rw [List.takeWhile_eq_self_iff]
    intro c hc
    have := hs c hc
    simp only [isdigit, decide_eq_true_eq]
    omega
  unfold atoi
  simp only [h1, byte_at_cons, true_or, if_true, List.tail_cons, h3, decide_True]

theorem atoi_decimal_int (x : Int) (hlo : -2147483648 ≤ x) (hhi : x ≤ 2147483647) :
    atoi (decimal_int x) = x := by
  unfold decimal_int
  split_ifs with hneg
  · rw [atoi_minus_digits _ (decimal_digits _), decimal_value]
    unfold to_int32
    omega
  · rw [atoi_digits _ (decimal_digits _), decimal_value]
    unfold to_int32
    omega

theorem decimal_int_bytes (x : Int) :
    ∀ c ∈ decimal_int x, c = 45 ∨ (48 ≤ c ∧ c ≤ 57) := by
  intro c hc
  unfold decimal_int at hc
  split_ifs at hc
  · rcases List.mem_cons.mp hc with h | h
    · exact Or.inl h
    · exact Or.inr (decimal_digits _ c h)
  · exact Or.inr (decimal_digits _ c hc)

theorem decimal_int_ne_nil (x : Int) : decimal_int x ≠ [] := by
  unfold decimal_int
  split_ifs
  · simp
  · exact decimal_ne_nil _

theorem strtok_all_last (d : Nat) (a : List Nat) :
    ∀ cur : List Nat, d ∉ a → cur ++ a ≠ [] → strtok_all d a cur = [cur ++ a] := by
  induction a with
  | nil =>
    intro cur _ hne
    rw [List.append_nil] at hne ⊢
    simp [strtok_all, hne]
  | cons c a ih =>
    intro cur hd _
    have hc : c ≠ d := fun h => hd (h ▸ List.mem_cons_self c a)
    rw [strtok_all, if_neg hc, ih (cur ++ [c]) (fun h => hd (List.mem_cons_of_mem c h))
      (by simp)]
    simp

theorem strtok_all_token (d : Nat) (a b : List Nat) :
    ∀ cur : List Nat, d ∉ a → cur ++ a ≠ [] →
      strtok_all d (a ++ d :: b) cur = (cur ++ a) :: strtok_all d b [] := by
  induction a with
  | nil =>
    intro cur _ hne
    rw [List.append_nil] at hne ⊢
    simp [strtok_all, hne]
  | cons c a ih =>
    intro cur hd _
    have hc : c ≠ d := fun h => hd (h ▸ List.mem_cons_self c a)
    rw [List.cons_append, strtok_all, if_neg hc,
      ih (cur ++ [c]) (fun h => hd (List.mem_cons_of_mem c h)) (by simp)]
    simp


theorem atoi_decimal (n : Nat) (h : n ≤ 2147483647) : atoi (decimal n) = (n : Int) := by
  rw [atoi_digits _ (decimal_digits _), decimal_value]
  unfold to_int32
  omega

theorem decimal_int_no_semicolon (x : Int) : 59 ∉ decimal_int x := by
  intro h
  have := decimal_int_bytes x 59 h
  omega

theorem seq_byte_of_range (c : Nat) (h : 45 ≤ c ∧ c ≤ 59) : seq_byte c = true := by
  simp only [seq_byte, isalpha, Bool.and_eq_true, decide_eq_true_eq, Bool.not_eq_true',
    decide_eq_false_iff_not]
  omega

theorem decimal_int_range (x : Int) : ∀ c ∈ decimal_int x, 45 ≤ c ∧ c ≤ 59 := by
  intro c hc
  have := decimal_int_bytes x c hc
  omega

theorem decimal_int_ofNat (n : Nat) : decimal_int (n : Int) = decimal n := by
  unfold decimal_int
  rw [if_neg (by omega)]
  rfl

/-- The parameters `k;5;N` with `k` reading as 38 or 48. -/
theorem sgr_codes_palette (k idtok : List Nat) (colors : Int × Int)
    (hk : atoi k = 38 ∨ atoi k = 48) :
    sgr_codes [k, [53], idtok] colors =
      if atoi k = 38 then (to_short (atoi idtok), colors.2)
      else (colors.1, to_short (atoi idtok)) := by
  rw [sgr_codes_cons, if_pos hk]
  simp only []
  rw [if_pos (by decide : atoi [53] = 5)]
  rfl

/-- The parameters `k;2;R;G;B` with `k` reading as 38 or 48. -/
theorem sgr_codes_truecolor (k r g b : List Nat) (colors : Int × Int)
    (hk : atoi k = 38 ∨ atoi k = 48) :
    sgr_codes [k, [50], r, g, b] colors =
      if atoi k = 38 then (rgb_to_256 (atoi r) (atoi g) (atoi b), colors.2)
      else (colors.1, rgb_to_256 (atoi r) (atoi g) (atoi b)) := by
  rw [sgr_codes_cons, if_pos hk]
  simp only []
  rw [if_neg (by decide : ¬ atoi [50] = 5), if_pos (by decide : atoi [50] = 2)]
  rfl

theorem palette_tokens (k : List Nat) (N : Nat) (hk59 : 59 ∉ k) (hkne : k ≠ []) :
    strtok_all 59 (k ++ 59 :: 53 :: 59 :: decimal N) [] = [k, [53], decimal N] := by
  have hN59 : 59 ∉ decimal N := by
    rw [← decimal_int_ofNat]
    exact decimal_int_no_semicolon _
  rw [strtok_all_token 59 k _ [] hk59 (by simpa using hkne),
    show (53 :: 59 :: decimal N) = [53] ++ 59 :: decimal N from rfl,
    strtok_all_token 59 [53] _ [] (by decide) (by decide),
    strtok_all_last 59 (decimal N) [] hN59 (by simpa using decimal_ne_nil N)]
  rfl

theorem truecolor_tokens (k : List Nat) (R G B : Int) (hk59 : 59 ∉ k) (hkne : k ≠ []) :
    strtok_all 59
        (k ++ 59 :: 50 :: 59 :: (decimal_int R ++ 59 :: (decimal_int G ++ 59 :: decimal_int B)))
        [] = [k, [50], decimal_int R, decimal_int G, decimal_int B] := by
  rw [strtok_all_token 59 k _ [] hk59 (by simpa using hkne),
    show (50 :: 59 :: (decimal_int R ++ 59 :: (decimal_int G ++ 59 :: decimal_int B))) =
      [50] ++ 59 :: (decimal_int R ++ 59 :: (decimal_int G ++ 59 :: decimal_int B)) from rfl,
    strtok_all_token 59 [50] _ [] (by decide) (by decide),
    strtok_all_token 59 (decimal_int R) _ [] (decimal_int_no_semicolon R)
      (by simpa using decimal_int_ne_nil R),
    strtok_all_token 59 (decimal_int G) _ [] (decimal_int_no_semicolon G)
      (by simpa using decimal_int_ne_nil G),
    strtok_all_last 59 (decimal_int B) [] (decimal_int_no_semicolon B)
      (by simpa using decimal_int_ne_nil B)]
  rfl

theorem palette_codes_seq (k : List Nat) (N : Nat) (hk : ∀ c ∈ k, 45 ≤ c ∧ c ≤ 59) :
    ∀ c ∈ k ++ 59 :: 53 :: 59 :: decimal N, seq_byte c = true := by
  intro c hc
  apply seq_byte_of_range
  simp only [List.mem_append, List.mem_cons] at hc
  rcases hc with h | h | h | h | h
  · exact hk c h
  · omega
  · omega
  · omega
  · have := decimal_digits N c h
    omega

theorem truecolor_codes_seq (k : List Nat) (R G B : Int) (hk : ∀ c ∈ k, 45 ≤ c ∧ c ≤ 59) :
    ∀ c ∈ k ++ 59 :: 50 :: 59 ::
        (decimal_int R ++ 59 :: (decimal_int G ++ 59 :: decimal_int B)),
      seq_byte c = true := by
  intro c hc
  apply seq_byte_of_range
  simp only [List.mem_append, List.mem_cons] at hc
  rcases hc with h | h | h | h | h | h | h | h | h
  · exact hk c h
  · omega
  · omega
  · omega
  · exact decimal_int_range R c h
  · omega
  · exact decimal_int_range G c h
  · omega
  · exact decimal_int_range B c h

theorem to_short_of_small (x : Int) (h : -32768 ≤ x ∧ x ≤ 32767) : to_short x = x := by
  unfold to_short
  omega

theorem parse_line_palette (C : Int) (reg : Registry) (line : MarqueeLine)
    (k t : List Nat) (N : Nat) (hwf : reg.wf) (hk : atoi k = 38 ∨ atoi k = 48)
    (hkb : ∀ c ∈ k, 45 ≤ c ∧ c ≤ 58) (hkne : k ≠ [])
    (hnul : ∀ c ∈ t, c ≠ 0) (hesc : has_escape t = false) (hpos : 0 < t.length)
    (hlen : t.length ≤ MAX_TEXT_PER_SEGMENT - 1) (hN : N ≤ 255)
    (r : MarqueeLine × Registry)
    (hr : parse_line C reg line (sgr_line (k ++ 59 :: 53 :: 59 :: decimal N) t) = some r) :
    r.1.segment_count = 1 ∧ (r.1.segments 0).text = t ∧
    get_or_create_color_pair C r.2 (if atoi k = 38 then (N : Int) else COLOR_WHITE)
      (if atoi k = 38 then -1 else (N : Int)) =
      some ((r.1.segments 0).ncurses_pair_id, r.2) := by
  obtain ⟨a1, a2, _, _, a5⟩ := parse_line_sgr_text C reg line _ t hwf
    (palette_codes_seq k N (fun c hc => by have := hkb c hc; omega)) hnul hesc hpos hlen r hr
  rw [palette_tokens k N (fun h => by have := hkb 59 h; omega) hkne,
    sgr_codes_palette k _ _ hk, atoi_decimal N (by omega),
    to_short_of_small _ (by omega)] at a5
  refine ⟨a1, a2, ?_⟩
  by_cases h38 : atoi k = 38
  · rw [if_pos h38] at a5
    rw [if_pos h38, if_pos h38]
    exact a5
  · rw [if_neg h38] at a5
    rw [if_neg h38, if_neg h38]
    exact a5

theorem parse_line_truecolor (C : Int) (reg : Registry) (line : MarqueeLine)
    (k t : List Nat) (R G B : Int) (hwf : reg.wf) (hk : atoi k = 38 ∨ atoi k = 48)
    (hkb : ∀ c ∈ k, 45 ≤ c ∧ c ≤ 58) (hkne : k ≠ [])
    (hnul : ∀ c ∈ t, c ≠ 0) (hesc : has_escape t = false) (hpos : 0 < t.length)
    (hlen : t.length ≤ MAX_TEXT_PER_SEGMENT - 1)
    (hR : -2147483648 ≤ R ∧ R ≤ 2147483647) (hG : -2147483648 ≤ G ∧ G ≤ 2147483647)
    (hB : -2147483648 ≤ B ∧ B ≤ 2147483647)
    (r : MarqueeLine × Registry)
    (hr : parse_line C reg line (sgr_line (k ++ 59 :: 50 :: 59 ::
      (decimal_int R ++ 59 :: (decimal_int G ++ 59 :: decimal_int B))) t) = some r) :
    r.1.segment_count = 1 ∧ (r.1.segments 0).text = t ∧
    get_or_create_color_pair C r.2 (if atoi k = 38 then rgb_to_256 R G B else COLOR_WHITE)
      (if atoi k = 38 then -1 else rgb_to_256 R G B) =
      some ((r.1.segments 0).ncurses_pair_id, r.2) := by
  obtain ⟨a1, a2, _, _, a5⟩ := parse_line_sgr_text C reg line _ t hwf
    (truecolor_codes_seq k R G B (fun c hc => by have := hkb c hc; omega))
    hnul hesc hpos hlen r hr
  rw [truecolor_tokens k R G B (fun h => by have := hkb 59 h; omega) hkne,
    sgr_codes_truecolor k _ _ _ _ hk, atoi_decimal_int R hR.1 hR.2,
    atoi_decimal_int G hG.1 hG.2, atoi_decimal_int B hB.1 hB.2] at a5
  refine ⟨a1, a2, ?_⟩
  by_cases h38 : atoi k = 38
  · rw [if_pos h38] at a5
    rw [if_pos h38, if_pos h38]
    exact a5
  · rw [if_neg h38] at a5
    rw [if_neg h38, if_neg h38]
    exact a5

set_option maxRecDepth 8000 in
theorem parse_line_truecolor_wrap_counterexample :
    decimal_int 4294967296 = [52, 50, 57, 52, 57, 54, 55, 50, 57, 54] ∧
    decimal_int 0 = [48] ∧
    rgb_to_256 4294967296 0 0 = 196 ∧
    (parse_line 256 Registry.fresh blank_line
        (sgr_line ([51, 56] ++ 59 :: 50 :: 59 ::
          ([52, 50, 57, 52, 57, 54, 55, 50, 57, 54] ++ 59 :: ([48] ++ 59 :: [48]))) [65])).bind
      (fun r => (get_or_create_color_pair 256 r.2 196 (-1)).map
        (fun x => (r.1.segment_count, (r.1.segments 0).text,
          (r.1.segments 0).ncurses_pair_id, x.1))) = some (1, [65], 2, 3) ∧
    (parse_line 256 Registry.fresh blank_line
        (sgr_line ([51, 56] ++ 59 :: 50 :: 59 ::
          ([52, 50, 57, 52, 57, 54, 55, 50, 57, 54] ++ 59 :: ([48] ++ 59 :: [48]))) [65])).bind
      (fun r => (get_or_create_color_pair 256 r.2 16 (-1)).map
        (fun x => ((r.1.segments 0).ncurses_pair_id, x.1))) = some (2, 2) := by
  refine ⟨?_, ?_, by decide, by decide, by decide⟩
  · rw [show decimal_int 4294967296 = decimal 4294967296 from decimal_int_ofNat 4294967296]
    exact decimal_4294967296
  · rw [show decimal_int 0 = decimal 0 from decimal_int_ofNat 0, decimal_eq]
    rfl

/-- C15 (amended): for every text `t` of 1 to 511 bytes without NUL and without
escape introducer, every `N` in 0..255 and all `R`, `G`, `B` in the range of a 32-bit
`int` (written in decimal), the parse of ESC `[38;5;N m` followed by `t` yields one
segment with text `t` and the handle of `(N, -1)`; with `48;5;N` the handle of
`(white, N)`; with `38;2;R;G;B` the handle of `(rgb_to_256 R G B, -1)`; with
`48;2;R;G;B` the handle of `(white, rgb_to_256 R G B)`.  The handle of a colour pair
is what the registry returns for it after the parse, leaving its statics as they
are.  Each parse returns whenever `COLOR_PAIRS ≤ 256`. -/
theorem parse_line_extended_colours (C : Int) (reg : Registry) (line : MarqueeLine)
    (t : List Nat) (N : Nat) (R G B : Int) (hwf : reg.wf)
    (hnul : ∀ c ∈ t, c ≠ 0) (hesc : has_escape t = false) (hpos : 0 < t.length)
    (hlen : t.length ≤ 511) (hN : N ≤ 255)
    (hR : -2147483648 ≤ R ∧ R ≤ 2147483647) (hG : -2147483648 ≤ G ∧ G ≤ 2147483647)
    (hB : -2147483648 ≤ B ∧ B ≤ 2147483647) :
    (C ≤ 256 →
      (∃ r, parse_line C reg line
        (sgr_line ([51, 56] ++ 59 :: 53 :: 59 :: decimal N) t) = some r) ∧
      (∃ r, parse_line C reg line
        (sgr_line ([52, 56] ++ 59 :: 53 :: 59 :: decimal N) t) = some r) ∧
      (∃ r, parse_line C reg line (sgr_line ([51, 56] ++ 59 :: 50 :: 59 ::
        (decimal_int R ++ 59 :: (decimal_int G ++ 59 :: decimal_int B))) t) = some r) ∧
      (∃ r, parse_line C reg line (sgr_line ([52, 56] ++ 59 :: 50 :: 59 ::
        (decimal_int R ++ 59 :: (decimal_int G ++ 59 :: decimal_int B))) t) = some r)) ∧
    (∀ r, parse_line C reg line
        (sgr_line ([51, 56] ++ 59 :: 53 :: 59 :: decimal N) t) = some r →
      r.1.segment_count = 1 ∧ (r.1.segments 0).text = t ∧
      get_or_create_color_pair C r.2 (N : Int) (-1) =
        some ((r.1.segments 0).ncurses_pair_id, r.2)) ∧
    (∀ r, parse_line C reg line
        (sgr_line ([52, 56] ++ 59 :: 53 :: 59 :: decimal N) t) = some r →
      r.1.segment_count = 1 ∧ (r.1.segments 0).text = t ∧
      get_or_create_color_pair C r.2 COLOR_WHITE (N : Int) =
        some ((r.1.segments 0).ncurses_pair_id, r.2)) ∧
    (∀ r, parse_line C reg line (sgr_line ([51, 56] ++ 59 :: 50 :: 59 ::
        (decimal_int R ++ 59 :: (decimal_int G ++ 59 :: decimal_int B))) t) = some r →
      r.1.segment_count = 1 ∧ (r.1.segments 0).text = t ∧
      get_or_create_color_pair C r.2 (rgb_to_256 R G B) (-1) =
        some ((r.1.segments 0).ncurses_pair_id, r.2)) ∧
    (∀ r, parse_line C reg line (sgr_line ([52, 56] ++ 59 :: 50 :: 59 ::
        (decimal_int R ++ 59 :: (decimal_int G ++ 59 :: decimal_int B))) t) = some r →
      r.1.segment_count = 1 ∧ (r.1.segments 0).text = t ∧
      get_or_create_color_pair C r.2 COLOR_WHITE (rgb_to_256 R G B) =
        some ((r.1.segments 0).ncurses_pair_id, r.2)) := by
  have h38 : atoi [51, 56] = 38 := by decide
  have h48 : atoi [52, 56] = 48 := by decide
  have n48 : ¬ atoi [52, 56] = 38 := by decide
  refine ⟨?_, ?_, ?_, ?_, ?_⟩
  · intro hC
    refine ⟨?_, ?_, ?_, ?_⟩
    all_goals
      obtain ⟨r, hr, _⟩ := parse_line_returns C reg line _ hC hwf
      exact ⟨r, hr⟩
  · intro r hr
    have h := parse_line_palette C reg line [51, 56] t N hwf (Or.inl h38) (by decide)
      (by decide) hnul hesc hpos hlen hN r hr
    rw [if_pos h38, if_pos h38] at h
    exact h
  · intro r hr
    have h := parse_line_palette C reg line [52, 56] t N hwf (Or.inr h48) (by decide)
      (by decide) hnul hesc hpos hlen hN r hr
    rw [if_neg n48, if_neg n48] at h
    exact h
  · intro r hr
    have h := parse_line_truecolor C reg line [51, 56] t R G B hwf (Or.inl h38) (by decide)
      (by decide) hnul hesc hpos hlen hR hG hB r hr
    rw [if_pos h38, if_pos h38] at h
    exact h
  · intro r hr
    have h := parse_line_truecolor C reg line [52, 56] t R G B hwf (Or.inr h48) (by decide)
      (by decide) hnul hesc hpos hlen hR hG hB r hr
    rw [if_neg n48, if_neg n48] at h
    exact h

theorem parse_line_extended_colours_witness :
    (∃ r, parse_line 256 Registry.fresh blank_line
        (sgr_line ([51, 56] ++ 59 :: 53 :: 59 :: decimal 200) [65]) = some r ∧
      r.1.segment_count = 1 ∧ (r.1.segments 0).text = [65] ∧
      get_or_create_color_pair 256 r.2 200 (-1) =
        some ((r.1.segments 0).ncurses_pair_id, r.2)) ∧
    (∃ r, parse_line 256 Registry.fresh blank_line
        (sgr_line ([52, 56] ++ 59 :: 50 :: 59 ::
          (decimal_int 255 ++ 59 :: (decimal_int 0 ++ 59 :: decimal_int (-5)))) [65]) = some r ∧
      r.1.segment_count = 1 ∧ (r.1.segments 0).text = [65] ∧
      get_or_create_color_pair 256 r.2 COLOR_WHITE (rgb_to_256 255 0 (-5)) =
        some ((r.1.segments 0).ncurses_pair_id, r.2)) := by
  obtain ⟨hret, h1, _, _, h4⟩ := parse_line_extended_colours 256 Registry.fresh blank_line
    [65] 200 255 0 (-5) Registry.fresh_wf (by decide) (by decide) (by decide) (by decide)
    (by decide) (by decide) (by decide) (by decide)
  obtain ⟨⟨r1, hr1⟩, _, _, ⟨r4, hr4⟩⟩ := hret (by decide)
  exact ⟨⟨r1, hr1, h1 r1 hr1⟩, ⟨r4, hr4, h4 r4 hr4⟩⟩

/-! ## C17: sequences that are not style changes -/

/-- The result of the loop does not depend on the fuel once there is one unit per
byte of the text. -/
theorem parse_loop_fuel (C : Int) :
    ∀ f1 f2 p st, p.length ≤ f1 → p.length ≤ f2 →
      parse_loop C f1 p st = parse_loop C f2 p st := by
  intro f1
  induction f1 with
  | zero =>
    intro f2 p st h1 _
    have hp : p = [] := List.eq_nil_of_length_eq_zero (by omega)
    subst hp
    rw [parse_loop_end C 0 [] st rfl, parse_loop_end C f2 [] st rfl]
  | succ n ih =>
    intro f2 p st h1 h2
    by_cases h0 : byte_at p = 0
    · rw [parse_loop_end C _ p st h0, parse_loop_end C _ p st h0]
    have hlen := tail_length_lt p h0
    have hseq := after_seq_length p h0
    obtain ⟨m, rfl⟩ : ∃ m, f2 = m + 1 := ⟨f2 - 1, by omega⟩
    by_cases hi : byte_at p = 27 ∧ byte_at p.tail = 91
    swap
    · rw [parse_loop_byte C n p st h0 hi, parse_loop_byte C m p st h0 hi]
      exact ih m _ _ (by omega) (by omega)
    by_cases hm : byte_at (seq_end p) = 109
    swap
    · rw [parse_loop_other C n p st h0 hi.1 hi.2 hm, parse_loop_other C m p st h0 hi.1 hi.2 hm]
      exact ih m _ _ (by omega) (by omega)
    by_cases hb : (st.line.segments st.segment_idx).width > 0 ∧
        st.segment_idx + 1 ≥ MAX_SEGMENTS_PER_LINE
    · rw [parse_loop_break C n p st h0 hi.1 hi.2 hm hb.1 hb.2,
        parse_loop_break C m p st h0 hi.1 hi.2 hm hb.1 hb.2]
    · rw [parse_loop_style C n p st h0 hi.1 hi.2 hm hb,
        parse_loop_style C m p st h0 hi.1 hi.2 hm hb]
      cases get_or_create_color_pair C st.reg (set_colors st p).current_fg
          (set_colors st p).current_bg with
      | none => rfl
      | some x => exact ih m _ _ (by omega) (by omega)

theorem parse_run_byte (C : Int) (p : List Nat) (st : ParseState)
    (h0 : byte_at p ≠ 0) (h1 : ¬ (byte_at p = 27 ∧ byte_at p.tail = 91)) :
    parse_loop C p.length p st =
      parse_loop C p.tail.length p.tail (put_byte st (byte_at p)) := by
  have hlen := tail_length_lt p h0
  obtain ⟨n, hn⟩ : ∃ n, p.length = n + 1 := ⟨p.length - 1, by omega⟩
  rw [hn, parse_loop_byte C n p st h0 h1]
  exact parse_loop_fuel C _ _ _ _ (by omega) (le_refl _)

theorem parse_run_other (C : Int) (p : List Nat) (st : ParseState)
    (h0 : byte_at p ≠ 0) (h1 : byte_at p = 27) (h2 : byte_at p.tail = 91)
    (h3 : byte_at (seq_end p) ≠ 109) :
    parse_loop C p.length p st = parse_loop C (after_seq p).length (after_seq p) st := by
  have hlen := after_seq_length p h0
  obtain ⟨n, hn⟩ : ∃ n, p.length = n + 1 := ⟨p.length - 1, by omega⟩
  rw [hn, parse_loop_other C n p st h0 h1 h2 h3]
  exact parse_loop_fuel C _ _ _ _ (by omega) (le_refl _)

theorem parse_run_break (C : Int) (p : List Nat) (st : ParseState)
    (h0 : byte_at p ≠ 0) (h1 : byte_at p = 27) (h2 : byte_at p.tail = 91)
    (h3 : byte_at (seq_end p) = 109)
    (h4 : (st.line.segments st.segment_idx).width > 0)
    (h5 : st.segment_idx + 1 ≥ MAX_SEGMENTS_PER_LINE) :
    parse_loop C p.length p st =
      some { set_colors st p with segment_idx := st.segment_idx + 1 } := by
  have hlen := tail_length_lt p h0
  obtain ⟨n, hn⟩ : ∃ n, p.length = n + 1 := ⟨p.length - 1, by omega⟩
  rw [hn, parse_loop_break C n p st h0 h1 h2 h3 h4 h5]

theorem parse_run_style (C : Int) (p : List Nat) (st : ParseState)
    (h0 : byte_at p ≠ 0) (h1 : byte_at p = 27) (h2 : byte_at p.tail = 91)
    (h3 : byte_at (seq_end p) = 109)
    (h4 : ¬ ((st.line.segments st.segment_idx).width > 0 ∧
      st.segment_idx + 1 ≥ MAX_SEGMENTS_PER_LINE)) :
    parse_loop C p.length p st =
      match get_or_create_color_pair C st.reg (set_colors st p).current_fg
          (set_colors st p).current_bg with
      | none => none
      | some (h, reg) =>
        parse_loop C (after_seq p).length (after_seq p)
          (open_segment (advance_segment (set_colors st p)) h reg) := by
  have hlen := after_seq_length p h0
  obtain ⟨n, hn⟩ : ∃ n, p.length = n + 1 := ⟨p.length - 1, by omega⟩
  rw [hn, parse_loop_style C n p st h0 h1 h2 h3 h4]
  cases get_or_create_color_pair C st.reg (set_colors st p).current_fg
      (set_colors st p).current_bg with
  | none => rfl
  | some x => exact parse_loop_fuel C _ _ _ _ (by omega) (le_refl _)

/-- The scan of a sequence stops at the first byte that is a letter. -/
theorem scan_stop (s t : List Nat) (L : Nat) (hs : ∀ c ∈ s, seq_byte c = true)
    (hL : seq_byte L = false) (hL0 : L ≠ 0) :
    seq_end (27 :: 91 :: (s ++ L :: t)) = L :: t ∧
    seq_codes (27 :: 91 :: (s ++ L :: t)) = s ∧
    after_seq (27 :: 91 :: (s ++ L :: t)) = t := by
  have hLn : ¬ (seq_byte L = true) := by rw [hL]; decide
  have e1 : seq_end (27 :: 91 :: (s ++ L :: t)) = L :: t := by
    unfold seq_end
    simp only [List.tail_cons]
    rw [List.dropWhile_append_of_pos hs, List.dropWhile_cons_of_neg hLn]
  have e2 : seq_codes (27 :: 91 :: (s ++ L :: t)) = s := by
    unfold seq_codes
    simp only [List.tail_cons]
    rw [List.takeWhile_append_of_pos hs, List.takeWhile_cons_of_neg hLn, List.append_nil]
  refine ⟨e1, e2, ?_⟩
  unfold after_seq
  rw [e1, if_pos (show byte_at (L :: t) ≠ 0 from hL0)]
  rfl

/-- The scan of a sequence without a letter runs to the end of the text. -/
theorem scan_all (x : List Nat) (hx : ∀ c ∈ x, seq_byte c = true) :
    seq_end (27 :: 91 :: x) = [] ∧ after_seq (27 :: 91 :: x) = [] := by
  have e1 : seq_end (27 :: 91 :: x) = [] := by
    unfold seq_end
    simp only [List.tail_cons]
    rw [List.dropWhile_eq_nil_iff]
    exact hx
  refine ⟨e1, ?_⟩
  unfold after_seq
  rw [e1]
  rfl

theorem scan_split (x : List Nat) :
    (∀ c ∈ x, seq_byte c = true) ∨
    ∃ s L t, x = s ++ L :: t ∧ (∀ c ∈ s, seq_byte c = true) ∧ seq_byte L = false := by
  induction x with
  | nil => exact Or.inl (fun c hc => absurd hc (List.not_mem_nil c))
  | cons c x ih =>
    by_cases hc : seq_byte c = true
    · rcases ih with h | ⟨s, L, t, rfl, hs, hL⟩
      · left
        intro d hd
        rcases List.mem_cons.mp hd with h1 | h1
        · rw [h1]; exact hc
        · exact h d h1
      · right
        refine ⟨c :: s, L, t, rfl, ?_, hL⟩
        intro d hd
        rcases List.mem_cons.mp hd with h1 | h1
        · rw [h1]; exact hc
        · exact hs d h1
    · right
      exact ⟨[], c, x, rfl, fun d hd => absurd hd (List.not_mem_nil d), by simpa using hc⟩

theorem isalpha_of_not_seq_byte (L : Nat) (hL : seq_byte L = false) (hL0 : L ≠ 0) :
    isalpha L = true := by
  simpa [seq_byte, hL0] using hL

theorem not_isalpha_of_seq_byte (c : Nat) (h : seq_byte c = true) : isalpha c = false := by
  simp only [seq_byte, Bool.and_eq_true, Bool.not_eq_true'] at h
  exact h.2

theorem open_sequence_true_cons (c : Nat) (x : List Nat) :
    open_sequence true (c :: x) =
      if isalpha c then open_sequence false x else open_sequence true x := by
  rw [open_sequence]

theorem open_sequence_false_cons (c : Nat) (x : List Nat) :
    open_sequence false (c :: x) =
      if c = 27 ∧ byte_at x = 91 then open_sequence true x else open_sequence false x := by
  rw [open_sequence]

theorem open_sequence_true_all (x : List Nat) (hx : ∀ c ∈ x, seq_byte c = true) :
    open_sequence true x = true := by
  induction x with
  | nil => rfl
  | cons c x ih =>
    rw [open_sequence_true_cons,
      not_isalpha_of_seq_byte c (hx c (List.mem_cons_self c x))]
    exact ih (fun d hd => hx d (List.mem_cons_of_mem c hd))

theorem open_sequence_true_split (s t : List Nat) (L : Nat)
    (hs : ∀ c ∈ s, seq_byte c = true) (hL : isalpha L = true) :
    open_sequence true (s ++ L :: t) = open_sequence false t := by
  induction s with
  | nil =>
    rw [List.nil_append, open_sequence_true_cons, hL]
    rfl
  | cons c s ih =>
    rw [List.cons_append, open_sequence_true_cons,
      not_isalpha_of_seq_byte c (hs c (List.mem_cons_self c s))]
    exact ih (fun d hd => hs d (List.mem_cons_of_mem c hd))

theorem open_sequence_intro (x : List Nat) :
    open_sequence false (27 :: 91 :: x) = open_sequence true x := by
  rw [open_sequence_false_cons, if_pos ⟨rfl, rfl⟩, open_sequence_true_cons, isalpha_91]
  rfl

/-- Two tails `u` and `v` on which the loop does the same in every state can be
exchanged after a prefix `a`, provided no escape introducer is made or broken where
the prefix meets the tail, and the prefix does not end inside an unterminated
sequence unless both tails are made of parameter bytes only. -/
theorem parse_loop_splice (C : Int) (u v : List Nat)
    (huv : ∀ st, parse_loop C u.length u st = parse_loop C v.length v st)
    (hu : byte_at u ≠ 91) :
    ∀ n a st, a.length ≤ n → (∀ c ∈ a, c ≠ 0) →
      (open_sequence false a = false ∨
        ((∀ c ∈ u, seq_byte c = true) ∧ (∀ c ∈ v, seq_byte c = true))) →
      (a.getLast? = some 27 → byte_at v ≠ 91) →
      parse_loop C (a ++ u).length (a ++ u) st = parse_loop C (a ++ v).length (a ++ v) st := by
  intro n
  induction n with
  | zero =>
    intro a st hlen _ _ _
    have ha : a = [] := List.eq_nil_of_length_eq_zero (by omega)
    subst ha
    exact huv st
  | succ n ih =>
    intro a st hlen hnul hopen hbound
    cases a with
    | nil => exact huv st
    | cons c a1 =>
      have hc0 : c ≠ 0 := hnul c (List.mem_cons_self c a1)
      have hnul1 : ∀ d ∈ a1, d ≠ 0 := fun d hd => hnul d (List.mem_cons_of_mem c hd)
      rw [List.length_cons] at hlen
      by_cases hi : c = 27 ∧ byte_at a1 = 91
      · obtain ⟨rfl, h91⟩ := hi
        have ha1 : a1 = 91 :: a1.tail := by
          have := eq_cons_of_byte_at_ne_zero a1 (by rw [h91]; decide)
          rwa [h91] at this
        generalize a1.tail = x at ha1
        subst ha1
        rw [List.length_cons] at hlen
        rcases scan_split x with hall | ⟨s, L, t, rfl, hs, hL⟩
        · have ho : open_sequence false (27 :: 91 :: x) = true := by
            rw [open_sequence_intro, open_sequence_true_all x hall]
          rcases hopen with h3 | ⟨h3u, h3v⟩
          · rw [ho] at h3
            exact absurd h3 (by decide)
          · obtain ⟨e1, e2⟩ := scan_all (x ++ u) (fun d hd => by
              rcases List.mem_append.mp hd with h | h
              · exact hall d h
              · exact h3u d h)
            obtain ⟨f1, f2⟩ := scan_all (x ++ v) (fun d hd => by
              rcases List.mem_append.mp hd with h | h
              · exact hall d h
              · exact h3v d h)
            rw [show (27 :: 91 :: x) ++ u = 27 :: 91 :: (x ++ u) from rfl,
              show (27 :: 91 :: x) ++ v = 27 :: 91 :: (x ++ v) from rfl,
              parse_run_other C (27 :: 91 :: (x ++ u)) st (by show (27 : Nat) ≠ 0; decide)
                rfl rfl (by rw [e1]; decide), e2,
              parse_run_other C (27 :: 91 :: (x ++ v)) st (by show (27 : Nat) ≠ 0; decide)
                rfl rfl (by rw [f1]; decide), f2]
        · have hL0 : L ≠ 0 := hnul1 L (by simp)
          have hLa := isalpha_of_not_seq_byte L hL hL0
          obtain ⟨e1, e2, e3⟩ := scan_stop s (t ++ u) L hs hL hL0
          obtain ⟨f1, f2, f3⟩ := scan_stop s (t ++ v) L hs hL hL0
          have hpu : (27 :: 91 :: (s ++ L :: t)) ++ u = 27 :: 91 :: (s ++ L :: (t ++ u)) := by
            simp
          have hpv : (27 :: 91 :: (s ++ L :: t)) ++ v = 27 :: 91 :: (s ++ L :: (t ++ v)) := by
            simp
          have hcol : set_colors st (27 :: 91 :: (s ++ L :: (t ++ u))) =
              set_colors st (27 :: 91 :: (s ++ L :: (t ++ v))) := by
            unfold set_colors
            rw [e2, f2]
          have hlen_t : t.length ≤ n := by
            simp only [List.length_append, List.length_cons] at hlen
            omega
          have hopen_t : open_sequence false t = false ∨
              ((∀ c ∈ u, seq_byte c = true) ∧ (∀ c ∈ v, seq_byte c = true)) := by
            rcases hopen with h3 | h3
            · left
              rw [open_sequence_intro, open_sequence_true_split s t L hs hLa] at h3
              exact h3
            · exact Or.inr h3
          have hbound_t : t.getLast? = some 27 → byte_at v ≠ 91 := by
            intro ht
            apply hbound
            have hne : t ≠ [] := by
              intro h
              rw [h] at ht
              exact absurd ht (by decide)
            rw [show 27 :: 91 :: (s ++ L :: t) = (27 :: 91 :: (s ++ [L])) ++ t from by simp,
              List.getLast?_append_of_ne_nil _ hne]
            exact ht
          have ih_t := fun st1 => ih t st1 hlen_t
            (fun d hd => hnul1 d (by simp [hd])) hopen_t hbound_t
          rw [hpu, hpv]
          by_cases hm : L = 109
          · by_cases hb : (st.line.segments st.segment_idx).width > 0 ∧
                st.segment_idx + 1 ≥ MAX_SEGMENTS_PER_LINE
            · rw [parse_run_break C (27 :: 91 :: (s ++ L :: (t ++ u))) st
                  (by show (27 : Nat) ≠ 0; decide) rfl rfl (by rw [e1]; exact hm) hb.1 hb.2,
                parse_run_break C (27 :: 91 :: (s ++ L :: (t ++ v))) st
                  (by show (27 : Nat) ≠ 0; decide) rfl rfl (by rw [f1]; exact hm) hb.1 hb.2,
                hcol]
            · rw [parse_run_style C (27 :: 91 :: (s ++ L :: (t ++ u))) st
                  (by show (27 : Nat) ≠ 0; decide) rfl rfl (by rw [e1]; exact hm) hb,
                parse_run_style C (27 :: 91 :: (s ++ L :: (t ++ v))) st
                  (by show (27 : Nat) ≠ 0; decide) rfl rfl (by rw [f1]; exact hm) hb,
                hcol, e3, f3]
              cases get_or_create_color_pair C st.reg
                  (set_colors st (27 :: 91 :: (s ++ L :: (t ++ v)))).current_fg
                  (set_colors st (27 :: 91 :: (s ++ L :: (t ++ v)))).current_bg with
              | none => rfl
              | some y => exact ih_t _
          · rw [parse_run_other C (27 :: 91 :: (s ++ L :: (t ++ u))) st
                (by show (27 : Nat) ≠ 0; decide) rfl rfl (by rw [e1]; exact hm), e3,
              parse_run_other C (27 :: 91 :: (s ++ L :: (t ++ v))) st
                (by show (27 : Nat) ≠ 0; decide) rfl rfl (by rw [f1]; exact hm), f3]
            exact ih_t st
      · have hpu : ¬ (byte_at ((c :: a1) ++ u) = 27 ∧ byte_at ((c :: a1) ++ u).tail = 91) := by
          show ¬ (c = 27 ∧ byte_at (a1 ++ u) = 91)
          cases a1 with
          | nil => exact fun h => hu h.2
          | cons d a2 => exact hi
        have hpv : ¬ (byte_at ((c :: a1) ++ v) = 27 ∧ byte_at ((c :: a1) ++ v).tail = 91) := by
          show ¬ (c = 27 ∧ byte_at (a1 ++ v) = 91)
          cases a1 with
          | nil =>
            intro h
            exact hbound (by rw [h.1]; rfl) h.2
          | cons d a2 => exact hi
        rw [parse_run_byte C ((c :: a1) ++ u) st (show byte_at ((c :: a1) ++ u) ≠ 0 from hc0) hpu,
          parse_run_byte C ((c :: a1) ++ v) st (show byte_at ((c :: a1) ++ v) ≠ 0 from hc0) hpv]
        show parse_loop C (a1 ++ u).length (a1 ++ u) (put_byte st c) =
          parse_loop C (a1 ++ v).length (a1 ++ v) (put_byte st c)
        apply ih a1 _ (by omega) hnul1
        · rcases hopen with h3 | h3
          · left
            rw [open_sequence_false_cons, if_neg hi] at h3
            exact h3
          · exact Or.inr h3
        · intro h1
          apply hbound
          cases a1 with
          | nil => exact absurd h1 (by decide)
          | cons d a2 =>
            rw [List.getLast?_cons_cons]
            exact h1

theorem parse_line_congr (C : Int) (reg : Registry) (line : MarqueeLine) (p1 p2 : List Nat)
    (h : ∀ st, parse_loop C p1.length p1 st = parse_loop C p2.length p2 st) :
    parse_line C reg line p1 = parse_line C reg line p2 := by
  unfold parse_line
  cases get_or_create_color_pair C reg COLOR_WHITE (-1) with
  | none => rfl
  | some x =>
    simp only []
    rw [h]

set_option maxRecDepth 4000 in
theorem parse_line_open_sequence_counterexample :
    (∀ c ∈ [27, 91, 51, 49], c ≠ 0) ∧ isalpha 72 = true ∧ (72 : Nat) ≠ 109 ∧
    ¬ ([27, 91, 51, 49].getLast? = some 27 ∧ byte_at [109, 90] = 91) ∧
    open_sequence false [27, 91, 51, 49] = true ∧
    (parse_line 256 Registry.fresh blank_line
      ([27, 91, 51, 49] ++ 27 :: 91 :: ([] ++ 72 :: [109, 90]))).map
        (fun r => (r.1.total_width, (r.1.segments 0).text)) = some (2, [109, 90]) ∧
    (parse_line 256 Registry.fresh blank_line ([27, 91, 51, 49] ++ [109, 90])).map
        (fun r => (r.1.total_width, (r.1.segments 0).text)) = some (1, [90]) ∧
    parse_line 256 Registry.fresh blank_line
        ([27, 91, 51, 49] ++ 27 :: 91 :: ([] ++ 72 :: [109, 90])) ≠
      parse_line 256 Registry.fresh blank_line ([27, 91, 51, 49] ++ [109, 90]) := by
  have h1 : (parse_line 256 Registry.fresh blank_line
      ([27, 91, 51, 49] ++ 27 :: 91 :: ([] ++ 72 :: [109, 90]))).map
        (fun r => (r.1.total_width, (r.1.segments 0).text)) = some (2, [109, 90]) := by decide
  have h2 : (parse_line 256 Registry.fresh blank_line ([27, 91, 51, 49] ++ [109, 90])).map
        (fun r => (r.1.total_width, (r.1.segments 0).text)) = some (1, [90]) := by decide
  refine ⟨by decide, by decide, by decide, by decide, by decide, h1, h2, ?_⟩
  intro h
  rw [h, h2] at h1
  exact absurd h1 (by decide)

/-- C17 (amended): let `a` be a NUL-free prefix, `q` a parameter string without NUL
and without letter, `X` a letter other than `m`, and `b` any suffix.  If `a` does not
end inside an escape sequence that is still unterminated, and not both `a` ends with
ESC and `b` starts with `[`, then the parse of `a`, ESC `[`, `q`, `X`, `b` is the
parse of `a` followed by `b`: same line, same registry.  For every such `a`, also one
that ends inside an unterminated sequence, the parse of `a` followed by the
unterminated ESC `[` `q` is the parse of `a`.  The parses return whenever the
registry stays inside its table. -/
theorem parse_line_discards_sequences (C : Int) (reg : Registry) (line : MarqueeLine)
    (a q b : List Nat) (X : Nat) (ha : ∀ c ∈ a, c ≠ 0)
    (hq : ∀ c ∈ q, c ≠ 0 ∧ isalpha c = false) (hX : isalpha X = true) (hXm : X ≠ 109) :
    (C ≤ 256 → reg.wf →
      (∃ r, parse_line C reg line (a ++ b) = some r) ∧
      ∃ r, parse_line C reg line a = some r) ∧
    (open_sequence false a = false → ¬ (a.getLast? = some 27 ∧ byte_at b = 91) →
      parse_line C reg line (a ++ 27 :: 91 :: (q ++ X :: b)) =
        parse_line C reg line (a ++ b)) ∧
    parse_line C reg line (a ++ 27 :: 91 :: q) = parse_line C reg line a := by
  have hq1 : ∀ c ∈ q, seq_byte c = true := by
    intro c hc
    obtain ⟨h1, h2⟩ := hq c hc
    simp [seq_byte, h1, h2]
  have hX0 : X ≠ 0 := by
    intro h
    rw [h] at hX
    exact absurd hX (by decide)
  have hXs : seq_byte X = false := by
    simp [seq_byte, hX]
  refine ⟨?_, ?_, ?_⟩
  · intro hC hwf
    obtain ⟨r1, hr1, _⟩ := parse_line_returns C reg line (a ++ b) hC hwf
    obtain ⟨r2, hr2, _⟩ := parse_line_returns C reg line a hC hwf
    exact ⟨⟨r1, hr1⟩, ⟨r2, hr2⟩⟩
  · intro hopen hbound
    apply parse_line_congr
    intro st
    apply parse_loop_splice C (27 :: 91 :: (q ++ X :: b)) b _
      (by show (27 : Nat) ≠ 91; decide) a.length a st
      (le_refl _) ha (Or.inl hopen) (fun h hb => hbound ⟨h, hb⟩)
    intro st1
    obtain ⟨e1, _, e3⟩ := scan_stop q b X hq1 hXs hX0
    rw [parse_run_other C (27 :: 91 :: (q ++ X :: b)) st1 (by show (27 : Nat) ≠ 0; decide)
      rfl rfl (by rw [e1]; exact hXm), e3]
  · apply parse_line_congr
    intro st
    have hsplice := parse_loop_splice C (27 :: 91 :: q) [] (by
        intro st1
        obtain ⟨e1, e2⟩ := scan_all q hq1
        rw [parse_run_other C (27 :: 91 :: q) st1 (by show (27 : Nat) ≠ 0; decide)
          rfl rfl (by rw [e1]; decide), e2])
      (by show (27 : Nat) ≠ 91; decide) a.length a st (le_refl _) ha
      (Or.inr ⟨by
        intro c hc
        rcases List.mem_cons.mp hc with h | h
        · rw [h]; decide
        · rcases List.mem_cons.mp h with h | h
          · rw [h]; decide
          · exact hq1 c h,
        fun c hc => absurd hc (List.not_mem_nil c)⟩)
      (fun _ => by decide)
    rw [List.append_nil] at hsplice
    exact hsplice

set_option maxRecDepth 4000 in
theorem parse_line_discards_sequences_witness :
    parse_line 256 Registry.fresh blank_line ([65] ++ 27 :: 91 :: ([50] ++ 74 :: [66])) =
      parse_line 256 Registry.fresh blank_line ([65] ++ [66]) ∧
    parse_line 256 Registry.fresh blank_line ([65] ++ 27 :: 91 :: [50]) =
      parse_line 256 Registry.fresh blank_line [65] ∧
    (parse_line 256 Registry.fresh blank_line ([65] ++ [66])).map
      (fun r => (r.1.segment_count, (r.1.segments 0).text)) = some (1, [65, 66]) ∧
    (parse_line 256 Registry.fresh blank_line [65]).map
      (fun r => (r.1.segment_count, (r.1.segments 0).text)) = some (1, [65]) := by
  obtain ⟨_, h1, h2⟩ := parse_line_discards_sequences 256 Registry.fresh blank_line
    [65] [50] [66] 74 (by decide) (by decide) (by decide) (by decide)
  exact ⟨h1 (by decide) (by decide), h2, by decide, by decide⟩

/-! ## C12, C13: the theorems on a concrete text -/

theorem build_text_block_lines_witness :
    ∃ blk, build_text_block 256 Registry.fresh (fun _ => blank_line) [65, 10, 10, 66] =
        some blk ∧ blk.line_count = 2 ∧
      (∃ reg0 reg1, parse_line 256 reg0 blank_line [65] = some (blk.lines 0, reg1)) ∧
      (∃ reg0 reg1, parse_line 256 reg0 blank_line [66] = some (blk.lines 1, reg1)) := by
  obtain ⟨hret, hall, _⟩ := build_text_block_lines 256 Registry.fresh (fun _ => blank_line)
    [65, 10, 10, 66]
  obtain ⟨blk, hblk⟩ := hret (by decide) Registry.fresh_wf
  obtain ⟨hcount, hline⟩ := hall blk hblk
  have hp : nonempty_pieces 10 (c_string [65, 10, 10, 66]) = [[65], [66]] := by decide
  rw [hp] at hcount hline
  exact ⟨blk, hblk, hcount, hline 0 [65] rfl (by decide), hline 1 [66] rfl (by decide)⟩

theorem build_text_block_summary_witness :
    ∃ blk, build_text_block 256 Registry.fresh (fun _ => blank_line) [65, 10, 66, 10, 67] =
        some blk ∧ blk.line_count = 3 ∧ blk.max_block_width = 1 ∧
      blk.line_count ≤ MAX_LINES ∧ blk.max_block_width = block_max blk.lines blk.line_count := by
  obtain ⟨hgen, hret, hex⟩ := build_text_block_summary 256 Registry.fresh (fun _ => blank_line)
  obtain ⟨blk, hblk⟩ := hret (by decide) Registry.fresh_wf
  obtain ⟨h1, h2⟩ := hex blk hblk
  obtain ⟨h3, h4⟩ := (hgen [65, 10, 66, 10, 67]).2 blk hblk
  exact ⟨blk, hblk, h1, h2, h3, h4⟩

/-! ## C1: the concatenation law from the capacities of the line -/

theorem run_lengths_from_nil (b : Bool) (n : Nat) : run_lengths_from b n [] = [n] := by
  cases b <;> rfl

theorem run_lengths_from_true_cons (n c : Nat) (rest : List Nat) :
    run_lengths_from true n (c :: rest) =
      if isalpha c then
        if c = 109 then n :: run_lengths_from false 0 rest else run_lengths_from false n rest
      else run_lengths_from true n rest := by
  rw [run_lengths_from]

theorem run_lengths_from_false_cons (n c : Nat) (rest : List Nat) :
    run_lengths_from false n (c :: rest) =
      if c = 27 ∧ byte_at rest = 91 then run_lengths_from true n rest
      else run_lengths_from false (n + 1) rest := by
  rw [run_lengths_from]

theorem run_lengths_from_ne_nil (x : List Nat) :
    ∀ (b : Bool) (n : Nat), run_lengths_from b n x ≠ [] := by
  induction x with
  | nil => intro b n; rw [run_lengths_from_nil]; simp
  | cons c rest ih =>
    intro b n
    cases b
    · rw [run_lengths_from_false_cons]
      split_ifs
      · exact ih _ _
      · exact ih _ _
    · rw [run_lengths_from_true_cons]
      split_ifs
      · simp
      · exact ih _ _
      · exact ih _ _

/-- The count so far is at most one of the counts of the line. -/
theorem run_lengths_from_head (x : List Nat) :
    ∀ (b : Bool) (n : Nat), ∃ m ∈ run_lengths_from b n x, n ≤ m := by
  induction x with
  | nil => intro b n; rw [run_lengths_from_nil]; exact ⟨n, by simp, le_refl n⟩
  | cons c rest ih =>
    intro b n
    cases b
    · rw [run_lengths_from_false_cons]
      split_ifs
      · exact ih _ _
      · obtain ⟨m, hm, hle⟩ := ih false (n + 1)
        exact ⟨m, hm, by omega⟩
    · rw [run_lengths_from_true_cons]
      split_ifs
      · exact ⟨n, by simp, le_refl n⟩
      · exact ih _ _
      · exact ih _ _

theorem run_lengths_in_seq (body : List Nat) (hnul : ∀ c ∈ body, c ≠ 0) (n : Nat) :
    run_lengths_from true n body =
      if byte_at (body.dropWhile seq_byte) = 109 then
        n :: run_lengths_from false 0 (body.dropWhile seq_byte).tail
      else run_lengths_from false n
        (if byte_at (body.dropWhile seq_byte) ≠ 0 then (body.dropWhile seq_byte).tail
         else body.dropWhile seq_byte) := by
  induction body with
  | nil =>
    rw [run_lengths_from_nil]
    simp [byte_at, run_lengths_from_nil]
  | cons c b ih =>
    have hc : c ≠ 0 := hnul c (List.mem_cons_self c b)
    have hb : ∀ x ∈ b, x ≠ 0 := fun x hx => hnul x (List.mem_cons_of_mem c hx)
    rw [run_lengths_from_true_cons]
    by_cases ha : isalpha c = true
    · have hs : ¬ (seq_byte c = true) := by simp [seq_byte, ha]
      rw [if_pos ha, List.dropWhile_cons_of_neg hs]
      simp only [byte_at_cons, List.tail_cons]
      rw [if_pos hc]
    · have hs : seq_byte c = true := by simp [seq_byte, ha, hc]
      rw [if_neg ha, List.dropWhile_cons_of_pos hs]
      exact ih hb

theorem run_lengths_seq (p : List Nat) (hnul : ∀ c ∈ p, c ≠ 0)
    (h1 : byte_at p = 27) (h2 : byte_at p.tail = 91) (n : Nat) :
    run_lengths_from false n p =
      if byte_at (seq_end p) = 109 then n :: run_lengths_from false 0 (after_seq p)
      else run_lengths_from false n (after_seq p) := by
  have e1 : p = 27 :: p.tail := by
    have := eq_cons_of_byte_at_ne_zero p (by omega); rwa [h1] at this
  have e2 : p.tail = 91 :: p.tail.tail := by
    have := eq_cons_of_byte_at_ne_zero p.tail (by omega); rwa [h2] at this
  have hb : ∀ c ∈ p.tail.tail, c ≠ 0 := fun c hc =>
    hnul c (List.mem_of_mem_tail (List.mem_of_mem_tail hc))
  have h3 : run_lengths_from false n p = run_lengths_from true n p.tail.tail := by
    conv_lhs => rw [e1]
    rw [run_lengths_from_false_cons, if_pos ⟨rfl, h2⟩]
    conv_lhs => rw [e2]
    rw [run_lengths_from_true_cons, isalpha_91]
    simp
  rw [h3, run_lengths_in_seq _ hb]
  by_cases hm : byte_at (seq_end p) = 109
  · have hm1 : byte_at (List.dropWhile seq_byte p.tail.tail) = 109 := hm
    rw [if_pos hm, if_pos hm1]
    unfold after_seq
    rw [if_pos (by rw [hm]; decide)]
    rfl
  · have hm1 : ¬ byte_at (List.dropWhile seq_byte p.tail.tail) = 109 := hm
    rw [if_neg hm, if_neg hm1]
    rfl

theorem run_lengths_byte (p : List Nat) (h0 : byte_at p ≠ 0)
    (h1 : ¬ (byte_at p = 27 ∧ byte_at p.tail = 91)) (n : Nat) :
    run_lengths_from false n p = run_lengths_from false (n + 1) p.tail := by
  have e1 : p = byte_at p :: p.tail := eq_cons_of_byte_at_ne_zero p h0
  conv_lhs => rw [e1]
  rw [run_lengths_from_false_cons, if_neg h1]

theorem closed_count_cons (n : Nat) (counts : List Nat) (h : counts ≠ []) :
    closed_count (n :: counts) = (if 0 < n then 1 else 0) + closed_count counts := by
  unfold closed_count
  rw [List.dropLast_cons_of_ne_nil h, List.filter_cons]
  split_ifs with h1 h2 h2
  · simp only [List.length_cons]; omega
  · simp at h1; omega
  · simp at h1; omega
  · simp

/-- A line within the capacities: no byte is dropped and the loop is not left by
`break`. -/
theorem parse_loop_within (C : Int) :
    ∀ fuel p st r, parse_loop C fuel p st = some r → (∀ c ∈ p, c ≠ 0) →
      (∀ n ∈ run_lengths_from false (st.line.segments st.segment_idx).width p, n ≤ 511) →
      st.segment_idx +
        closed_count (run_lengths_from false (st.line.segments st.segment_idx).width p) < 128 →
      r.line.total_width = st.line.total_width + (strip_escapes p).length ∧
      r.segment_idx < MAX_SEGMENTS_PER_LINE := by
  apply parse_loop_cases C (fun p st r => (∀ c ∈ p, c ≠ 0) →
      (∀ n ∈ run_lengths_from false (st.line.segments st.segment_idx).width p, n ≤ 511) →
      st.segment_idx +
        closed_count (run_lengths_from false (st.line.segments st.segment_idx).width p) < 128 →
      r.line.total_width = st.line.total_width + (strip_escapes p).length ∧
      r.segment_idx < MAX_SEGMENTS_PER_LINE)
  · intro p st h0 hnul _ hcl
    have hp := eq_nil_of_byte_at_eq_zero p hnul h0
    subst hp
    refine ⟨rfl, ?_⟩
    simp only [MAX_SEGMENTS_PER_LINE]
    omega
  · intro p st _ h1 h2 hm hw hfull hnul _ hcl
    exfalso
    rw [run_lengths_seq p hnul h1 h2, if_pos hm,
      closed_count_cons _ _ (run_lengths_from_ne_nil _ _ _), if_pos hw] at hcl
    simp only [MAX_SEGMENTS_PER_LINE] at hfull
    omega
  · intro p st h reg r _ h1 h2 hm _ _ ih hnul hfit hcl
    rw [run_lengths_seq p hnul h1 h2, if_pos hm] at hfit hcl
    rw [closed_count_cons _ _ (run_lengths_from_ne_nil _ _ _)] at hcl
    rw [strip_escapes_seq p hnul h1 h2]
    have hnul1 : ∀ c ∈ after_seq p, c ≠ 0 :=
      fun c hc => hnul c (mem_of_mem_suffix (after_seq_suffix p) hc)
    have hw1 : ((open_segment (advance_segment (set_colors st p)) h reg).line.segments
        (open_segment (advance_segment (set_colors st p)) h reg).segment_idx).width = 0 := by
      simp [open_segment, set_segment_same]
    by_cases hw : (st.line.segments st.segment_idx).width > 0
    · obtain ⟨a1, _, a3, _⟩ := open_segment_of_nonempty st p h reg hw
      rw [if_pos hw] at hcl
      have := ih hnul1 (by rw [hw1]; exact fun n hn => hfit n (List.mem_cons_of_mem _ hn))
        (by rw [hw1, a1]; omega)
      rw [a3] at this
      exact this
    · obtain ⟨a1, _, a3, _⟩ := open_segment_of_empty st p h reg (by omega)
      rw [if_neg hw] at hcl
      have := ih hnul1 (by rw [hw1]; exact fun n hn => hfit n (List.mem_cons_of_mem _ hn))
        (by rw [hw1, a1]; omega)
      rw [a3] at this
      exact this
  · intro p st r _ h1 h2 hm ih hnul hfit hcl
    rw [run_lengths_seq p hnul h1 h2, if_neg hm] at hfit hcl
    rw [strip_escapes_seq p hnul h1 h2]
    exact ih (fun c hc => hnul c (mem_of_mem_suffix (after_seq_suffix p) hc)) hfit hcl
  · intro p st r h0 h1 ih hnul hfit hcl
    rw [run_lengths_byte p h0 h1] at hfit hcl
    rw [strip_escapes_byte p h0 h1, List.length_cons]
    obtain ⟨m, hm, hle⟩ := run_lengths_from_head p.tail false
      ((st.line.segments st.segment_idx).width + 1)
    have hm511 := hfit m hm
    have hlt : (st.line.segments st.segment_idx).width < MAX_TEXT_PER_SEGMENT - 1 := by
      simp only [MAX_TEXT_PER_SEGMENT]
      omega
    obtain ⟨b1, b2, b3, _⟩ := put_byte_of_fits st (byte_at p) hlt
    have hw1 : ((put_byte st (byte_at p)).line.segments
        (put_byte st (byte_at p)).segment_idx).width =
        (st.line.segments st.segment_idx).width + 1 := by
      rw [b1, b2, set_segment_same]
    have := ih (fun c hc => hnul c (List.mem_of_mem_tail hc)) (by rw [hw1]; exact hfit)
      (by rw [hw1, b1]; exact hcl)
    rw [b3] at this
    refine ⟨by omega, this.2⟩

/-- C1: for every NUL-free line within the capacities, stated on the line itself (no
stretch of visible bytes between style-change sequences is longer than 511 bytes, so
no segment receives more; fewer than 128 non-empty stretches are followed by a
style-change sequence, so fewer than 128 segments are closed), the texts of the
segments of the parse joined in order are the line without its escape sequences; no
visible byte is dropped and at most 128 segments are counted.  The parse returns
whenever the registry stays inside its table. -/
theorem parse_line_concatenation (C : Int) (reg : Registry) (line : MarqueeLine)
    (line_text : List Nat) (hnul : ∀ c ∈ line_text, c ≠ 0)
    (hfit : ∀ n ∈ run_lengths line_text, n ≤ 511)
    (hclosed : closed_segments line_text < 128) :
    (C ≤ 256 → reg.wf → ∃ r, parse_line C reg line line_text = some r) ∧
    ∀ r, parse_line C reg line line_text = some r →
      r.1.joined_text = strip_escapes line_text ∧
      r.1.total_width = (strip_escapes line_text).length ∧
      r.1.segment_count ≤ 128 := by
  constructor
  · intro hC hwf
    obtain ⟨r, hr, _⟩ := parse_line_returns C reg line line_text hC hwf
    exact ⟨r, hr⟩
  · intro r hr
    obtain ⟨h0, reg1, st, _, hloop, rfl⟩ := parse_line_eq C reg line line_text r hr
    obtain ⟨hc0, he0, ht0, hi0⟩ := parse_start_spec line h0 reg1
    have hw0 : ((parse_start line h0 reg1).line.segments
        (parse_start line h0 reg1).segment_idx).width = 0 := by
      simp [parse_start, set_segment_same]
    obtain ⟨htot, hidx⟩ := parse_loop_within C _ _ _ _ hloop hnul
      (by rw [hw0]; exact hfit)
      (by rw [hw0, hi0, Nat.zero_add]; exact hclosed)
    obtain ⟨he, hc⟩ := (parse_loop_concat C _ _ _ _ hloop hnul).2 hc0 hidx htot
    rw [he0, List.nil_append] at he
    rw [ht0, Nat.zero_add] at htot
    refine ⟨by show (parse_finish st).joined_text = _; rw [joined_text_parse_finish st hc, he],
      htot, ?_⟩
    show (parse_finish st).segment_count ≤ 128
    simp only [parse_finish]
    simp only [MAX_SEGMENTS_PER_LINE] at hidx
    split_ifs <;> omega

theorem parse_line_concatenation_witness :
    run_lengths red_line = [0, 3, 0] ∧ closed_segments red_line = 1 ∧
    ∃ r, parse_line 256 Registry.fresh blank_line red_line = some r ∧
      r.1.joined_text = [82, 69, 68] ∧ r.1.total_width = 3 ∧ r.1.segment_count ≤ 128 := by
  obtain ⟨hret, hcat⟩ := parse_line_concatenation 256 Registry.fresh blank_line red_line
    (by decide) (by decide) (by decide)
  obtain ⟨r, hr⟩ := hret (by decide) Registry.fresh_wf
  obtain ⟨h1, h2, h3⟩ := hcat r hr
  have hs : strip_escapes red_line = [82, 69, 68] := by decide
  rw [hs] at h1 h2
  exact ⟨by decide, by decide, r, hr, h1, h2, h3⟩

/-! ## C18: the segment that receives the text after two style changes -/

theorem open_advance_facts (st : ParseState) (h : Nat) (reg : Registry) :
    (open_segment (advance_segment st) h reg).segment_idx =
      (if (st.line.segments st.segment_idx).width > 0 then st.segment_idx + 1
       else st.segment_idx) ∧
    (open_segment (advance_segment st) h reg).line.segments =
      set_segment st.line.segments
        (if (st.line.segments st.segment_idx).width > 0 then st.segment_idx + 1
         else st.segment_idx) ⟨[], 0, h⟩ ∧
    (open_segment (advance_segment st) h reg).line.total_width = st.line.total_width ∧
    (open_segment (advance_segment st) h reg).reg = reg := by
  unfold advance_segment
  split_ifs <;> exact ⟨rfl, rfl, rfl, rfl⟩

/-- A style change that lets the loop return has had its registry call answered. -/
theorem parse_loop_sgr_line_some (C : Int) (fuel : Nat) (st r : ParseState)
    (codes t : List Nat) (hc : ∀ c ∈ codes, seq_byte c = true)
    (hroom : ¬ ((st.line.segments st.segment_idx).width > 0 ∧
      st.segment_idx + 1 ≥ MAX_SEGMENTS_PER_LINE))
    (hloop : parse_loop C (fuel + 1) (sgr_line codes t) st = some r) :
    ∃ h reg, get_or_create_color_pair C st.reg
        (sgr_codes (strtok_all 59 codes []) (st.current_fg, st.current_bg)).1
        (sgr_codes (strtok_all 59 codes []) (st.current_fg, st.current_bg)).2 = some (h, reg) ∧
      parse_loop C fuel t (open_segment (advance_segment
        { st with
          current_fg := (sgr_codes (strtok_all 59 codes []) (st.current_fg, st.current_bg)).1,
          current_bg := (sgr_codes (strtok_all 59 codes []) (st.current_fg, st.current_bg)).2 })
        h reg) = some r := by
  cases hcall : get_or_create_color_pair C st.reg
      (sgr_codes (strtok_all 59 codes []) (st.current_fg, st.current_bg)).1
      (sgr_codes (strtok_all 59 codes []) (st.current_fg, st.current_bg)).2 with
  | none =>
    exfalso
    obtain ⟨a1, _, _⟩ := sgr_line_scan codes t hc
    rw [parse_loop_style C fuel (sgr_line codes t) st (by show (27 : Nat) ≠ 0; decide) rfl rfl
      (by rw [a1]; rfl) hroom, set_colors_sgr_line st codes t hc] at hloop
    simp only [] at hloop
    rw [hcall] at hloop
    exact absurd hloop (by simp)
  | some x =>
    obtain ⟨h, reg⟩ := x
    rw [parse_loop_sgr_line C fuel st codes t hc hroom h reg hcall] at hloop
    exact ⟨h, reg, rfl, hloop⟩

/-- Two style changes in a row followed by a text, in any state of the loop that is
not at the segment limit: the text goes to one segment, the next one if the current
segment has text and the current one if it is empty; no segment is put between; the
handle of that segment is what the registry call for the colours of the second
sequence returned. -/
theorem parse_loop_two_styles_text (C : Int) (fuel : Nat) (st r : ParseState)
    (c1 c2 t : List Nat)
    (hc1 : ∀ c ∈ c1, seq_byte c = true) (hc2 : ∀ c ∈ c2, seq_byte c = true)
    (hnul : ∀ c ∈ t, c ≠ 0) (hesc : has_escape t = false) (hlen : t.length ≤ 511)
    (hroom : ¬ ((st.line.segments st.segment_idx).width > 0 ∧
      st.segment_idx + 1 ≥ MAX_SEGMENTS_PER_LINE))
    (hfuel : (sgr_line c1 (sgr_line c2 t)).length ≤ fuel)
    (hloop : parse_loop C fuel (sgr_line c1 (sgr_line c2 t)) st = some r) :
    r.segment_idx =
      (if (st.line.segments st.segment_idx).width > 0 then st.segment_idx + 1
       else st.segment_idx) ∧
    (∀ i, i < r.segment_idx → r.line.segments i = st.line.segments i) ∧
    (r.line.segments r.segment_idx).text = t ∧
    (r.line.segments r.segment_idx).width = t.length ∧
    ∃ h1 reg1,
      get_or_create_color_pair C st.reg
        (sgr_codes (strtok_all 59 c1 []) (st.current_fg, st.current_bg)).1
        (sgr_codes (strtok_all 59 c1 []) (st.current_fg, st.current_bg)).2 = some (h1, reg1) ∧
      get_or_create_color_pair C reg1
        (sgr_codes (strtok_all 59 c2 [])
          (sgr_codes (strtok_all 59 c1 []) (st.current_fg, st.current_bg))).1
        (sgr_codes (strtok_all 59 c2 [])
          (sgr_codes (strtok_all 59 c1 []) (st.current_fg, st.current_bg))).2 =
        some ((r.line.segments r.segment_idx).ncurses_pair_id, r.reg) := by
  have hl : (sgr_line c1 (sgr_line c2 t)).length =
      (t.length + c1.length + c2.length + 4) + 1 + 1 := by
    simp only [sgr_line, List.length_cons, List.length_append]
    omega
  rw [parse_loop_fuel C fuel _ _ st hfuel (le_refl _), hl] at hloop
  obtain ⟨h1, reg1, hcall1, hloop1⟩ :=
    parse_loop_sgr_line_some C _ st r c1 (sgr_line c2 t) hc1 hroom hloop
  obtain ⟨f1, f2, f3, f4⟩ := open_segment_fields
    { st with
      current_fg := (sgr_codes (strtok_all 59 c1 []) (st.current_fg, st.current_bg)).1,
      current_bg := (sgr_codes (strtok_all 59 c1 []) (st.current_fg, st.current_bg)).2 } h1 reg1
  obtain ⟨h2, reg2, hcall2, hloop2⟩ :=
    parse_loop_sgr_line_some C _ _ r c2 t hc2 (by rw [f4]; simp) hloop1
  rw [f1, f2, f3] at hcall2
  rw [f2, f3, open_segment_twice] at hloop2
  simp only [] at hcall2
  obtain ⟨g1, g2, _, g4⟩ := open_advance_facts
    { st with
      current_fg := (sgr_codes (strtok_all 59 c2 [])
        (sgr_codes (strtok_all 59 c1 []) (st.current_fg, st.current_bg))).1,
      current_bg := (sgr_codes (strtok_all 59 c2 [])
        (sgr_codes (strtok_all 59 c1 []) (st.current_fg, st.current_bg))).2 } h2 reg2
  simp only [] at g1 g2
  generalize open_segment (advance_segment
    { st with
      current_fg := (sgr_codes (strtok_all 59 c2 [])
        (sgr_codes (strtok_all 59 c1 []) (st.current_fg, st.current_bg))).1,
      current_bg := (sgr_codes (strtok_all 59 c2 [])
        (sgr_codes (strtok_all 59 c1 []) (st.current_fg, st.current_bg))).2 }) h2 reg2 = s2
    at hloop2 g1 g2 g4
  generalize hk : (if (st.line.segments st.segment_idx).width > 0 then st.segment_idx + 1
    else st.segment_idx) = k at g1 g2 ⊢
  have hseg2 : s2.line.segments s2.segment_idx = ⟨[], 0, h2⟩ := by
    rw [g1, g2, set_segment_same]
  have hcons2 : s2.consistent := by
    unfold ParseState.consistent
    rw [hseg2]
    rfl
  have hst := parse_loop_plain C _ _ _ _ hloop2 hnul hesc
  obtain ⟨b1, b2, _, b4, _, _⟩ := foldl_put_byte_fits t s2 hcons2
    (by rw [hseg2]; simpa [MAX_TEXT_PER_SEGMENT] using hlen)
  rw [← hst] at b1 b2 b4
  rw [hseg2, g1, g2, set_segment_set_segment] at b2
  rw [g1] at b1
  rw [g4] at b4
  simp only [List.nil_append, Nat.zero_add] at b2
  have hsegk : r.line.segments k = ⟨t, t.length, h2⟩ := by
    rw [b2, set_segment_same]
  refine ⟨b1, ?_, ?_, ?_, h1, reg1, hcall1, ?_⟩
  · intro i hi
    rw [b1] at hi
    rw [b2, set_segment_other _ _ _ _ (by omega)]
  · rw [b1, hsegk]
  · rw [b1, hsegk]
  · rw [b1, hsegk, b4]
    exact hcall2

/-- A line made of a text, two style changes in a row and a second text. -/
theorem parse_line_two_styles (C : Int) (reg : Registry) (line : MarqueeLine)
    (t0 c1 c2 t : List Nat) (hwf : reg.wf)
    (ht0 : ∀ c ∈ t0, c ≠ 0 ∧ c ≠ 27) (hl0 : t0.length ≤ 511)
    (hc1 : ∀ c ∈ c1, seq_byte c = true) (hc2 : ∀ c ∈ c2, seq_byte c = true)
    (hnul : ∀ c ∈ t, c ≠ 0) (hesc : has_escape t = false) (hpos : 0 < t.length)
    (hlen : t.length ≤ 511) (r : MarqueeLine × Registry)
    (hr : parse_line C reg line (t0 ++ sgr_line c1 (sgr_line c2 t)) = some r) :
    r.1.segment_count = (if t0 = [] then 1 else 2) ∧
    (t0 ≠ [] → (r.1.segments 0).text = t0 ∧
      get_or_create_color_pair C r.2 COLOR_WHITE (-1) =
        some ((r.1.segments 0).ncurses_pair_id, r.2)) ∧
    (r.1.segments (r.1.segment_count - 1)).text = t ∧
    (r.1.segments (r.1.segment_count - 1)).width = t.length ∧
    get_or_create_color_pair C r.2
      (sgr_codes (strtok_all 59 c2 [])
        (sgr_codes (strtok_all 59 c1 []) (COLOR_WHITE, -1))).1
      (sgr_codes (strtok_all 59 c2 [])
        (sgr_codes (strtok_all 59 c1 []) (COLOR_WHITE, -1))).2 =
      some ((r.1.segments (r.1.segment_count - 1)).ncurses_pair_id, r.2) := by
  obtain ⟨h7, reg1, st, hcall0, hloop, rfl⟩ := parse_line_eq C reg line _ r hr
  have hwf1 := get_or_create_color_pair_wf C reg reg1 _ _ h7 hwf hcall0
  rw [List.length_append, Nat.add_comm, parse_loop_bytes C t0 ht0] at hloop
  have hw0 : ((parse_start line h7 reg1).line.segments
      (parse_start line h7 reg1).segment_idx).width = 0 := by
    simp [parse_start, set_segment_same]
  have hseg0 : (parse_start line h7 reg1).line.segments
      (parse_start line h7 reg1).segment_idx = ⟨[], 0, h7⟩ := by
    simp [parse_start, set_segment_same]
  obtain ⟨i1, i2, _, i4, i5, i6⟩ := foldl_put_byte_fits t0 (parse_start line h7 reg1)
    (parse_start_spec line h7 reg1).1
    (by rw [hw0]; simpa [MAX_TEXT_PER_SEGMENT] using hl0)
  rw [hseg0] at i2
  simp only [List.nil_append, Nat.zero_add] at i2
  rw [show (parse_start line h7 reg1).segment_idx = 0 from rfl] at i1 i2
  rw [show (parse_start line h7 reg1).reg = reg1 from rfl] at i4
  rw [show (parse_start line h7 reg1).current_fg = COLOR_WHITE from rfl] at i5
  rw [show (parse_start line h7 reg1).current_bg = -1 from rfl] at i6
  generalize List.foldl put_byte (parse_start line h7 reg1) t0 = s0 at hloop i1 i2 i4 i5 i6
  have hs0 : s0.line.segments 0 = ⟨t0, t0.length, h7⟩ := by
    rw [i2, set_segment_same]
  obtain ⟨k1, k2, k3, k4, h1, reg2, hcall1, hcall2⟩ :=
    parse_loop_two_styles_text C _ s0 st c1 c2 t hc1 hc2 hnul hesc hlen
      (by rw [i1]; simp [MAX_SEGMENTS_PER_LINE]) (le_refl _) hloop
  rw [i1, hs0] at k1
  rw [i4, i5, i6] at hcall1
  rw [i5, i6] at hcall2
  simp only [Nat.zero_add] at k1
  have hwf2 := get_or_create_color_pair_wf C reg1 reg2 _ _ h1 hwf1 hcall1
  obtain ⟨w1, _⟩ := get_or_create_color_pair_stable C reg reg1 reg2 COLOR_WHITE (-1)
    _ _ h7 h1 hwf hcall0 hcall1
  obtain ⟨w2, w3⟩ := get_or_create_color_pair_stable C reg2 reg2 st.reg COLOR_WHITE (-1)
    _ _ h7 _ hwf2 w1 hcall2
  show (parse_finish st).segment_count = _ ∧ (_ → ((parse_finish st).segments 0).text = _ ∧
    get_or_create_color_pair C st.reg COLOR_WHITE (-1) =
      some (((parse_finish st).segments 0).ncurses_pair_id, st.reg)) ∧
    ((parse_finish st).segments ((parse_finish st).segment_count - 1)).text = t ∧
    ((parse_finish st).segments ((parse_finish st).segment_count - 1)).width = t.length ∧
    get_or_create_color_pair C st.reg _ _ =
      some (((parse_finish st).segments ((parse_finish st).segment_count - 1)).ncurses_pair_id,
        st.reg)
  simp only [parse_finish]
  by_cases he : t0 = []
  · have hz : ¬ (t0.length > 0) := by rw [he]; simp
    rw [if_neg hz] at k1
    rw [k1] at k3 k4 w3
    rw [k1, if_pos (Or.inl (by rw [k4]; exact hpos)), if_pos he]
    exact ⟨rfl, fun h => absurd he h, k3, k4, w3⟩
  · have hz : t0.length > 0 := List.length_pos.mpr he
    rw [if_pos hz] at k1
    rw [k1] at k2 k3 k4 w3
    have h0 := k2 0 (by omega)
    rw [hs0] at h0
    rw [k1, if_pos (Or.inr (by omega)), if_neg he]
    refine ⟨rfl, fun _ => ⟨by rw [h0], by rw [h0]; exact w2⟩, k3, k4, w3⟩

/-- C18: in the result of every parse, a segment that is followed by another segment
has width > 0, so two style-change sequences with no text between them leave no empty
segment between them.  The segment that receives the text after two such sequences
carries the handle of the colours that the second sequence computes: for a line made
of a text `t0` without ESC, two sequences with the parameter strings `c1`, `c2` and a
text `t` of 1 to 511 bytes without escape introducer, the parse counts one segment if
`t0` is empty and two if not, the last one holds `t` and its handle is the one the
registry gives for the colours of `c2` applied after `c1`; and in any state of the
loop below the segment limit the two sequences followed by `t` fill exactly one
segment, the current one if it is empty and the next one if not, leave the segments
before it as they are, and give it the handle that the registry call for the colours
of the second sequence returned.  The parse returns whenever the registry stays
inside its table. -/
theorem parse_line_style_collapse (C : Int) (reg : Registry) (line : MarqueeLine)
    (line_text : List Nat) :
    (C ≤ 256 → reg.wf → ∃ r, parse_line C reg line line_text = some r) ∧
    (∀ r, parse_line C reg line line_text = some r →
      ∀ i, i + 1 < r.1.segment_count → (r.1.segments i).width > 0) ∧
    (∀ (t0 c1 c2 t : List Nat), reg.wf →
      (∀ c ∈ t0, c ≠ 0 ∧ c ≠ 27) → t0.length ≤ 511 →
      (∀ c ∈ c1, seq_byte c = true) → (∀ c ∈ c2, seq_byte c = true) →
      (∀ c ∈ t, c ≠ 0) → has_escape t = false → 0 < t.length → t.length ≤ 511 →
      (C ≤ 256 → ∃ r, parse_line C reg line (t0 ++ sgr_line c1 (sgr_line c2 t)) = some r) ∧
      ∀ r, parse_line C reg line (t0 ++ sgr_line c1 (sgr_line c2 t)) = some r →
        r.1.segment_count = (if t0 = [] then 1 else 2) ∧
        (t0 ≠ [] → (r.1.segments 0).text = t0 ∧
          get_or_create_color_pair C r.2 COLOR_WHITE (-1) =
            some ((r.1.segments 0).ncurses_pair_id, r.2)) ∧
        (r.1.segments (r.1.segment_count - 1)).text = t ∧
        (r.1.segments (r.1.segment_count - 1)).width = t.length ∧
        get_or_create_color_pair C r.2
          (sgr_codes (strtok_all 59 c2 [])
            (sgr_codes (strtok_all 59 c1 []) (COLOR_WHITE, -1))).1
          (sgr_codes (strtok_all 59 c2 [])
            (sgr_codes (strtok_all 59 c1 []) (COLOR_WHITE, -1))).2 =
          some ((r.1.segments (r.1.segment_count - 1)).ncurses_pair_id, r.2)) ∧
    ∀ (fuel : Nat) (st r : ParseState) (c1 c2 t : List Nat),
      (∀ c ∈ c1, seq_byte c = true) → (∀ c ∈ c2, seq_byte c = true) →
      (∀ c ∈ t, c ≠ 0) → has_escape t = false → t.length ≤ 511 →
      ¬ ((st.line.segments st.segment_idx).width > 0 ∧
        st.segment_idx + 1 ≥ MAX_SEGMENTS_PER_LINE) →
      (sgr_line c1 (sgr_line c2 t)).length ≤ fuel →
      parse_loop C fuel (sgr_line c1 (sgr_line c2 t)) st = some r →
      r.segment_idx =
        (if (st.line.segments st.segment_idx).width > 0 then st.segment_idx + 1
         else st.segment_idx) ∧
      (∀ i, i < r.segment_idx → r.line.segments i = st.line.segments i) ∧
      (r.line.segments r.segment_idx).text = t ∧
      (r.line.segments r.segment_idx).width = t.length ∧
      ∃ h1 reg1,
        get_or_create_color_pair C st.reg
          (sgr_codes (strtok_all 59 c1 []) (st.current_fg, st.current_bg)).1
          (sgr_codes (strtok_all 59 c1 []) (st.current_fg, st.current_bg)).2 =
          some (h1, reg1) ∧
        get_or_create_color_pair C reg1
          (sgr_codes (strtok_all 59 c2 [])
            (sgr_codes (strtok_all 59 c1 []) (st.current_fg, st.current_bg))).1
          (sgr_codes (strtok_all 59 c2 [])
            (sgr_codes (strtok_all 59 c1 []) (st.current_fg, st.current_bg))).2 =
          some ((r.line.segments r.segment_idx).ncurses_pair_id, r.reg) := by
  refine ⟨?_, ?_, ?_, ?_⟩
  · intro hC hwf
    obtain ⟨r, hr, _⟩ := parse_line_returns C reg line line_text hC hwf
    exact ⟨r, hr⟩
  · intro r hr i hi
    obtain ⟨h0, reg1, st, _, hloop, rfl⟩ := parse_line_eq C reg line line_text r hr
    have hinv := parse_loop_closed_nonempty C _ _ _ _ hloop
      (fun i hi => absurd hi (Nat.not_lt_zero i))
    have hi2 : i + 1 < (parse_finish st).segment_count := hi
    show ((parse_finish st).segments i).width > 0
    simp only [parse_finish] at hi2 ⊢
    split_ifs at hi2 with hc
    · exact hinv i (by omega)
    · omega
  · intro t0 c1 c2 t hwf ht0 hl0 hc1 hc2 hnul hesc hpos hlen
    constructor
    · intro hC
      obtain ⟨r, hr, _⟩ := parse_line_returns C reg line _ hC hwf
      exact ⟨r, hr⟩
    · intro r hr
      exact parse_line_two_styles C reg line t0 c1 c2 t hwf ht0 hl0 hc1 hc2 hnul hesc hpos
        hlen r hr
  · intro fuel st r c1 c2 t hc1 hc2 hnul hesc hlen hroom hfuel hloop
    exact parse_loop_two_styles_text C fuel st r c1 c2 t hc1 hc2 hnul hesc hlen hroom hfuel
      hloop

set_option maxRecDepth 8000 in
theorem parse_line_style_collapse_witness :
    ∃ r, parse_line 256 Registry.fresh blank_line
        ([65] ++ sgr_line [51, 49] (sgr_line [51, 50] [66])) = some r ∧
      r.1.segment_count = 2 ∧ (r.1.segments 0).width > 0 ∧
      (r.1.segments 0).text = [65] ∧ (r.1.segments 1).text = [66] ∧
      get_or_create_color_pair 256 r.2 COLOR_WHITE (-1) =
        some ((r.1.segments 0).ncurses_pair_id, r.2) ∧
      get_or_create_color_pair 256 r.2 2 (-1) =
        some ((r.1.segments 1).ncurses_pair_id, r.2) ∧
      (r.1.segments 0).ncurses_pair_id = 1 ∧ (r.1.segments 1).ncurses_pair_id = 3 := by
  obtain ⟨hret, hpos, hline, _⟩ := parse_line_style_collapse 256 Registry.fresh blank_line
    ([65] ++ sgr_line [51, 49] (sgr_line [51, 50] [66]))
  obtain ⟨r, hr⟩ := hret (by decide) Registry.fresh_wf
  obtain ⟨e1, e2, e3, _, e5⟩ := (hline [65] [51, 49] [51, 50] [66] Registry.fresh_wf
    (by decide) (by decide) (by decide) (by decide) (by decide) (by decide) (by decide)
    (by decide)).2 r hr
  have c2 : r.1.segment_count = 2 := e1
  rw [c2] at e3 e5
  obtain ⟨e20, e21⟩ := e2 (by decide)
  have e : (parse_line 256 Registry.fresh blank_line
      ([65] ++ sgr_line [51, 49] (sgr_line [51, 50] [66]))).map
      (fun r => ((r.1.segments 0).ncurses_pair_id, (r.1.segments 1).ncurses_pair_id)) =
      some (1, 3) := by decide
  rw [hr] at e
  simp only [Option.map_some', Option.some.injEq, Prod.mk.injEq] at e
  exact ⟨r, hr, c2, hpos r hr 0 (by rw [c2]; decide), e20, e3, e21, e5, e.1, e.2⟩

end Marquee
